import Mathlib

/-!
Verification of the splitwise bill-splitting core: a shallow embedding of

  * `parse_bill_input`   (backend/app/services/bill_splitter.py, src/splitwise/bill_parser.py)
  * `calculate_split` / `split_instacart_bill` (same files)
  * the `formatted_output` text encoder (backend/app/services/llm_service.py,
    src/splitwise/llm_handler.py)

Text is modelled as `List Char`.  Python floats are modelled as rationals `ℚ`
(idealised arithmetic; the spec's 0.01 tolerance is trivially met by exact
equality).  Python dicts are modelled as association lists in insertion order
where assignment to an existing key overwrites in place (`dput`), matching
CPython's ordered-dict semantics.  Logging calls are pure diagnostics with no
effect on results and are not modelled.
-/

set_option allowUnsafeReducibility true

attribute [local semireducible] Rat.add Rat.mul Rat.inv Rat.sub Rat.div

abbrev Str := List Char

/-- Whitespace characters removed by Python `str.strip()`. -/
def pyIsSpace (c : Char) : Bool :=
  c = ' ' || c = '\t' || c = '\n' || c = '\r' || c = '\x0b' || c = '\x0c'

/-- Python `str.strip()`: drop whitespace from both ends. -/
def pyStrip (s : Str) : Str :=
  ((s.dropWhile pyIsSpace).reverse.dropWhile pyIsSpace).reverse

/-- Python dict lookup `d.get(k)`: keys are unique, so first match. -/
def dget? : List (Str × α) → Str → Option α
  | [], _ => none
  | p :: t, k => if p.1 = k then some p.2 else dget? t k

/-- Python `k in d`. -/
def dmem : List (Str × α) → Str → Bool
  | [], _ => false
  | p :: t, k => p.1 = k || dmem t k

/-- Python dict assignment `d[k] = v`: overwrite in place if the key exists,
else append (insertion order preserved).  Keys stay unique because every dict
in this development is grown from `[]` by `dput` alone. -/
def dput : List (Str × α) → Str → α → List (Str × α)
  | [], k, v => [(k, v)]
  | p :: t, k, v => if p.1 = k then (p.1, v) :: t else p :: dput t k v

/-- Python `d.get(k, v0)`. -/
def dgetD (d : List (Str × α)) (k : Str) (v0 : α) : α := (dget? d k).getD v0

/-- The keys of a dict, in order. -/
def dkeys (d : List (Str × α)) : List Str := d.map (·.1)

/-- The sum of all values of a numeric dict (Python `sum(d.values())`). -/
def dsum (d : List (Str × ℚ)) : ℚ := (d.map (·.2)).sum

/-- ASCII decimal digit test (the digits accepted by Python `float`). -/
def isDigitCh (c : Char) : Bool := '0' ≤ c && c ≤ '9'

/-- Numeric value of a string of decimal digits. -/
def digitsVal (ds : Str) : ℕ := ds.foldl (fun a c => 10 * a + (c.toNat - 48)) 0

/-- Exponent part of a Python float literal (the text after `e`/`E`). -/
def parseExpPart (s : Str) : Option ℤ :=
  match s with
  | '+' :: t => if t ≠ [] ∧ t.all isDigitCh then some ((digitsVal t : ℤ)) else none
  | '-' :: t => if t ≠ [] ∧ t.all isDigitCh then some (-(digitsVal t : ℤ)) else none
  | t => if t ≠ [] ∧ t.all isDigitCh then some ((digitsVal t : ℤ)) else none

/-- Unsigned part of Python `float(s)`: digits, optional fraction, optional
exponent.  (`inf`/`nan` and digit-group underscores are accepted by CPython
but never arise in this protocol and are modelled as parse failures.) -/
def pyFloatCore (s : Str) : Option ℚ :=
  let ip := s.takeWhile isDigitCh
  let r1 := s.dropWhile isDigitCh
  match r1 with
  | [] => if ip = [] then none else some ((digitsVal ip : ℚ))
  | '.' :: r2 =>
    let fp := r2.takeWhile isDigitCh
    let r3 := r2.dropWhile isDigitCh
    if ip = [] ∧ fp = [] then none
    else
      let m : ℚ := (digitsVal ip : ℚ) + (digitsVal fp : ℚ) / (10 : ℚ) ^ fp.length
      match r3 with
      | [] => some m
      | 'e' :: r4 => (parseExpPart r4).map (fun e => m * (10 : ℚ) ^ e)
      | 'E' :: r4 => (parseExpPart r4).map (fun e => m * (10 : ℚ) ^ e)
      | _ => none
  | 'e' :: r4 =>
    if ip = [] then none
    else (parseExpPart r4).map (fun e => (digitsVal ip : ℚ) * (10 : ℚ) ^ e)
  | 'E' :: r4 =>
    if ip = [] then none
    else (parseExpPart r4).map (fun e => (digitsVal ip : ℚ) * (10 : ℚ) ^ e)
  | _ => none

/-- Python `float(s)` on stripped input, with optional sign. -/
def pyFloat? (s : Str) : Option ℚ :=
  match s with
  | '+' :: t => pyFloatCore t
  | '-' :: t => (pyFloatCore t).map (fun q => -q)
  | t => pyFloatCore t

/-- Decimal digit character for a value `< 10`. -/
def digitCh (d : ℕ) : Char :=
  match d with
  | 0 => '0' | 1 => '1' | 2 => '2' | 3 => '3' | 4 => '4'
  | 5 => '5' | 6 => '6' | 7 => '7' | 8 => '8' | 9 => '9'
  | _ => '*'

/-- Base-10 digits of `n`, least significant first, with explicit fuel. -/
def natDigitsRev : ℕ → ℕ → List ℕ
  | 0, _ => []
  | fuel + 1, n => if n = 0 then [] else n % 10 :: natDigitsRev fuel (n / 10)

/-- Decimal rendering of a natural number. -/
def natStr (n : ℕ) : Str :=
  if n = 0 then ['0'] else ((natDigitsRev n n).reverse).map digitCh

/-- Zero-pad on the left to width `k`. -/
def padZeros (k : ℕ) (s : Str) : Str := List.replicate (k - s.length) '0' ++ s

/-- `p`-adic valuation with explicit fuel (used with `p ∈ {2, 5}`). -/
def vFac (p : ℕ) : ℕ → ℕ → ℕ
  | 0, _ => 0
  | fuel + 1, n => if n ≠ 0 ∧ n % p = 0 then vFac p fuel (n / p) + 1 else 0

/-- Smallest candidate decimal exponent for denominator `den = 2^a * 5^b`. -/
def decExp (den : ℕ) : ℕ := max (vFac 2 den den) (vFac 5 den den)

/-- `q` has a finite decimal representation (true of every Python float). -/
def IsDec (q : ℚ) : Prop := (q * (10 : ℚ) ^ decExp q.den).den = 1

instance : DecidablePred IsDec := fun q => by unfold IsDec; infer_instance

/-- Model of Python `str(x)` for a float whose value is the decimal `q`:
shortest decimal form, always with a fractional part (`str(5.0) = "5.0"`). -/
def printDec (q : ℚ) : Str :=
  let k := decExp q.den
  let m := (q * (10 : ℚ) ^ k).num
  let a := m.natAbs
  let body :=
    if k = 0 then natStr a ++ ['.', '0']
    else natStr (a / 10 ^ k) ++ '.' :: padZeros k (natStr (a % 10 ^ k))
  if m < 0 then '-' :: body else body

/-- Python `round` to an integer number of hundredths, as used by `f"{x:.2f}"`
(idealised: ties round up rather than CPython's ties-to-even on the exact
binary value, which is unobservable through the protocol). -/
def round2 (q : ℚ) : ℤ := ⌊q * 100 + 1 / 2⌋

/-- Model of Python `f"{x:.2f}"`. -/
def format2 (q : ℚ) : Str :=
  let m := round2 q
  let a := m.natAbs
  let body := natStr (a / 100) ++ '.' :: padZeros 2 (natStr (a % 100))
  if m < 0 then '-' :: body else body

/-- First index at which `pat` occurs as a contiguous substring. -/
def findSub (pat : Str) : Str → Option ℕ
  | [] => if pat.isPrefixOf ([] : Str) then some 0 else none
  | c :: t => if pat.isPrefixOf (c :: t) then some 0 else (findSub pat t).map (· + 1)

def hdrP : Str := "--- PERSONS ---".toList
def hdrI : Str := "--- ITEMS ---".toList
def hdrF : Str := "--- FEES ---".toList
def hdrS : Str := "--- SHARES ---".toList

/-- Model of `re.search(A + "\n(.*?)\n" + B, text, re.DOTALL)`, group 1:
the leftmost occurrence of `A`-then-newline followed (lazily) by the earliest
newline-then-`B`; the group is the text in between. -/
def extractSec (text A B : Str) : Option Str :=
  match findSub (A ++ ['\n']) text with
  | none => none
  | some i =>
    let rest := text.drop (i + A.length + 1)
    match findSub ('\n' :: B) rest with
    | none => none
    | some j => some (rest.take j)

/-- Model of `re.search(A + "\n(.*)", text, re.DOTALL)`, group 1. -/
def extractTail (text A : Str) : Option Str :=
  match findSub (A ++ ['\n']) text with
  | none => none
  | some i => some (text.drop (i + A.length + 1))

/-- `section.group(1).strip().split('\n')`. -/
def linesOf (content : Str) : List Str := (pyStrip content).splitOn '\n'

/-- `':' in line` together with `line.split(':', 1)`. -/
def splitColon : Str → Option (Str × Str)
  | [] => none
  | c :: t => if c = ':' then some ([], t) else (splitColon t).map (fun p => (c :: p.1, p.2))

/-- One iteration of the PERSONS loop of `parse_bill_input`: a line with a
colon becomes a dict entry (`abbr.strip() -> full_name.strip()`); other lines
are skipped (with a warning when nonempty). -/
def personStep (d : List (Str × Str)) (line : Str) : List (Str × Str) :=
  match splitColon line with
  | some (a, n) => dput d (pyStrip a) (pyStrip n)
  | none => d

/-- The PERSONS loop of `parse_bill_input`. -/
def parsePersons (content : Str) : List (Str × Str) :=
  (linesOf content).foldl personStep []

/-- One iteration of the ITEMS loop: a colon line appends
`{'name': ..., 'price': float(...)}`; a `float` failure aborts the whole
parse; other lines are skipped. -/
def itemStep (acc : Option (List (Str × ℚ))) (line : Str) : Option (List (Str × ℚ)) :=
  match acc with
  | none => none
  | some its =>
    match splitColon line with
    | some (n, ps) =>
      match pyFloat? (pyStrip ps) with
      | some v => some (its ++ [(pyStrip n, v)])
      | none => none
    | none => some its

/-- The ITEMS loop. -/
def parseItems (content : Str) : Option (List (Str × ℚ)) :=
  (linesOf content).foldl itemStep (some [])

def canonicalFees : List Str := ["Tax".toList, "Delivery Fee".toList, "Tip".toList]

/-- One iteration of the FEES loop: a colon line whose stripped name is one
of the three canonical fees is parsed (a `float` failure aborts);
non-canonical and non-colon lines are skipped. -/
def feeStep (acc : Option (List (Str × ℚ))) (line : Str) : Option (List (Str × ℚ)) :=
  match acc with
  | none => none
  | some fs =>
    match splitColon line with
    | some (nm, ps) =>
      if pyStrip nm ∈ canonicalFees then
        match pyFloat? (pyStrip ps) with
        | some v => some (dput fs (pyStrip nm) v)
        | none => none
      else some fs
    | none => some fs

/-- The FEES loop. -/
def parseFees (content : Str) : Option (List (Str × ℚ)) :=
  (linesOf content).foldl feeStep (some [])

/-- Missing canonical fees default to `0.0`. -/
def fillFees (fs : List (Str × ℚ)) : List (Str × ℚ) :=
  canonicalFees.foldl (fun d f => if dmem d f then d else dput d f 0) fs

/-- One iteration of the SHARES loop: a colon line is split into an item
name and a comma-separated abbreviation list; unknown item names are
skipped, unknown abbreviations are filtered out, and an entry is stored only
when at least one valid sharer remains. -/
def shareStep (itemNames personKeys : List Str) (d : List (Str × List Str))
    (line : Str) : List (Str × List Str) :=
  match splitColon line with
  | some (nm, rest) =>
    let abbrs := ((rest.splitOn ',').map pyStrip).filter (fun a => a ≠ [])
    if pyStrip nm ∈ itemNames then
      let valid := abbrs.filter (fun a => a ∈ personKeys)
      if valid ≠ [] then dput d (pyStrip nm) valid else d
    else d
  | none => d

/-- The SHARES loop. -/
def parseShares (content : Str) (itemNames personKeys : List Str) :
    List (Str × List Str) :=
  (linesOf content).foldl (shareStep itemNames personKeys) []

/-- The dictionary produced by a successful `parse_bill_input`. -/
structure ParsedData where
  persons : List (Str × Str)
  items : List (Str × ℚ)
  fees : List (Str × ℚ)
  item_shares : List (Str × List Str)
deriving DecidableEq

/-- `BillSplitterService.parse_bill_input` / `parse_bill_input`. -/
def parseBillInput (text : Str) : Option ParsedData :=
  match extractSec text hdrP hdrI, extractSec text hdrI hdrF,
        extractSec text hdrF hdrS, extractTail text hdrS with
  | some pc, some ic, some fc, some sc =>
    let persons := parsePersons pc
    if persons = [] then none
    else
      match parseItems ic with
      | none => none
      | some items =>
        match parseFees fc with
        | none => none
        | some fees0 =>
          some ⟨persons, items, fillFees fees0,
                parseShares sc (items.map (·.1)) (persons.map (·.1))⟩
  | _, _, _, _ => none

/-- `item_price_lookup = {item['name']: item['price'] for item in items}` and
`.get(name, 0.0)`: a dict comprehension keeps the last duplicate, i.e. the
first match in the reversed list. -/
def lookupLastD (items : List (Str × ℚ)) (k : Str) : ℚ :=
  (dget? items.reverse k).getD 0

/-- `{full_name: 0.0 for full_name in names}`. -/
def initZeros (names : List Str) : List (Str × ℚ) :=
  names.foldl (fun d n => dput d n 0) []

/-- One iteration of the inner sharer loop of `calculate_split`:
`full_name = persons_map.get(abbr)`, the falsy check `if full_name:`, then
`person_item_cost_shares[full_name] += cost`.  `none` models the `KeyError`
that indexing a missing key would raise (proved unreachable below). -/
def addShare (persons : List (Str × Str)) (cost : ℚ)
    (d : List (Str × ℚ)) (abbr : Str) : Option (List (Str × ℚ)) :=
  match dget? persons abbr with
  | none => some d
  | some full =>
    if full = [] then some d
    else if dmem d full then some (dput d full (dgetD d full 0 + cost)) else none

/-- `full_name = persons_map.get(abbr)` filtered through the falsy check
`if full_name:` (both `None` and the empty string are falsy). -/
def truthyName (persons : List (Str × Str)) (a : Str) : Option Str :=
  match dget? persons a with
  | none => none
  | some full => if full = [] then none else some full

/-- The inner `for abbr in sharer_abbrs` loop. -/
def shareAbbrs (persons : List (Str × Str)) (cost : ℚ) (d0 : List (Str × ℚ))
    (abbrs : List Str) : Option (List (Str × ℚ)) :=
  abbrs.foldl (fun od a => od.bind (fun d => addShare persons cost d a)) (some d0)

/-- One iteration of the item loop of `calculate_split`: items priced `> 0`
with at least one listed sharer are divided equally and counted once in
`total_shared_item_cost`; all other entries are skipped. -/
def procEntry (persons : List (Str × Str)) (items : List (Str × ℚ))
    (st : List (Str × ℚ) × ℚ) (e : Str × List Str) :
    Option (List (Str × ℚ) × ℚ) :=
  let price := lookupLastD items e.1
  if 0 < price ∧ e.2 ≠ [] then
    (shareAbbrs persons (price / (e.2.length : ℚ)) st.1 e.2).map (fun d => (d, st.2 + price))
  else some st

/-- Steps 1 of `calculate_split`: per-person item-cost shares and
`total_shared_item_cost`. -/
def stage1 (persons : List (Str × Str)) (items : List (Str × ℚ))
    (shares : List (Str × List Str)) : Option (List (Str × ℚ) × ℚ) :=
  shares.foldl (fun ost e => ost.bind (fun st => procEntry persons items st e))
    (some (initZeros (persons.map (·.2)), 0))

/-- Step 2 of `calculate_split`: tax proportional to the share of the shared
item subtotal when that subtotal is positive, otherwise all zero. -/
def taxShares (vals : List Str) (cd : List (Str × ℚ)) (totalShared tax : ℚ) :
    List (Str × ℚ) :=
  if 0 < totalShared then
    cd.foldl (fun d p => dput d p.1 (p.2 / totalShared * tax)) (initZeros vals)
  else initZeros vals

def keyTax : Str := "Tax".toList
def keyDelivery : Str := "Delivery Fee".toList
def keyTip : Str := "Tip".toList

/-- Step 3: `total_other_fees = fees.get('Delivery Fee', 0) + fees.get('Tip', 0)`. -/
def feeTotalOther (fees : List (Str × ℚ)) : ℚ :=
  dgetD fees keyDelivery 0 + dgetD fees keyTip 0

/-- `equal_fee_share = total_other_fees / num_people if num_people > 0 else 0`. -/
def equalFeeShare (fees : List (Str × ℚ)) (numPeople : ℕ) : ℚ :=
  if 0 < numPeople then feeTotalOther fees / (numPeople : ℚ) else 0

/-- Step 4: per-person totals (the verification step 5 is diagnostic only and
returns `person_total_bills` unchanged). -/
def personTotals (vals : List Str) (cd td : List (Str × ℚ)) (es : ℚ) :
    List (Str × ℚ) :=
  vals.foldl (fun m n => dput m n (dgetD cd n 0 + dgetD td n 0 + es)) []

/-- `BillSplitterService.calculate_split` / `split_instacart_bill`. -/
def calculateSplit (persons : List (Str × Str)) (items : List (Str × ℚ))
    (fees : List (Str × ℚ)) (shares : List (Str × List Str)) :
    Option (List (Str × ℚ)) :=
  (stage1 persons items shares).map (fun st =>
    let vals := persons.map (·.2)
    let td := taxShares vals st.1 st.2 (dgetD fees keyTax 0)
    personTotals vals st.1 td (equalFeeShare fees vals.length))

/-- The structured bill handed to the encoder (canonical fees applied). -/
structure Bill where
  persons : List (Str × Str)
  items : List (Str × ℚ)
  feeTax : ℚ
  feeDelivery : ℚ
  feeTip : ℚ
  item_shares : List (Str × List Str)

/-- `", ".join(sharers)`. -/
def joinComma : List Str → Str
  | [] => []
  | [a] => a
  | a :: rest => a ++ ',' :: ' ' :: joinComma rest

/-- `"\n".join(lines)`. -/
def joinNL : List Str → Str
  | [] => []
  | [l] => l
  | l :: rest => l ++ '\n' :: joinNL rest

def personLine (p : Str × Str) : Str := p.1 ++ ':' :: ' ' :: p.2
def itemLine (it : Str × ℚ) : Str := it.1 ++ ':' :: ' ' :: printDec it.2
def shareLine (s : Str × List Str) : Str := s.1 ++ ':' :: ' ' :: joinComma s.2

/-- The `formatted_output` f-string of `LLMService.process_bill` /
`call_llm_api`. -/
def encodeBill (b : Bill) : Str :=
  hdrP ++ '\n' :: joinNL (b.persons.map personLine) ++ '\n' :: '\n' ::
   (hdrI ++ '\n' :: joinNL (b.items.map itemLine) ++ '\n' :: '\n' ::
    (hdrF ++ '\n' :: ("Tax: ".toList ++ format2 b.feeTax) ++ '\n' ::
     (("Delivery Fee: ".toList ++ format2 b.feeDelivery) ++ '\n' ::
      (("Tip: ".toList ++ format2 b.feeTip) ++ '\n' :: '\n' ::
       (hdrS ++ '\n' :: joinNL (b.item_shares.map shareLine))))))

/-- The price an `item_shares` entry contributes to `total_shared_item_cost`:
its looked-up price if it is actually divided, else `0`. -/
def inclPrice (items : List (Str × ℚ)) (e : Str × List Str) : ℚ :=
  if 0 < lookupLastD items e.1 ∧ e.2 ≠ [] then lookupLastD items e.1 else 0

/-- A concrete two-person bill used to witness the calculator claims. -/
def exPersons : List (Str × Str) :=
  [("A".toList, "Alice".toList), ("B".toList, "Bob".toList)]

def exItems : List (Str × ℚ) := [("Apple".toList, 1), ("Banana".toList, 2)]

def exFees : List (Str × ℚ) := [(keyTax, 6/10), (keyDelivery, 3), (keyTip, 0)]

def exShares : List (Str × List Str) :=
  [("Apple".toList, ["A".toList, "B".toList]), ("Banana".toList, ["B".toList])]

/-- The item-cost dict computed from the example. -/
def exCd : List (Str × ℚ) := [("Alice".toList, 1/2), ("Bob".toList, 5/2)]

/-- A line holds a `:` separator (what the parser treats as a valid entry). -/
def lineHasColon (line : Str) : Bool := (splitColon line).isSome

/-- An ITEMS line that aborts the parse: it has a colon but its amount does
not parse as a float. -/
def itemLineBad (line : Str) : Bool :=
  match splitColon line with
  | some p => (pyFloat? (pyStrip p.2)).isNone
  | none => false

/-- A FEES line that aborts the parse: a canonical fee name with an
unparseable amount (non-canonical lines are skipped, never fatal). -/
def feeLineBad (line : Str) : Bool :=
  match splitColon line with
  | some p => decide (pyStrip p.1 ∈ canonicalFees) && (pyFloat? (pyStrip p.2)).isNone
  | none => false

/-- A FEES line that mentions the canonical fee `f`. -/
def feeLineNames (line : Str) (f : Str) : Bool :=
  match splitColon line with
  | some p => pyStrip p.1 == f
  | none => false

/-- The concrete C9 input text. -/
def c9text : Str :=
  ("--- PERSONS ---\nA: Alice\n--- ITEMS ---\nApple: 4.00\n--- FEES ---\nTax: 0.00\n--- SHARES ---\nApple: A, A\n").toList

/-- `pat` occurs in `s` as a contiguous substring (executable). -/
def hasSub (pat s : Str) : Bool := (findSub pat s).isSome

/-- The `---` marker that opens and closes every section header. -/
def dash3 : Str := "---".toList

/-- A well-behaved protocol token: nonempty, `strip`-invariant, and free of
the newline, colon and comma separators and of the `---` header marker. -/
def GoodTok (s : Str) : Prop :=
  s ≠ [] ∧ pyStrip s = s ∧ '\n' ∉ s ∧ ':' ∉ s ∧ ',' ∉ s ∧ hasSub dash3 s = false

instance (s : Str) : Decidable (GoodTok s) := by unfold GoodTok; infer_instance

/-- The lines an encoded section body occupies: an empty body still
contributes one empty line between its header and the following blank. -/
def bodyLines (ls : List Str) : List Str := if ls = [] then [[]] else ls

/-- Value of a digit list, least significant digit first. -/
def ofDigitsRev : List ℕ → ℕ
  | [] => 0
  | d :: t => d + 10 * ofDigitsRev t

/-- The three fee lines emitted by the encoder. -/
def taxLine (b : Bill) : Str := "Tax: ".toList ++ format2 b.feeTax

def delLine (b : Bill) : Str := "Delivery Fee: ".toList ++ format2 b.feeDelivery

def tipLine (b : Bill) : Str := "Tip: ".toList ++ format2 b.feeTip

/-- The fees dict recovered when an encoded bill is decoded: each canonical
fee carries the encoder's 2-decimal rendering of the original value. -/
def encFees (b : Bill) : List (Str × ℚ) :=
  [(keyTax, (round2 b.feeTax : ℚ) / 100),
   (keyDelivery, (round2 b.feeDelivery : ℚ) / 100),
   (keyTip, (round2 b.feeTip : ℚ) / 100)]

/-- C2 counterexample bill: the full name carries a leading space (legal in
the claim, which only excludes `:`/`,`/newline) that decoding strips. -/
def c2bad : Bill :=
  ⟨[("A".toList, " Bob".toList)], [], 0, 0, 0, []⟩

/-- A concrete well-formed bill used to witness the amended C2. -/
def c2ex : Bill :=
  ⟨[("A".toList, "Alice".toList), ("B".toList, "Bob".toList)],
   [("Apple".toList, 3/2)], 1/10, 2, 0,
   [("Apple".toList, ["A".toList, "B".toList])]⟩

/-! ### Dictionary lemmas -/

theorem dkeys_nil {α : Type} : dkeys ([] : List (Str × α)) = [] := rfl

theorem dkeys_cons {α : Type} (p : Str × α) (t : List (Str × α)) :
    dkeys (p :: t) = p.1 :: dkeys t := rfl

theorem dmem_iff {α : Type} (d : List (Str × α)) (k : Str) :
    dmem d k = true ↔ k ∈ dkeys d := by
  induction d with
  | nil => simp [dmem, dkeys_nil]
  | cons p t ih =>
    simp only [dmem, dkeys_cons, List.mem_cons, Bool.or_eq_true,
      decide_eq_true_eq, ← ih]
    tauto

theorem dget?_eq_none_iff {α : Type} (d : List (Str × α)) (k : Str) :
    dget? d k = none ↔ k ∉ dkeys d := by
  induction d with
  | nil => simp [dget?, dkeys_nil]
  | cons p t ih =>
    by_cases h : p.1 = k
    · simp [dget?, dkeys_cons, h]
    · simp [dget?, dkeys_cons, h, ih, Ne.symm h]

theorem dkeys_dput {α : Type} (d : List (Str × α)) (k : Str) (v : α) :
    dkeys (dput d k v) = if k ∈ dkeys d then dkeys d else dkeys d ++ [k] := by
  induction d with
  | nil => simp [dput, dkeys_nil, dkeys_cons]
  | cons p t ih =>
    by_cases h : p.1 = k
    · simp [dput, dkeys_cons, h]
    · simp only [dput, if_neg h, dkeys_cons, ih]
      by_cases hk : k ∈ dkeys t
      · simp [hk, Ne.symm h]
      · simp [hk, Ne.symm h]

theorem mem_dkeys_dput {α : Type} (d : List (Str × α)) (k k' : Str) (v : α) :
    k' ∈ dkeys (dput d k v) ↔ k' ∈ dkeys d ∨ k' = k := by
  rw [dkeys_dput]
  by_cases h : k ∈ dkeys d
  · rw [if_pos h]
    constructor
    · exact Or.inl
    · rintro (hk | rfl)
      · exact hk
      · exact h
  · rw [if_neg h]; simp

theorem nodup_dkeys_dput {α : Type} (d : List (Str × α)) (k : Str) (v : α)
    (h : (dkeys d).Nodup) : (dkeys (dput d k v)).Nodup := by
  rw [dkeys_dput]
  by_cases hk : k ∈ dkeys d
  · rwa [if_pos hk]
  · rw [if_neg hk]
    simpa [List.nodup_append] using ⟨h, hk⟩

theorem dget?_dput_self {α : Type} (d : List (Str × α)) (k : Str) (v : α) :
    dget? (dput d k v) k = some v := by
  induction d with
  | nil => simp [dput, dget?]
  | cons p t ih =>
    by_cases h : p.1 = k
    · simp [dput, dget?, h]
    · simp [dput, dget?, h, ih]

theorem dget?_dput_ne {α : Type} (d : List (Str × α)) (k k' : Str) (v : α)
    (h : k' ≠ k) : dget? (dput d k v) k' = dget? d k' := by
  induction d with
  | nil => simp [dput, dget?, Ne.symm h]
  | cons p t ih =>
    by_cases hp : p.1 = k
    · rw [dput, if_pos hp, dget?, dget?, hp, if_neg (Ne.symm h), if_neg (Ne.symm h)]
    · by_cases hp' : p.1 = k'
      · rw [dput, if_neg hp, dget?, dget?, if_pos hp', if_pos hp']
      · rw [dput, if_neg hp, dget?, dget?, if_neg hp', if_neg hp', ih]

theorem dgetD_dput_self {α : Type} (d : List (Str × α)) (k : Str) (v v0 : α) :
    dgetD (dput d k v) k v0 = v := by
  rw [dgetD, dget?_dput_self]; rfl

theorem dgetD_dput_ne {α : Type} (d : List (Str × α)) (k k' : Str) (v v0 : α)
    (h : k' ≠ k) : dgetD (dput d k v) k' v0 = dgetD d k' v0 := by
  rw [dgetD, dget?_dput_ne _ _ _ _ h, dgetD]

/-- On a dict with distinct keys, overwriting a present key shifts the sum by
the difference of the new and old value. -/
theorem dsum_dput_present (d : List (Str × ℚ)) (k : Str) (v : ℚ)
    (hnd : (dkeys d).Nodup) (hk : k ∈ dkeys d) :
    dsum (dput d k v) = dsum d - dgetD d k 0 + v := by
  induction d with
  | nil => simp [dkeys_nil] at hk
  | cons p t ih =>
    rw [dkeys_cons, List.nodup_cons] at hnd
    rw [dkeys_cons] at hk
    by_cases h : p.1 = k
    · have hget : dgetD (p :: t) k 0 = p.2 := by
        simp [dgetD, dget?, h]
      rw [dput, if_pos h, hget]
      simp only [dsum, List.map_cons, List.sum_cons]
      ring
    · have hkt : k ∈ dkeys t := by
        rcases List.mem_cons.1 hk with hk' | hk'
        · exact absurd hk'.symm h
        · exact hk'
      have hget : dgetD (p :: t) k 0 = dgetD t k 0 := by
        simp [dgetD, dget?, h]
      rw [dput, if_neg h, hget]
      have := ih hnd.2 hkt
      simp only [dsum, List.map_cons, List.sum_cons] at this ⊢
      rw [this]
      ring

theorem mem_dput {α : Type} (d : List (Str × α)) (k : Str) (v : α)
    (p : Str × α) (hp : p ∈ dput d k v) : p.2 = v ∨ p ∈ d := by
  induction d with
  | nil => simp [dput] at hp; simp [hp]
  | cons q t ih =>
    by_cases h : q.1 = k
    · rw [dput, if_pos h] at hp
      rcases List.mem_cons.1 hp with hp' | hp'
      · left; rw [hp']
      · right; exact List.mem_cons_of_mem _ hp'
    · rw [dput, if_neg h] at hp
      rcases List.mem_cons.1 hp with hp' | hp'
      · right; rw [hp']; exact List.mem_cons_self _ _
      · rcases ih hp' with hv | hm
        · left; exact hv
        · right; exact List.mem_cons_of_mem _ hm

/-! ### `initZeros` -/

theorem foldl_dput_zero_get (names : List Str) :
    ∀ (d : List (Str × ℚ)), (∀ p ∈ d, p.2 = 0) → ∀ k,
      dget? (names.foldl (fun d n => dput d n 0) d) k =
        if k ∈ dkeys d ∨ k ∈ names then some 0 else none := by
  induction names with
  | nil =>
    intro d hz k
    simp only [List.foldl_nil, List.not_mem_nil, or_false]
    by_cases hk : k ∈ dkeys d
    · rw [if_pos hk]
      induction d with
      | nil => simp [dkeys_nil] at hk
      | cons p t ih =>
        by_cases hp : p.1 = k
        · rw [dget?, if_pos hp, hz p (List.mem_cons_self _ _)]
        · rw [dget?, if_neg hp]
          rw [dkeys_cons] at hk
          rcases List.mem_cons.1 hk with h | h
          · exact absurd h.symm hp
          · exact ih (fun q hq => hz q (List.mem_cons_of_mem _ hq)) h
    · rw [if_neg hk]
      exact (dget?_eq_none_iff d k).2 hk
  | cons n t ih =>
    intro d hz k
    simp only [List.foldl_cons]
    rw [ih (dput d n 0) (fun p hp => (mem_dput d n 0 p hp).elim id (hz p))]
    have hiff : (k ∈ dkeys (dput d n 0) ∨ k ∈ t) ↔ (k ∈ dkeys d ∨ k ∈ n :: t) := by
      rw [mem_dkeys_dput, List.mem_cons]
      tauto
    by_cases hk : k ∈ dkeys d ∨ k ∈ n :: t
    · rw [if_pos (hiff.2 hk), if_pos hk]
    · rw [if_neg (fun h => hk (hiff.1 h)), if_neg hk]

theorem initZeros_all_zero (names : List Str) :
    ∀ p ∈ initZeros names, p.2 = (0 : ℚ) := by
  rw [initZeros]
  generalize hd : ([] : List (Str × ℚ)) = d
  have hz : ∀ p ∈ d, p.2 = (0:ℚ) := by rw [← hd]; simp
  clear hd
  induction names generalizing d with
  | nil => simpa using hz
  | cons n t ih =>
    simp only [List.foldl_cons]
    exact ih _ (fun p hp => (mem_dput d n 0 p hp).elim id (hz p))

theorem dget?_initZeros (names : List Str) (k : Str) :
    dget? (initZeros names) k = if k ∈ names then some 0 else none := by
  rw [initZeros, foldl_dput_zero_get names [] (by simp) k]
  simp [dkeys_nil]

theorem mem_dkeys_initZeros (names : List Str) (k : Str) :
    k ∈ dkeys (initZeros names) ↔ k ∈ names := by
  rw [← not_iff_not, ← dget?_eq_none_iff, dget?_initZeros]
  by_cases h : k ∈ names
  · simp [h]
  · simp [h]

theorem nodup_dkeys_foldl_dput (names : List Str) :
    ∀ (d : List (Str × ℚ)), (dkeys d).Nodup →
      (dkeys (names.foldl (fun d n => dput d n 0) d)).Nodup := by
  induction names with
  | nil => intro d h; simpa using h
  | cons n t ih =>
    intro d h
    simp only [List.foldl_cons]
    exact ih _ (nodup_dkeys_dput d n 0 h)

theorem nodup_dkeys_initZeros (names : List Str) :
    (dkeys (initZeros names)).Nodup := by
  rw [initZeros]
  exact nodup_dkeys_foldl_dput names [] (by simp [dkeys_nil])

theorem dsum_all_zero (d : List (Str × ℚ)) (h : ∀ p ∈ d, p.2 = 0) :
    dsum d = 0 := by
  induction d with
  | nil => simp [dsum]
  | cons p t ih =>
    simp only [dsum, List.map_cons, List.sum_cons] at ih ⊢
    rw [h p (List.mem_cons_self _ _), ih (fun q hq => h q (List.mem_cons_of_mem _ hq))]
    ring

theorem dsum_initZeros (names : List Str) : dsum (initZeros names) = 0 :=
  dsum_all_zero _ (initZeros_all_zero names)

/-! ### `addShare` and the inner sharer loop -/

theorem dget?_mem_values {α : Type} (d : List (Str × α)) (a : Str) (v : α)
    (h : dget? d a = some v) : v ∈ d.map (·.2) := by
  induction d with
  | nil => simp [dget?] at h
  | cons p t ih =>
    by_cases hp : p.1 = a
    · rw [dget?, if_pos hp] at h
      simp only [List.map_cons, List.mem_cons]
      exact Or.inl (Option.some_injective _ h).symm
    · rw [dget?, if_neg hp] at h
      simp only [List.map_cons, List.mem_cons]
      exact Or.inr (ih h)

theorem truthyName_eq_match (persons : List (Str × Str)) (a : Str) (full : Str)
    (hga : dget? persons a = some full) :
    truthyName persons a = if full = [] then none else some full := by
  rw [truthyName, hga]

theorem truthyName_eq_none (persons : List (Str × Str)) (a : Str)
    (hga : dget? persons a = none) : truthyName persons a = none := by
  rw [truthyName, hga]

theorem truthyName_mem_values (persons : List (Str × Str)) (a v : Str)
    (h : truthyName persons a = some v) : v ∈ persons.map (·.2) := by
  cases hga : dget? persons a with
  | none => rw [truthyName_eq_none persons a hga] at h; exact absurd h (by simp)
  | some full =>
    rw [truthyName_eq_match persons a full hga] at h
    by_cases hf : full = []
    · rw [if_pos hf] at h; exact absurd h (by simp)
    · rw [if_neg hf] at h
      exact (Option.some_injective _ h) ▸ dget?_mem_values persons a full hga

theorem addShare_eq_of_get_none (persons : List (Str × Str)) (c : ℚ)
    (d : List (Str × ℚ)) (a : Str) (hga : dget? persons a = none) :
    addShare persons c d a = some d := by
  rw [addShare, hga]

theorem addShare_eq_of_get_some (persons : List (Str × Str)) (c : ℚ)
    (d : List (Str × ℚ)) (a full : Str) (hga : dget? persons a = some full) :
    addShare persons c d a =
      if full = [] then some d
      else if dmem d full then some (dput d full (dgetD d full 0 + c)) else none := by
  rw [addShare, hga]

theorem addShare_spec (persons : List (Str × Str)) (c : ℚ) (d : List (Str × ℚ))
    (a : Str) (hnd : (dkeys d).Nodup)
    (hsub : ∀ v, truthyName persons a = some v → v ∈ dkeys d) :
    ∃ d', addShare persons c d a = some d' ∧ dkeys d' = dkeys d ∧
      (∀ k, dgetD d' k 0 = dgetD d k 0 + (if truthyName persons a = some k then c else 0)) ∧
      dsum d' = dsum d + (if (truthyName persons a).isSome then c else 0) := by
  cases hga : dget? persons a with
  | none =>
    refine ⟨d, addShare_eq_of_get_none persons c d a hga, rfl, ?_, ?_⟩
    · intro k
      rw [truthyName_eq_none persons a hga]
      simp
    · rw [truthyName_eq_none persons a hga]
      simp
  | some full =>
    by_cases hf : full = []
    · refine ⟨d, ?_, rfl, ?_, ?_⟩
      · rw [addShare_eq_of_get_some persons c d a full hga, if_pos hf]
      · intro k
        rw [truthyName_eq_match persons a full hga, if_pos hf]
        simp
      · rw [truthyName_eq_match persons a full hga, if_pos hf]
        simp
    · have htn : truthyName persons a = some full := by
        rw [truthyName_eq_match persons a full hga, if_neg hf]
      have hmem : full ∈ dkeys d := hsub full htn
      refine ⟨dput d full (dgetD d full 0 + c), ?_, ?_, ?_, ?_⟩
      · rw [addShare_eq_of_get_some persons c d a full hga, if_neg hf,
          if_pos ((dmem_iff d full).2 hmem)]
      · rw [dkeys_dput, if_pos hmem]
      · intro k
        rw [htn]
        by_cases hk : k = full
        · subst hk
          rw [dgetD_dput_self, if_pos rfl]
        · rw [dgetD_dput_ne _ _ _ _ _ hk, if_neg (by simpa using Ne.symm hk)]
          ring
      · rw [htn, dsum_dput_present d full _ hnd hmem]
        simp
        ring

theorem shareAbbrs_spec (persons : List (Str × Str)) (c : ℚ) (abbrs : List Str) :
    ∀ d : List (Str × ℚ), (dkeys d).Nodup →
      (∀ a ∈ abbrs, ∀ v, truthyName persons a = some v → v ∈ dkeys d) →
      ∃ d', shareAbbrs persons c d abbrs = some d' ∧ dkeys d' = dkeys d ∧
        (∀ k, dgetD d' k 0 = dgetD d k 0 +
          (abbrs.countP (fun a => decide (truthyName persons a = some k)) : ℚ) * c) ∧
        dsum d' = dsum d +
          (abbrs.countP (fun a => (truthyName persons a).isSome) : ℚ) * c := by
  induction abbrs with
  | nil =>
    intro d hnd _
    exact ⟨d, rfl, rfl, by simp, by simp⟩
  | cons a rest ih =>
    intro d hnd hsub
    obtain ⟨d1, h1, hk1, hv1, hs1⟩ :=
      addShare_spec persons c d a hnd (hsub a (List.mem_cons_self _ _))
    obtain ⟨d', h2, hk2, hv2, hs2⟩ := ih d1 (hk1 ▸ hnd)
      (fun b hb v hv => hk1 ▸ hsub b (List.mem_cons_of_mem _ hb) v hv)
    refine ⟨d', ?_, hk2.trans hk1, ?_, ?_⟩
    · rw [shareAbbrs, List.foldl_cons]
      rw [show (some d).bind (fun x => addShare persons c x a) = addShare persons c d a from rfl,
        h1]
      exact h2
    · intro k
      rw [hv2 k, hv1 k, List.countP_cons]
      push_cast
      by_cases hm : truthyName persons a = some k
      · rw [if_pos hm]
        simp only [hm, decide_True, if_true]
        ring
      · rw [if_neg hm]
        simp only [hm, decide_False, if_false]
        push_cast
        ring
    · rw [hs2, hs1, List.countP_cons]
      by_cases hm : (truthyName persons a).isSome = true
      · simp only [hm, if_pos]
        push_cast
        ring
      · simp only [Bool.not_eq_true] at hm
        simp only [hm]
        push_cast
        ring

/-! ### The item loop (`stage1`) -/


theorem procEntry_skip (persons : List (Str × Str)) (items : List (Str × ℚ))
    (st : List (Str × ℚ) × ℚ) (e : Str × List Str)
    (h : ¬ (0 < lookupLastD items e.1 ∧ e.2 ≠ [])) :
    procEntry persons items st e = some st := by
  rw [procEntry, if_neg h]

theorem procEntry_incl (persons : List (Str × Str)) (items : List (Str × ℚ))
    (st : List (Str × ℚ) × ℚ) (e : Str × List Str)
    (h : 0 < lookupLastD items e.1 ∧ e.2 ≠ []) :
    procEntry persons items st e =
      (shareAbbrs persons (lookupLastD items e.1 / (e.2.length : ℚ)) st.1 e.2).map
        (fun d => (d, st.2 + lookupLastD items e.1)) := by
  rw [procEntry, if_pos h]

theorem stage1Fold_spec (persons : List (Str × Str)) (items : List (Str × ℚ))
    (shares : List (Str × List Str)) :
    ∀ (d0 : List (Str × ℚ)) (t0 : ℚ), (dkeys d0).Nodup →
      (∀ v ∈ persons.map (·.2), v ∈ dkeys d0) →
      ∃ cd t,
        shares.foldl (fun ost e => ost.bind (fun st => procEntry persons items st e))
            (some (d0, t0)) = some (cd, t) ∧
        dkeys cd = dkeys d0 ∧ (dkeys cd).Nodup ∧
        t = t0 + (shares.map (inclPrice items)).sum := by
  induction shares with
  | nil =>
    intro d0 t0 hnd _
    exact ⟨d0, t0, rfl, rfl, hnd, by simp⟩
  | cons e rest ih =>
    intro d0 t0 hnd hsub
    simp only [List.foldl_cons, Option.some_bind]
    by_cases he : 0 < lookupLastD items e.1 ∧ e.2 ≠ []
    · obtain ⟨d1, h1, hk1, _, _⟩ :=
        shareAbbrs_spec persons (lookupLastD items e.1 / (e.2.length : ℚ)) e.2 d0 hnd
          (fun a _ v hv => hsub v (truthyName_mem_values persons a v hv))
      rw [procEntry_incl persons items (d0, t0) e he, h1]
      obtain ⟨cd, t, hfold, hkcd, hndcd, ht⟩ := ih d1 (t0 + lookupLastD items e.1)
        (hk1 ▸ hnd) (fun v hv => hk1 ▸ hsub v hv)
      refine ⟨cd, t, hfold, hkcd.trans hk1, hndcd, ?_⟩
      rw [ht, List.map_cons, List.sum_cons, inclPrice, if_pos he]
      ring
    · rw [procEntry_skip persons items (d0, t0) e he]
      obtain ⟨cd, t, hfold, hkcd, hndcd, ht⟩ := ih d0 t0 hnd hsub
      refine ⟨cd, t, hfold, hkcd, hndcd, ?_⟩
      rw [ht, List.map_cons, List.sum_cons, inclPrice, if_neg he]
      ring

theorem stage1_spec (persons : List (Str × Str)) (items : List (Str × ℚ))
    (shares : List (Str × List Str)) :
    ∃ cd t, stage1 persons items shares = some (cd, t) ∧
      dkeys cd = dkeys (initZeros (persons.map (·.2))) ∧ (dkeys cd).Nodup ∧
      t = (shares.map (inclPrice items)).sum := by
  obtain ⟨cd, t, hfold, hk, hnd, ht⟩ :=
    stage1Fold_spec persons items shares (initZeros (persons.map (·.2))) 0
      (nodup_dkeys_initZeros _)
      (fun v hv => (mem_dkeys_initZeros _ v).2 hv)
  exact ⟨cd, t, hfold, hk, hnd, by rw [ht]; ring⟩

/-- `stage1` never fails: the only failure point (`KeyError` on
`person_item_cost_shares[full_name]`) is unreachable because the dict is
keyed by every full name in `persons_map`. -/
theorem stage1_isSome (persons : List (Str × Str)) (items : List (Str × ℚ))
    (shares : List (Str × List Str)) : (stage1 persons items shares).isSome := by
  obtain ⟨cd, t, hfold, -, -, -⟩ := stage1_spec persons items shares
  rw [hfold]
  rfl

/-- Excluded entries (price `≤ 0` or no sharers) can be dropped without
changing the result of the item loop. -/
theorem stage1Fold_filter (persons : List (Str × Str)) (items : List (Str × ℚ))
    (shares : List (Str × List Str)) :
    ∀ ost : Option (List (Str × ℚ) × ℚ),
      shares.foldl (fun ost e => ost.bind (fun st => procEntry persons items st e)) ost =
      (shares.filter (fun e => decide (0 < lookupLastD items e.1 ∧ e.2 ≠ []))).foldl
        (fun ost e => ost.bind (fun st => procEntry persons items st e)) ost := by
  induction shares with
  | nil => intro ost; rfl
  | cons e rest ih =>
    intro ost
    by_cases he : 0 < lookupLastD items e.1 ∧ e.2 ≠ []
    · rw [List.filter_cons_of_pos (by simpa using he), List.foldl_cons, List.foldl_cons, ih]
    · rw [List.filter_cons_of_neg (by simpa using he), List.foldl_cons]
      have : ost.bind (fun st => procEntry persons items st e) = ost := by
        cases ost with
        | none => rfl
        | some st => rw [Option.some_bind, procEntry_skip persons items st e he]
      rw [this, ih]

theorem stage1_filter (persons : List (Str × Str)) (items : List (Str × ℚ))
    (shares : List (Str × List Str)) :
    stage1 persons items shares =
      stage1 persons items
        (shares.filter (fun e => decide (0 < lookupLastD items e.1 ∧ e.2 ≠ []))) := by
  rw [stage1, stage1, stage1Fold_filter]

theorem dget?_of_mem_nodup {α : Type} (d : List (Str × α)) (p : Str × α)
    (hnd : (dkeys d).Nodup) (hp : p ∈ d) : dget? d p.1 = some p.2 := by
  induction d with
  | nil => simp at hp
  | cons q t ih =>
    rw [dkeys_cons, List.nodup_cons] at hnd
    rcases List.mem_cons.1 hp with h | h
    · subst h; rw [dget?, if_pos rfl]
    · have hne : q.1 ≠ p.1 := by
        intro he
        exact hnd.1 (he ▸ (List.mem_map_of_mem (·.1) h : p.1 ∈ dkeys t))
      rw [dget?, if_neg hne]
      exact ih hnd.2 h

theorem mem_dkeys_exists {α : Type} (d : List (Str × α)) (k : Str)
    (h : k ∈ dkeys d) : ∃ p ∈ d, p.1 = k := by
  induction d with
  | nil => simp [dkeys_nil] at h
  | cons q t ih =>
    rw [dkeys_cons] at h
    rcases List.mem_cons.1 h with h' | h'
    · exact ⟨q, List.mem_cons_self _ _, h'.symm⟩
    · obtain ⟨p, hp, he⟩ := ih h'
      exact ⟨p, List.mem_cons_of_mem _ hp, he⟩

theorem dput_of_not_mem {α : Type} (d : List (Str × α)) (k : Str) (v : α)
    (h : k ∉ dkeys d) : dput d k v = d ++ [(k, v)] := by
  induction d with
  | nil => rfl
  | cons q t ih =>
    rw [dkeys_cons] at h
    simp only [List.mem_cons, not_or] at h
    rw [dput, if_neg (fun he => h.1 he.symm), ih h.2, List.cons_append]

/-- Folding fresh-key insertions appends the corresponding entries. -/
theorem foldl_dput_fresh (vals : List Str) (g : Str → ℚ) :
    ∀ d0 : List (Str × ℚ), (∀ v ∈ vals, v ∉ dkeys d0) → vals.Nodup →
      vals.foldl (fun m n => dput m n (g n)) d0 = d0 ++ vals.map (fun n => (n, g n)) := by
  induction vals with
  | nil => intro d0 _ _; simp
  | cons n t ih =>
    intro d0 hfresh hnd
    rw [List.nodup_cons] at hnd
    rw [List.foldl_cons, dput_of_not_mem d0 n (g n) (hfresh n (List.mem_cons_self _ _)),
      ih (d0 ++ [(n, g n)]) ?_ hnd.2, List.map_cons, List.append_assoc]
    · rfl
    · intro v hv
      have h1 : v ∉ dkeys d0 := hfresh v (List.mem_cons_of_mem _ hv)
      have h2 : v ≠ n := fun he => hnd.1 (he ▸ hv)
      intro hmem
      rw [dkeys, List.map_append] at hmem
      rcases List.mem_append.1 hmem with h | h
      · exact h1 h
      · simp at h
        exact h2 h

/-- `personTotals` over distinct full names is a plain map. -/
theorem personTotals_eq_map (vals : List Str) (cd td : List (Str × ℚ)) (es : ℚ)
    (hnd : vals.Nodup) :
    personTotals vals cd td es =
      vals.map (fun n => (n, dgetD cd n 0 + dgetD td n 0 + es)) := by
  rw [personTotals, foldl_dput_fresh vals _ [] (by simp [dkeys_nil]) hnd, List.nil_append]

/-- Folding value-updates of distinct keys: the updated values, and keys
outside the update list are untouched. -/
theorem foldl_dput_map_get (cd : List (Str × ℚ)) (f : Str × ℚ → ℚ) :
    ∀ d0 : List (Str × ℚ), (dkeys cd).Nodup →
      (∀ p ∈ cd, dgetD (cd.foldl (fun d p => dput d p.1 (f p)) d0) p.1 0 = f p) ∧
      (∀ k, k ∉ dkeys cd → dget? (cd.foldl (fun d p => dput d p.1 (f p)) d0) k = dget? d0 k) := by
  induction cd with
  | nil => intro d0 _; exact ⟨by simp, fun k _ => rfl⟩
  | cons p t ih =>
    intro d0 hnd
    rw [dkeys_cons, List.nodup_cons] at hnd
    obtain ⟨ihget, ihout⟩ := ih (dput d0 p.1 (f p)) hnd.2
    constructor
    · intro q hq
      rcases List.mem_cons.1 hq with h | h
      · subst h
        rw [List.foldl_cons, dgetD, ihout q.1 hnd.1, dget?_dput_self]
        rfl
      · rw [List.foldl_cons]
        exact ihget q h
    · intro k hk
      rw [dkeys_cons] at hk
      simp only [List.mem_cons, not_or] at hk
      rw [List.foldl_cons, ihout k hk.2, dget?_dput_ne _ _ _ _ hk.1]

/-! ### `lookupLastD` and price sums -/

theorem dget?_mem {α : Type} (d : List (Str × α)) (k : Str) (v : α)
    (h : dget? d k = some v) : (k, v) ∈ d := by
  induction d with
  | nil => simp [dget?] at h
  | cons p t ih =>
    by_cases hp : p.1 = k
    · rw [dget?, if_pos hp] at h
      have hpe : p = (k, v) := Prod.ext hp (Option.some_injective _ h)
      exact hpe ▸ List.mem_cons_self _ _
    · rw [dget?, if_neg hp] at h
      exact List.mem_cons_of_mem _ (ih h)

theorem lookupLastD_not_mem (items : List (Str × ℚ)) (k : Str)
    (h : k ∉ dkeys items) : lookupLastD items k = 0 := by
  rw [lookupLastD, (dget?_eq_none_iff items.reverse k).2 ?_]
  · rfl
  · intro hk
    apply h
    rw [dkeys] at hk ⊢
    rw [List.map_reverse, List.mem_reverse] at hk
    exact hk

theorem lookupLastD_mem_or_zero (items : List (Str × ℚ)) (k : Str) :
    lookupLastD items k = 0 ∨ (k, lookupLastD items k) ∈ items := by
  cases hg : dget? items.reverse k with
  | none => left; rw [lookupLastD, hg]; rfl
  | some v =>
    right
    rw [lookupLastD, hg]
    exact List.mem_reverse.1 (dget?_mem items.reverse k v hg)

theorem lookupLastD_cons (n : Str) (p : ℚ) (rest : List (Str × ℚ)) (k : Str)
    (hnn : n ∉ dkeys rest) :
    lookupLastD ((n, p) :: rest) k = if k = n then p else lookupLastD rest k := by
  rw [lookupLastD, List.reverse_cons]
  have happ : ∀ (xs : List (Str × ℚ)) (q : Str × ℚ),
      dget? (xs ++ [q]) k = match dget? xs k with
        | some v => some v
        | none => if q.1 = k then some q.2 else none := by
    intro xs q
    induction xs with
    | nil => rw [List.nil_append, dget?]; rfl
    | cons x t ih =>
      by_cases hx : x.1 = k
      · rw [List.cons_append, dget?, if_pos hx, dget?, if_pos hx]
      · rw [List.cons_append, dget?, if_neg hx, dget?, if_neg hx, ih]
  rw [happ]
  by_cases hk : k = n
  · subst hk
    have hnone : dget? rest.reverse k = none := by
      rw [dget?_eq_none_iff]
      intro hm
      apply hnn
      rw [dkeys, List.map_reverse, List.mem_reverse] at hm
      exact hm
    rw [hnone]
    simp
  · rw [if_neg hk]
    cases hg : dget? rest.reverse k with
    | none =>
      rw [lookupLastD, hg]
      simp [Ne.symm hk]
    | some v =>
      rw [lookupLastD, hg]

theorem sum_map_ite (K : List Str) (n : Str) (p : ℚ) (f : Str → ℚ)
    (hnd : K.Nodup) (hn : n ∈ K) :
    (K.map (fun k => if k = n then p else f k)).sum = p - f n + (K.map f).sum := by
  induction K with
  | nil => simp at hn
  | cons a t ih =>
    rw [List.nodup_cons] at hnd
    rcases List.mem_cons.1 hn with rfl | h
    · have hmap : t.map (fun k => if k = n then p else f k) = t.map f := by
        apply List.map_congr_left
        intro k hk
        have hkn : k ≠ n := fun he => hnd.1 (he ▸ hk)
        rw [if_neg hkn]
      rw [List.map_cons, List.map_cons, List.sum_cons, List.sum_cons, hmap, if_pos rfl]
      ring
    · have hna : a ≠ n := fun he => hnd.1 (by rw [he]; exact h)
      rw [List.map_cons, List.map_cons, List.sum_cons, List.sum_cons,
        if_neg hna, ih hnd.2 h]
      ring

/-- Summing the duplicate-free price lookup over a key list covering all item
names reproduces the item price total. -/
theorem sum_lookup (items : List (Str × ℚ)) :
    ∀ K : List Str, K.Nodup → (∀ nm ∈ dkeys items, nm ∈ K) → (dkeys items).Nodup →
      (K.map (lookupLastD items)).sum = (items.map (·.2)).sum := by
  induction items with
  | nil =>
    intro K _ _ _
    have : K.map (lookupLastD []) = K.map (fun _ => 0) := by
      apply List.map_congr_left
      intro k _
      rfl
    rw [this]
    simp
  | cons it rest ih =>
    intro K hKnd hcover hind
    rw [dkeys_cons, List.nodup_cons] at hind
    have hpt : ∀ k, lookupLastD (it :: rest) k = if k = it.1 then it.2 else lookupLastD rest k := by
      intro k
      have := lookupLastD_cons it.1 it.2 rest k hind.1
      simpa using this
    have hmap : K.map (lookupLastD (it :: rest)) =
        K.map (fun k => if k = it.1 then it.2 else lookupLastD rest k) := by
      apply List.map_congr_left
      intro k _
      exact hpt k
    rw [hmap, sum_map_ite K it.1 it.2 (lookupLastD rest) hKnd
      (hcover it.1 (by rw [dkeys_cons]; exact List.mem_cons_self _ _))]
    rw [lookupLastD_not_mem rest it.1 hind.1]
    rw [ih K hKnd (fun nm hnm => hcover nm (by rw [dkeys_cons]; exact List.mem_cons_of_mem _ hnm)) hind.2]
    rw [List.map_cons, List.sum_cons]
    ring

/-- Under the conservation hypotheses every entry of `item_shares`
contributes exactly its looked-up price. -/
theorem inclPrice_eq (items : List (Str × ℚ)) (shares : List (Str × List Str))
    (hpos : ∀ it ∈ items, 0 < it.2)
    (hshnd : (dkeys shares).Nodup)
    (hassigned : ∀ nm ∈ dkeys items, ∃ l, dget? shares nm = some l ∧ l ≠ [])
    (e : Str × List Str) (he : e ∈ shares) :
    inclPrice items e = lookupLastD items e.1 := by
  by_cases hnil : e.2 = []
  · have hzero : lookupLastD items e.1 = 0 := by
      by_contra hnz
      rcases lookupLastD_mem_or_zero items e.1 with h0 | hmem
      · exact hnz h0
      · have hkey : e.1 ∈ dkeys items := List.mem_map_of_mem (·.1) hmem
        obtain ⟨l, hl, hlne⟩ := hassigned e.1 hkey
        rw [dget?_of_mem_nodup shares e hshnd he] at hl
        exact hlne ((Option.some_injective _ hl).symm ▸ hnil)
    rw [inclPrice, hzero]
    simp
  · rcases lookupLastD_mem_or_zero items e.1 with h0 | hmem
    · rw [inclPrice, h0]
      simp
    · have hp : 0 < lookupLastD items e.1 := hpos _ hmem
      rw [inclPrice, if_pos ⟨hp, hnil⟩]

/-- The all-sharers-valid invariant: the dict total tracks
`total_shared_item_cost` exactly. -/
theorem stage1Fold_dsum (persons : List (Str × Str)) (items : List (Str × ℚ))
    (shares : List (Str × List Str)) :
    ∀ (d0 : List (Str × ℚ)) (t0 : ℚ), (dkeys d0).Nodup →
      (∀ v ∈ persons.map (·.2), v ∈ dkeys d0) →
      (∀ e ∈ shares, ∀ a ∈ e.2, (truthyName persons a).isSome = true) →
      ∃ cd t,
        shares.foldl (fun ost e => ost.bind (fun st => procEntry persons items st e))
            (some (d0, t0)) = some (cd, t) ∧
        dsum cd - t = dsum d0 - t0 := by
  induction shares with
  | nil =>
    intro d0 t0 hnd _ _
    exact ⟨d0, t0, rfl, rfl⟩
  | cons e rest ih =>
    intro d0 t0 hnd hsub hval
    simp only [List.foldl_cons, Option.some_bind]
    by_cases he : 0 < lookupLastD items e.1 ∧ e.2 ≠ []
    · obtain ⟨d1, h1, hk1, _, hs1⟩ :=
        shareAbbrs_spec persons (lookupLastD items e.1 / (e.2.length : ℚ)) e.2 d0 hnd
          (fun a _ v hv => hsub v (truthyName_mem_values persons a v hv))
      rw [procEntry_incl persons items (d0, t0) e he, h1]
      obtain ⟨cd, t, hfold, hsum⟩ := ih d1 (t0 + lookupLastD items e.1)
        (hk1 ▸ hnd) (fun v hv => hk1 ▸ hsub v hv)
        (fun e' he' a ha => hval e' (List.mem_cons_of_mem _ he') a ha)
      refine ⟨cd, t, hfold, ?_⟩
      rw [hsum, hs1]
      have hcount : e.2.countP (fun a => (truthyName persons a).isSome) = e.2.length :=
        List.countP_eq_length.2 (fun a ha => hval e (List.mem_cons_self _ _) a ha)
      rw [hcount]
      have hlen : (e.2.length : ℚ) ≠ 0 := by
        have : e.2.length ≠ 0 := fun h0 => he.2 (List.length_eq_zero.1 h0)
        exact_mod_cast this
      field_simp
    · rw [procEntry_skip persons items (d0, t0) e he]
      exact ih d0 t0 hnd hsub (fun e' he' a ha => hval e' (List.mem_cons_of_mem _ he') a ha)

/-! ### Tax and totals stages -/

theorem dgetD_initZeros (names : List Str) (k : Str) :
    dgetD (initZeros names) k 0 = 0 := by
  rw [dgetD, dget?_initZeros]
  by_cases h : k ∈ names
  · rw [if_pos h]; rfl
  · rw [if_neg h]; rfl

/-- `dsum` as a sum over (distinct) keys. -/
theorem dsum_eq_sum_keys (d : List (Str × ℚ)) (hnd : (dkeys d).Nodup) :
    ((dkeys d).map (fun k => dgetD d k 0)).sum = dsum d := by
  induction d with
  | nil => simp [dkeys_nil, dsum]
  | cons p t ih =>
    rw [dkeys_cons, List.nodup_cons] at hnd
    have hmap : (dkeys t).map (fun k => dgetD (p :: t) k 0) =
        (dkeys t).map (fun k => dgetD t k 0) := by
      apply List.map_congr_left
      intro k hk
      have hne : p.1 ≠ k := fun he => hnd.1 (he ▸ hk)
      rw [dgetD, dget?, if_neg hne, dgetD]
    rw [dkeys_cons, List.map_cons, List.sum_cons, hmap, ih hnd.2]
    rw [show dgetD (p :: t) p.1 0 = p.2 by rw [dgetD, dget?, if_pos rfl]; rfl]
    simp only [dsum, List.map_cons, List.sum_cons]

/-- Folding value-updates of distinct present keys: the resulting sum. -/
theorem foldl_dput_map_sum (cd : List (Str × ℚ)) (f : Str × ℚ → ℚ) :
    ∀ d0 : List (Str × ℚ), (dkeys cd).Nodup → (dkeys d0).Nodup →
      (∀ p ∈ cd, p.1 ∈ dkeys d0) →
      dsum (cd.foldl (fun d p => dput d p.1 (f p)) d0) =
        dsum d0 + (cd.map (fun p => f p - dgetD d0 p.1 0)).sum := by
  induction cd with
  | nil => intro d0 _ _ _; simp
  | cons p t ih =>
    intro d0 hnd hnd0 hkeys
    rw [dkeys_cons, List.nodup_cons] at hnd
    have hp1 : p.1 ∈ dkeys d0 := hkeys p (List.mem_cons_self _ _)
    rw [List.foldl_cons, ih (dput d0 p.1 (f p)) hnd.2 (nodup_dkeys_dput _ _ _ hnd0)
      (fun q hq => by
        rw [mem_dkeys_dput]
        exact Or.inl (hkeys q (List.mem_cons_of_mem _ hq)))]
    rw [dsum_dput_present d0 p.1 (f p) hnd0 hp1]
    have hmap : t.map (fun q => f q - dgetD (dput d0 p.1 (f p)) q.1 0) =
        t.map (fun q => f q - dgetD d0 q.1 0) := by
      apply List.map_congr_left
      intro q hq
      have hne : q.1 ≠ p.1 := fun he => hnd.1 (he ▸ List.mem_map_of_mem (·.1) hq)
      rw [dgetD_dput_ne _ _ _ _ _ hne]
    rw [hmap, List.map_cons, List.sum_cons]
    ring

theorem taxShares_nonpos (vals : List Str) (cd : List (Str × ℚ)) (total tax : ℚ)
    (h : ¬ 0 < total) : taxShares vals cd total tax = initZeros vals := by
  rw [taxShares, if_neg h]

theorem taxShares_pos_get (vals : List Str) (cd : List (Str × ℚ)) (total tax : ℚ)
    (hpos : 0 < total) (hnd : (dkeys cd).Nodup) :
    (∀ p ∈ cd, dgetD (taxShares vals cd total tax) p.1 0 = p.2 / total * tax) ∧
    (∀ k, k ∉ dkeys cd → dget? (taxShares vals cd total tax) k = dget? (initZeros vals) k) := by
  rw [taxShares, if_pos hpos]
  exact foldl_dput_map_get cd _ (initZeros vals) hnd

theorem taxShares_pos_sum (vals : List Str) (cd : List (Str × ℚ)) (total tax : ℚ)
    (hpos : 0 < total) (hnd : (dkeys cd).Nodup)
    (hkeys : dkeys cd = dkeys (initZeros vals)) :
    dsum (taxShares vals cd total tax) = dsum cd * tax / total := by
  rw [taxShares, if_pos hpos,
    foldl_dput_map_sum cd _ (initZeros vals) hnd (nodup_dkeys_initZeros vals)
      (fun p hp => hkeys ▸ List.mem_map_of_mem (·.1) hp)]
  rw [dsum_initZeros]
  have hmap : cd.map (fun p => p.2 / total * tax - dgetD (initZeros vals) p.1 0) =
      cd.map (fun p => p.2 * (tax / total)) := by
    apply List.map_congr_left
    intro p _
    rw [dgetD_initZeros]
    ring
  rw [hmap, List.sum_map_mul_right]
  rw [show (cd.map (·.2)).sum = dsum cd from rfl]
  ring

theorem sum_map_const_q (l : List Str) (c : ℚ) :
    (l.map (fun _ => c)).sum = l.length * c := by
  induction l with
  | nil => simp
  | cons a t ih => simp [ih]; ring

/-- `personTotals` over distinct full names: values and sum. -/
theorem personTotals_get (vals : List Str) (cd td : List (Str × ℚ)) (es : ℚ)
    (hnd : vals.Nodup) (v : Str) (hv : v ∈ vals) :
    dgetD (personTotals vals cd td es) v 0 = dgetD cd v 0 + dgetD td v 0 + es := by
  rw [personTotals_eq_map vals cd td es hnd]
  induction vals with
  | nil => simp at hv
  | cons a t ih =>
    rw [List.nodup_cons] at hnd
    rcases List.mem_cons.1 hv with rfl | h
    · rw [List.map_cons, dgetD, dget?, if_pos rfl]
      rfl
    · have hne : a ≠ v := fun he => hnd.1 (he ▸ h)
      rw [List.map_cons, dgetD, dget?, if_neg hne, ← dgetD]
      exact ih hnd.2 h

theorem personTotals_sum (vals : List Str) (cd td : List (Str × ℚ)) (es : ℚ)
    (hnd : vals.Nodup) :
    dsum (personTotals vals cd td es) =
      (vals.map (fun n => dgetD cd n 0)).sum + (vals.map (fun n => dgetD td n 0)).sum +
        vals.length * es := by
  rw [personTotals_eq_map vals cd td es hnd]
  rw [dsum, List.map_map]
  have : (vals.map ((·.2) ∘ fun n => (n, dgetD cd n 0 + dgetD td n 0 + es))) =
      vals.map (fun n => (dgetD cd n 0 + dgetD td n 0) + es) := by
    apply List.map_congr_left
    intro n _
    rfl
  rw [this, List.sum_map_add, List.sum_map_add, sum_map_const_q]

theorem calculateSplit_eq (persons : List (Str × Str)) (items : List (Str × ℚ))
    (fees : List (Str × ℚ)) (shares : List (Str × List Str))
    (cd : List (Str × ℚ)) (t : ℚ) (h : stage1 persons items shares = some (cd, t)) :
    calculateSplit persons items fees shares =
      some (personTotals (persons.map (·.2)) cd
        (taxShares (persons.map (·.2)) cd t (dgetD fees keyTax 0))
        (equalFeeShare fees (persons.map (·.2)).length)) := by
  rw [calculateSplit, h]
  rfl

theorem dkeys_initZeros_eq (names : List Str) (hnd : names.Nodup) :
    dkeys (initZeros names) = names := by
  rw [initZeros, foldl_dput_fresh names (fun _ => 0) [] (by simp [dkeys_nil]) hnd,
    List.nil_append, dkeys, List.map_map]
  apply List.map_id''
  intro n
  rfl

theorem foldl_dput_map_keys (cd : List (Str × ℚ)) (f : Str × ℚ → ℚ) :
    ∀ d0 : List (Str × ℚ), (∀ p ∈ cd, p.1 ∈ dkeys d0) →
      dkeys (cd.foldl (fun d p => dput d p.1 (f p)) d0) = dkeys d0 := by
  induction cd with
  | nil => intro d0 _; rfl
  | cons p t ih =>
    intro d0 hkeys
    rw [List.foldl_cons, ih (dput d0 p.1 (f p)) (fun q hq => by
      rw [mem_dkeys_dput]
      exact Or.inl (hkeys q (List.mem_cons_of_mem _ hq)))]
    rw [dkeys_dput, if_pos (hkeys p (List.mem_cons_self _ _))]

theorem taxShares_keys (vals : List Str) (cd : List (Str × ℚ)) (total tax : ℚ)
    (hkeys : dkeys cd = dkeys (initZeros vals)) :
    dkeys (taxShares vals cd total tax) = dkeys (initZeros vals) := by
  rw [taxShares]
  by_cases h : 0 < total
  · rw [if_pos h]
    exact foldl_dput_map_keys cd _ (initZeros vals)
      (fun p hp => hkeys ▸ List.mem_map_of_mem (·.1) hp)
  · rw [if_neg h]

/-! ### Conservation -/

/-- The conservation argument, assembled: under the amended hypotheses the
returned totals sum exactly to item prices plus all three fees. -/
theorem conservation_main (persons : List (Str × Str)) (items : List (Str × ℚ))
    (fees : List (Str × ℚ)) (shares : List (Str × List Str)) (m : List (Str × ℚ))
    (hpne : persons ≠ [])
    (hvalsnd : (persons.map (·.2)).Nodup)
    (hval : ∀ e ∈ shares, ∀ a ∈ e.2, (truthyName persons a).isSome = true)
    (hshnd : (dkeys shares).Nodup)
    (hind : (dkeys items).Nodup)
    (hpos : ∀ it ∈ items, 0 < it.2)
    (hassigned : ∀ nm ∈ dkeys items, ∃ l, dget? shares nm = some l ∧ l ≠ [])
    (htax0 : items = [] → dgetD fees keyTax 0 = 0)
    (hm : calculateSplit persons items fees shares = some m) :
    dsum m = (items.map (·.2)).sum + dgetD fees keyTax 0 +
      dgetD fees keyDelivery 0 + dgetD fees keyTip 0 := by
  obtain ⟨cd, t, hst, hkeys0, hndcd, ht⟩ := stage1_spec persons items shares
  set vals := persons.map (·.2) with hvals
  have hkeyscd : dkeys cd = vals := by
    rw [hkeys0, dkeys_initZeros_eq vals hvalsnd]
  -- identify m
  rw [calculateSplit_eq persons items fees shares cd t hst] at hm
  have hmeq : m = personTotals vals cd
      (taxShares vals cd t (dgetD fees keyTax 0))
      (equalFeeShare fees vals.length) := (Option.some_injective _ hm).symm
  -- total shared cost equals the item price total
  have htp : t = (items.map (·.2)).sum := by
    rw [ht]
    have hmap1 : shares.map (inclPrice items) =
        shares.map (fun e => lookupLastD items e.1) :=
      List.map_congr_left (fun e he => inclPrice_eq items shares hpos hshnd hassigned e he)
    have hmap2 : shares.map (fun e => lookupLastD items e.1) =
        (dkeys shares).map (lookupLastD items) := by
      rw [dkeys, List.map_map]
      rfl
    rw [hmap1, hmap2]
    exact sum_lookup items (dkeys shares) hshnd
      (fun nm hnm => by
        obtain ⟨l, hl, -⟩ := hassigned nm hnm
        by_contra hmem
        rw [(dget?_eq_none_iff shares nm).2 hmem] at hl
        exact Option.noConfusion hl)
      hind
  -- the cost dict sums to the total shared cost
  have hdsumcd : dsum cd = t := by
    obtain ⟨cd', t', hst', hs'⟩ := stage1Fold_dsum persons items shares
      (initZeros vals) 0 (nodup_dkeys_initZeros vals)
      (fun v hv => (mem_dkeys_initZeros vals v).2 hv) hval
    rw [stage1] at hst
    rw [hst'] at hst
    have hpair : (cd', t') = (cd, t) := Option.some_injective _ hst
    have he1 : cd' = cd := congrArg Prod.fst hpair
    have he2 : t' = t := congrArg Prod.snd hpair
    rw [he1, he2] at hs'
    rw [dsum_initZeros] at hs'
    linarith
  -- the tax dict sums to the whole tax
  have hkeystd : dkeys (taxShares vals cd t (dgetD fees keyTax 0)) = vals := by
    rw [taxShares_keys vals cd t _ hkeys0, dkeys_initZeros_eq vals hvalsnd]
  have hndtd : (dkeys (taxShares vals cd t (dgetD fees keyTax 0))).Nodup := by
    rw [hkeystd]; exact hvalsnd
  have hsumtd : (vals.map (fun v => dgetD (taxShares vals cd t (dgetD fees keyTax 0)) v 0)).sum
      = dgetD fees keyTax 0 := by
    rcases List.eq_nil_or_concat items with hit | hit
    · -- no items: total shared cost is 0 and the tax defaults to 0
      have ht0 : t = 0 := by rw [htp, hit]; simp
      have htax : dgetD fees keyTax 0 = 0 := htax0 hit
      rw [ht0, taxShares_nonpos vals cd 0 _ (by norm_num), htax]
      have : vals.map (fun v => dgetD (initZeros vals) v 0) = vals.map (fun _ => (0:ℚ)) :=
        List.map_congr_left (fun v _ => dgetD_initZeros vals v)
      rw [this, sum_map_const_q]
      ring
    · have hitne : items ≠ [] := by
        rcases hit with ⟨l, a, rfl⟩
        simp
      have htpos : 0 < t := by
        rw [htp]
        apply List.sum_pos
        · intro x hx
          obtain ⟨it, hit', rfl⟩ := List.mem_map.1 hx
          exact hpos it hit'
        · simpa using hitne
      have hsum1 : (vals.map (fun v => dgetD (taxShares vals cd t (dgetD fees keyTax 0)) v 0)).sum
          = dsum (taxShares vals cd t (dgetD fees keyTax 0)) := by
        rw [← dsum_eq_sum_keys _ hndtd, hkeystd]
      rw [hsum1, taxShares_pos_sum vals cd t _ htpos hndcd hkeys0, hdsumcd]
      field_simp
  -- the cost dict restricted to the full-name list
  have hsumcd : (vals.map (fun v => dgetD cd v 0)).sum = (items.map (·.2)).sum := by
    rw [← htp, ← hdsumcd, ← dsum_eq_sum_keys cd hndcd, hkeyscd]
  -- the equal fee share
  have hlen : 0 < vals.length := by
    rw [hvals, List.length_map]
    exact List.length_pos.2 hpne
  have hes : (vals.length : ℚ) * equalFeeShare fees vals.length =
      dgetD fees keyDelivery 0 + dgetD fees keyTip 0 := by
    rw [equalFeeShare, if_pos hlen, feeTotalOther]
    have : (vals.length : ℚ) ≠ 0 := by
      have := hlen
      positivity
    field_simp
  rw [hmeq, personTotals_sum vals cd _ _ hvalsnd, hsumcd, hsumtd, hes]
  ring

/-! ### Claim theorems: the split calculator -/


/-- C8: `calculate_split` is total: for any structurally valid inputs it
reaches its `return` — every division is guarded (`none` in the embedding
marks the only possible `KeyError`, proved unreachable), missing item names
price to 0, unknown sharer abbreviations are skipped, and the verification
step is diagnostic only (it is not part of the result). -/
theorem c8_calculate_split_total (persons : List (Str × Str)) (items : List (Str × ℚ))
    (fees : List (Str × ℚ)) (shares : List (Str × List Str)) :
    (calculateSplit persons items fees shares).isSome = true := by
  have h := stage1_isSome persons items shares
  cases hs : stage1 persons items shares with
  | none => rw [hs] at h; exact absurd h (by simp)
  | some st => rw [calculateSplit, hs]; rfl

/-- C3: tax is distributed strictly in proportion to each person's share of
the shared-item subtotal whenever that subtotal is positive; when the
subtotal is zero and the tax is nonzero, nobody is allocated any tax (the
logged warning has no effect on the result). -/
theorem c3_tax_proportional_distribution (persons : List (Str × Str))
    (items : List (Str × ℚ)) (fees : List (Str × ℚ)) (shares : List (Str × List Str))
    (cd : List (Str × ℚ)) (t : ℚ)
    (hst : stage1 persons items shares = some (cd, t)) :
    calculateSplit persons items fees shares =
      some (personTotals (persons.map (·.2)) cd
        (taxShares (persons.map (·.2)) cd t (dgetD fees keyTax 0))
        (equalFeeShare fees (persons.map (·.2)).length)) ∧
    (0 < t → ∀ p ∈ cd,
      dgetD (taxShares (persons.map (·.2)) cd t (dgetD fees keyTax 0)) p.1 0 =
        p.2 / t * dgetD fees keyTax 0) ∧
    (t = 0 → dgetD fees keyTax 0 ≠ 0 →
      ∀ k, dgetD (taxShares (persons.map (·.2)) cd t (dgetD fees keyTax 0)) k 0 = 0) := by
  obtain ⟨cd', t', hst', hkeys', hnd', -⟩ := stage1_spec persons items shares
  rw [hst'] at hst
  have hpair : (cd', t') = (cd, t) := Option.some_injective _ hst
  have he1 : cd' = cd := congrArg Prod.fst hpair
  have he2 : t' = t := congrArg Prod.snd hpair
  rw [he1, he2] at hst'
  rw [he1] at hnd'
  refine ⟨calculateSplit_eq persons items fees shares cd t hst', ?_, ?_⟩
  · intro hpos p hp
    exact (taxShares_pos_get (persons.map (·.2)) cd t (dgetD fees keyTax 0) hpos hnd').1 p hp
  · intro ht0 _ k
    rw [taxShares_nonpos _ _ _ _ (by rw [ht0]; norm_num)]
    exact dgetD_initZeros _ k

/-- C3 witness: the tax distribution claim at a concrete two-person bill with
a positive shared subtotal. -/
theorem c3_tax_proportional_distribution_witness :
    calculateSplit exPersons exItems exFees exShares =
      some (personTotals (exPersons.map (·.2)) exCd
        (taxShares (exPersons.map (·.2)) exCd 3 (dgetD exFees keyTax 0))
        (equalFeeShare exFees (exPersons.map (·.2)).length)) ∧
    (0 < (3:ℚ) → ∀ p ∈ exCd,
      dgetD (taxShares (exPersons.map (·.2)) exCd 3 (dgetD exFees keyTax 0)) p.1 0 =
        p.2 / 3 * dgetD exFees keyTax 0) ∧
    ((3:ℚ) = 0 → dgetD exFees keyTax 0 ≠ 0 →
      ∀ k, dgetD (taxShares (exPersons.map (·.2)) exCd 3 (dgetD exFees keyTax 0)) k 0 = 0) :=
  c3_tax_proportional_distribution exPersons exItems exFees exShares exCd 3 (by decide)

/-- C1 counterexample: the claim quantifies over every `item_shares` map in
which each item has at least one sharer, but a sharer abbreviation absent
from the persons map loses its share: one item of price 5 assigned to the
unknown abbreviation `B` yields totals summing to 0, off by 5 > 0.01. -/
theorem c1_conservation_counterexample :
    calculateSplit [("A".toList, "Al".toList)] [("x".toList, 5)] []
        [("x".toList, ["B".toList])] = some [("Al".toList, 0)] ∧
    dsum [("Al".toList, 0)] + 1/100 <
      (([("x".toList, (5:ℚ))].map (·.2)).sum + dgetD [] keyTax 0 +
        dgetD [] keyDelivery 0 + dgetD [] keyTip 0) := by
  constructor
  · decide
  · decide

/-- C1 (amended): conservation holds whenever the bill is well-formed: the
persons map is nonempty with distinct, nonempty full names; item names and
share keys are duplicate-free; every item price is positive; every item is
assigned a nonempty sharer list; every listed sharer abbreviation resolves to
a (truthy) person; and a bill with no items carries no tax.  Then the sum of
the returned totals equals item prices + Tax + Delivery Fee + Tip exactly,
hence within the claimed 0.01. -/
theorem c1_conservation_amended (persons : List (Str × Str)) (items : List (Str × ℚ))
    (fees : List (Str × ℚ)) (shares : List (Str × List Str)) (m : List (Str × ℚ))
    (hpne : persons ≠ [])
    (hvalsnd : (persons.map (·.2)).Nodup)
    (hval : ∀ e ∈ shares, ∀ a ∈ e.2, (truthyName persons a).isSome = true)
    (hshnd : (dkeys shares).Nodup)
    (hind : (dkeys items).Nodup)
    (hpos : ∀ it ∈ items, 0 < it.2)
    (hassigned : ∀ nm ∈ dkeys items, nm ∈ dkeys shares ∧ dget? shares nm ≠ some [])
    (htax0 : items = [] → dgetD fees keyTax 0 = 0)
    (hm : calculateSplit persons items fees shares = some m) :
    |dsum m - ((items.map (·.2)).sum + dgetD fees keyTax 0 +
      dgetD fees keyDelivery 0 + dgetD fees keyTip 0)| ≤ 1/100 := by
  have hassigned' : ∀ nm ∈ dkeys items, ∃ l, dget? shares nm = some l ∧ l ≠ [] := by
    intro nm hnm
    obtain ⟨hmem, hne⟩ := hassigned nm hnm
    cases hg : dget? shares nm with
    | none => exact absurd ((dget?_eq_none_iff shares nm).1 hg) (by simpa using hmem)
    | some l =>
      refine ⟨l, rfl, ?_⟩
      intro hl
      exact hne (hl ▸ hg)
  rw [conservation_main persons items fees shares m hpne hvalsnd hval hshnd hind hpos
    hassigned' htax0 hm]
  simp

/-- C1 witness: conservation at the concrete two-person bill. -/
theorem c1_conservation_amended_witness :
    |dsum [("Alice".toList, 21/10), ("Bob".toList, 9/2)] -
      ((exItems.map (·.2)).sum + dgetD exFees keyTax 0 +
        dgetD exFees keyDelivery 0 + dgetD exFees keyTip 0)| ≤ 1/100 :=
  c1_conservation_amended exPersons exItems exFees exShares
    [("Alice".toList, 21/10), ("Bob".toList, 9/2)]
    (by decide) (by decide) (by decide) (by decide) (by decide) (by decide)
    (by decide) (by decide) (by decide)

/-- C10: when two abbreviations share the full name "Bob", the result has a
single entry merging both item-cost shares but only one equal fee share,
while the divisor counts both abbreviations: with one 10-unit item shared by
both and a 10-unit delivery fee, Bob's single total is 10 + 0 + 10/2 = 15,
strictly below the 20-unit bill total by more than 0.01. -/
theorem c10_duplicate_full_name_collapse :
    calculateSplit [("A".toList, "Bob".toList), ("B".toList, "Bob".toList)]
        [("x".toList, 10)] [(keyDelivery, 10)]
        [("x".toList, ["A".toList, "B".toList])] = some [("Bob".toList, 15)] ∧
    dsum [("Bob".toList, 15)] + 1/100 <
      (([("x".toList, (10:ℚ))].map (·.2)).sum + dgetD [(keyDelivery, (10:ℚ))] keyTax 0 +
        dgetD [(keyDelivery, (10:ℚ))] keyDelivery 0 + dgetD [(keyDelivery, (10:ℚ))] keyTip 0) := by
  constructor
  · decide
  · decide

/-- C4: Delivery Fee + Tip are split equally over everyone in the persons
map: each result entry carries exactly one `equal_fee_share`, which is
`(Delivery Fee + Tip) / person_count` (0 for zero persons); an entry with no
item costs has tax 0 and owes exactly the equal share; negative fees flow
through the same formula and can make a total negative (second conjunct). -/
theorem c4_equal_other_fees_split :
    (∀ (persons : List (Str × Str)) (items : List (Str × ℚ))
      (fees : List (Str × ℚ)) (shares : List (Str × List Str))
      (cd : List (Str × ℚ)) (t : ℚ),
      stage1 persons items shares = some (cd, t) →
      calculateSplit persons items fees shares =
        some (personTotals (persons.map (·.2)) cd
          (taxShares (persons.map (·.2)) cd t (dgetD fees keyTax 0))
          (equalFeeShare fees (persons.map (·.2)).length)) ∧
      ((persons.map (·.2)).length = 0 →
        equalFeeShare fees (persons.map (·.2)).length = 0) ∧
      (0 < (persons.map (·.2)).length →
        equalFeeShare fees (persons.map (·.2)).length =
          (dgetD fees keyDelivery 0 + dgetD fees keyTip 0) /
            ((persons.map (·.2)).length : ℚ)) ∧
      ((persons.map (·.2)).Nodup → ∀ v ∈ persons.map (·.2),
        dgetD (personTotals (persons.map (·.2)) cd
            (taxShares (persons.map (·.2)) cd t (dgetD fees keyTax 0))
            (equalFeeShare fees (persons.map (·.2)).length)) v 0 =
          dgetD cd v 0 +
            dgetD (taxShares (persons.map (·.2)) cd t (dgetD fees keyTax 0)) v 0 +
            equalFeeShare fees (persons.map (·.2)).length ∧
        (dgetD cd v 0 = 0 →
          dgetD (taxShares (persons.map (·.2)) cd t (dgetD fees keyTax 0)) v 0 = 0 ∧
          dgetD (personTotals (persons.map (·.2)) cd
              (taxShares (persons.map (·.2)) cd t (dgetD fees keyTax 0))
              (equalFeeShare fees (persons.map (·.2)).length)) v 0 =
            equalFeeShare fees (persons.map (·.2)).length))) ∧
    (calculateSplit [("A".toList, "Bob".toList)] [] [(keyDelivery, -4)] [] =
        some [("Bob".toList, -4)] ∧ (-4 : ℚ) < 0) := by
  constructor
  · intro persons items fees shares cd t hst
    obtain ⟨cd', t', hst', hkeys', hnd', -⟩ := stage1_spec persons items shares
    rw [hst'] at hst
    have hpair : (cd', t') = (cd, t) := Option.some_injective _ hst
    have he1 : cd' = cd := congrArg Prod.fst hpair
    have he2 : t' = t := congrArg Prod.snd hpair
    rw [he1, he2] at hst'
    rw [he1] at hnd' hkeys'
    have htax0 : ∀ v ∈ persons.map (·.2), dgetD cd v 0 = 0 →
        dgetD (taxShares (persons.map (·.2)) cd t (dgetD fees keyTax 0)) v 0 = 0 := by
      intro v hv hcd0
      by_cases hpos : 0 < t
      · have hvk : v ∈ dkeys cd := by
          rw [hkeys']
          exact (mem_dkeys_initZeros _ v).2 hv
        obtain ⟨p, hp, hpe⟩ := mem_dkeys_exists cd v hvk
        have hval : dgetD cd v 0 = p.2 := by
          rw [← hpe, dgetD, dget?_of_mem_nodup cd p hnd' hp]
          rfl
        have := (taxShares_pos_get (persons.map (·.2)) cd t (dgetD fees keyTax 0)
          hpos hnd').1 p hp
        rw [hpe] at this
        rw [this, ← hval, hcd0]
        ring
      · rw [taxShares_nonpos _ _ _ _ hpos]
        exact dgetD_initZeros _ v
    refine ⟨calculateSplit_eq persons items fees shares cd t hst', ?_, ?_, ?_⟩
    · intro h0
      rw [equalFeeShare, if_neg (by rw [h0]; norm_num)]
    · intro hpos
      rw [equalFeeShare, if_pos hpos, feeTotalOther]
    · intro hnd v hv
      have hget := personTotals_get (persons.map (·.2)) cd
        (taxShares (persons.map (·.2)) cd t (dgetD fees keyTax 0))
        (equalFeeShare fees (persons.map (·.2)).length) hnd v hv
      refine ⟨hget, ?_⟩
      intro hcd0
      have htz := htax0 v hv hcd0
      refine ⟨htz, ?_⟩
      rw [hget, hcd0, htz]
      ring
  · exact ⟨by decide, by norm_num⟩

/-- C4 witness: the equal-split claim at the concrete two-person bill. -/
theorem c4_equal_other_fees_split_witness :
    calculateSplit exPersons exItems exFees exShares =
      some (personTotals (exPersons.map (·.2)) exCd
        (taxShares (exPersons.map (·.2)) exCd 3 (dgetD exFees keyTax 0))
        (equalFeeShare exFees (exPersons.map (·.2)).length)) ∧
    ((exPersons.map (·.2)).length = 0 →
      equalFeeShare exFees (exPersons.map (·.2)).length = 0) ∧
    (0 < (exPersons.map (·.2)).length →
      equalFeeShare exFees (exPersons.map (·.2)).length =
        (dgetD exFees keyDelivery 0 + dgetD exFees keyTip 0) /
          ((exPersons.map (·.2)).length : ℚ)) ∧
    ((exPersons.map (·.2)).Nodup → ∀ v ∈ exPersons.map (·.2),
      dgetD (personTotals (exPersons.map (·.2)) exCd
          (taxShares (exPersons.map (·.2)) exCd 3 (dgetD exFees keyTax 0))
          (equalFeeShare exFees (exPersons.map (·.2)).length)) v 0 =
        dgetD exCd v 0 +
          dgetD (taxShares (exPersons.map (·.2)) exCd 3 (dgetD exFees keyTax 0)) v 0 +
          equalFeeShare exFees (exPersons.map (·.2)).length ∧
      (dgetD exCd v 0 = 0 →
        dgetD (taxShares (exPersons.map (·.2)) exCd 3 (dgetD exFees keyTax 0)) v 0 = 0 ∧
        dgetD (personTotals (exPersons.map (·.2)) exCd
            (taxShares (exPersons.map (·.2)) exCd 3 (dgetD exFees keyTax 0))
            (equalFeeShare exFees (exPersons.map (·.2)).length)) v 0 =
          equalFeeShare exFees (exPersons.map (·.2)).length)) :=
  c4_equal_other_fees_split.1 exPersons exItems exFees exShares exCd 3 (by decide)

/-- C7: an `item_shares` entry priced `≤ 0` (missing items price to 0) or
with no sharers contributes nothing (it is a no-op for the item loop and can
be filtered out wholesale, and it adds nothing to `total_shared_item_cost`,
which sums exactly the included entries' prices); an included entry adds its
full price once to the total and each listed occurrence of a sharer one
`price / sharer_count` share. -/
theorem c7_zero_price_and_zero_sharer_exclusion (persons : List (Str × Str))
    (items : List (Str × ℚ)) :
    (∀ (st : List (Str × ℚ) × ℚ) (e : Str × List Str),
      ¬ (0 < lookupLastD items e.1 ∧ e.2 ≠ []) →
      procEntry persons items st e = some st) ∧
    (∀ shares : List (Str × List Str),
      stage1 persons items shares =
        stage1 persons items
          (shares.filter (fun e => decide (0 < lookupLastD items e.1 ∧ e.2 ≠ [])))) ∧
    (∀ (shares : List (Str × List Str)) (cd : List (Str × ℚ)) (t : ℚ),
      stage1 persons items shares = some (cd, t) →
      t = (shares.map (inclPrice items)).sum) ∧
    (∀ (d : List (Str × ℚ)) (t : ℚ) (e : Str × List Str),
      0 < lookupLastD items e.1 → e.2 ≠ [] → (dkeys d).Nodup →
      (∀ a ∈ e.2, ∀ v, truthyName persons a = some v → v ∈ dkeys d) →
      ∃ d', procEntry persons items (d, t) e = some (d', t + lookupLastD items e.1) ∧
        ∀ k, dgetD d' k 0 = dgetD d k 0 +
          (e.2.countP (fun a => decide (truthyName persons a = some k)) : ℚ) *
            (lookupLastD items e.1 / (e.2.length : ℚ))) := by
  refine ⟨procEntry_skip persons items, stage1_filter persons items, ?_, ?_⟩
  · intro shares cd t hst
    obtain ⟨cd', t', hst', -, -, ht⟩ := stage1_spec persons items shares
    rw [hst'] at hst
    have hpair : (cd', t') = (cd, t) := Option.some_injective _ hst
    have he2 : t' = t := congrArg Prod.snd hpair
    rw [← he2, ht]
  · intro d t e hp hne hnd hsub
    obtain ⟨d', h1, -, hv, -⟩ := shareAbbrs_spec persons
      (lookupLastD items e.1 / (e.2.length : ℚ)) e.2 d hnd hsub
    refine ⟨d', ?_, hv⟩
    rw [procEntry_incl persons items (d, t) e ⟨hp, hne⟩]
    rw [show (d, t).1 = d from rfl, h1]
    rfl

/-- C7 witness: exclusion and equal division at concrete entries. -/
theorem c7_zero_price_and_zero_sharer_exclusion_witness :
    (procEntry exPersons exItems (exCd, 0) ("Cherry".toList, ["A".toList]) =
      some (exCd, 0)) ∧
    (∃ d', procEntry exPersons exItems (initZeros (exPersons.map (·.2)), 0)
        ("Apple".toList, ["A".toList, "B".toList]) =
        some (d', 0 + lookupLastD exItems "Apple".toList) ∧
      ∀ k, dgetD d' k 0 = dgetD (initZeros (exPersons.map (·.2))) k 0 +
        ((["A".toList, "B".toList].countP
            (fun a => decide (truthyName exPersons a = some k))) : ℚ) *
          (lookupLastD exItems "Apple".toList / ((["A".toList, "B".toList]).length : ℚ))) :=
  ⟨(c7_zero_price_and_zero_sharer_exclusion exPersons exItems).1 (exCd, 0)
      ("Cherry".toList, ["A".toList]) (by decide),
   (c7_zero_price_and_zero_sharer_exclusion exPersons exItems).2.2.2
      (initZeros (exPersons.map (·.2))) 0 ("Apple".toList, ["A".toList, "B".toList])
      (by decide) (by decide) (by decide) (by decide)⟩

/-! ### Claim theorems: sharer lists (C9) -/


/-- C9 counterexample: the parser does not deduplicate sharer abbreviations:
the share line `Apple: A, A` is stored as the list `["A", "A"]`, so a sharer
list is not an ordered set. -/
theorem c9_sharer_sets_counterexample :
    parseBillInput c9text =
      some ⟨[("A".toList, "Alice".toList)], [("Apple".toList, 4)],
        [(keyTax, 0), (keyDelivery, 0), (keyTip, 0)],
        [("Apple".toList, ["A".toList, "A".toList])]⟩ ∧
    ¬ (["A".toList, "A".toList] : List Str).Nodup := by
  constructor
  · decide
  · decide

/-- C9 (amended): a sharer list is an ordered list that may repeat an
abbreviation; `calculate_split` divides by the number of occurrences and
credits each occurrence separately, so a person listed `k` times receives
`k * (price / sharer_count)` of the item. -/
theorem c9_sharer_lists_amended (persons : List (Str × Str)) (cost : ℚ)
    (d : List (Str × ℚ)) (abbrs : List Str)
    (hnd : (dkeys d).Nodup)
    (hsub : ∀ a ∈ abbrs, ∀ v, truthyName persons a = some v → v ∈ dkeys d) :
    ∃ d', shareAbbrs persons cost d abbrs = some d' ∧
      ∀ k, dgetD d' k 0 = dgetD d k 0 +
        (abbrs.countP (fun a => decide (truthyName persons a = some k)) : ℚ) * cost := by
  obtain ⟨d', h1, -, hv, -⟩ := shareAbbrs_spec persons cost abbrs d hnd hsub
  exact ⟨d', h1, hv⟩

/-- C9 witness: the duplicated sharer `A` receives two half-shares. -/
theorem c9_sharer_lists_amended_witness :
    ∃ d', shareAbbrs [("A".toList, "Alice".toList)] 2
        [("Alice".toList, 0)] ["A".toList, "A".toList] = some d' ∧
      ∀ k, dgetD d' k 0 = dgetD [("Alice".toList, 0)] k 0 +
        ((["A".toList, "A".toList].countP
          (fun a => decide (truthyName [("A".toList, "Alice".toList)] a = some k))) : ℚ) * 2 :=
  c9_sharer_lists_amended [("A".toList, "Alice".toList)] 2 [("Alice".toList, 0)]
    ["A".toList, "A".toList] (by decide) (by decide)

/-! ### Parser loop lemmas -/

theorem dput_ne_nil {α : Type} (d : List (Str × α)) (k : Str) (v : α) :
    dput d k v ≠ [] := by
  cases d with
  | nil => simp [dput]
  | cons p t =>
    rw [dput]
    by_cases h : p.1 = k
    · simp [h]
    · simp [h]

theorem mem_dput_pair {α : Type} (d : List (Str × α)) (k : Str) (v : α)
    (p : Str × α) (hp : p ∈ dput d k v) : p ∈ d ∨ p = (k, v) := by
  induction d with
  | nil => simp [dput] at hp; simp [hp]
  | cons q t ih =>
    by_cases h : q.1 = k
    · rw [dput, if_pos h] at hp
      rcases List.mem_cons.1 hp with hp' | hp'
      · right; rw [hp', h]
      · left; exact List.mem_cons_of_mem _ hp'
    · rw [dput, if_neg h] at hp
      rcases List.mem_cons.1 hp with hp' | hp'
      · left; rw [hp']; exact List.mem_cons_self _ _
      · rcases ih hp' with hm | he
        · left; exact List.mem_cons_of_mem _ hm
        · right; exact he

theorem personStep_none (d : List (Str × Str)) (line : Str)
    (hc : splitColon line = none) : personStep d line = d := by
  rw [personStep, hc]

theorem personStep_some (d : List (Str × Str)) (line : Str) (a n : Str)
    (hc : splitColon line = some (a, n)) :
    personStep d line = dput d (pyStrip a) (pyStrip n) := by
  rw [personStep, hc]

theorem itemStep_noneAcc (line : Str) : itemStep none line = none := rfl

theorem itemStep_noColon (its : List (Str × ℚ)) (line : Str)
    (hc : splitColon line = none) : itemStep (some its) line = some its := by
  rw [itemStep, hc]

theorem itemStep_ok (its : List (Str × ℚ)) (line : Str) (nm ps : Str) (v : ℚ)
    (hc : splitColon line = some (nm, ps)) (hf : pyFloat? (pyStrip ps) = some v) :
    itemStep (some its) line = some (its ++ [(pyStrip nm, v)]) := by
  rw [itemStep, hc]
  show (match pyFloat? (pyStrip ps) with
    | some v => some (its ++ [(pyStrip nm, v)])
    | none => none) = some (its ++ [(pyStrip nm, v)])
  rw [hf]

theorem itemStep_bad (its : List (Str × ℚ)) (line : Str) (nm ps : Str)
    (hc : splitColon line = some (nm, ps)) (hf : pyFloat? (pyStrip ps) = none) :
    itemStep (some its) line = none := by
  rw [itemStep, hc]
  show (match pyFloat? (pyStrip ps) with
    | some v => some (its ++ [(pyStrip nm, v)])
    | none => none) = none
  rw [hf]

theorem feeStep_noneAcc (line : Str) : feeStep none line = none := rfl

theorem feeStep_noColon (fs : List (Str × ℚ)) (line : Str)
    (hc : splitColon line = none) : feeStep (some fs) line = some fs := by
  rw [feeStep, hc]

theorem feeStep_notCanon (fs : List (Str × ℚ)) (line : Str) (nm ps : Str)
    (hc : splitColon line = some (nm, ps)) (hn : pyStrip nm ∉ canonicalFees) :
    feeStep (some fs) line = some fs := by
  rw [feeStep, hc]
  show (if pyStrip nm ∈ canonicalFees then
      (match pyFloat? (pyStrip ps) with
        | some v => some (dput fs (pyStrip nm) v)
        | none => none)
    else some fs) = some fs
  exact if_neg hn

theorem feeStep_ok (fs : List (Str × ℚ)) (line : Str) (nm ps : Str) (v : ℚ)
    (hc : splitColon line = some (nm, ps)) (hn : pyStrip nm ∈ canonicalFees)
    (hf : pyFloat? (pyStrip ps) = some v) :
    feeStep (some fs) line = some (dput fs (pyStrip nm) v) := by
  rw [feeStep, hc]
  show (if pyStrip nm ∈ canonicalFees then
      (match pyFloat? (pyStrip ps) with
        | some v => some (dput fs (pyStrip nm) v)
        | none => none)
    else some fs) = some (dput fs (pyStrip nm) v)
  rw [if_pos hn, hf]

theorem feeStep_bad (fs : List (Str × ℚ)) (line : Str) (nm ps : Str)
    (hc : splitColon line = some (nm, ps)) (hn : pyStrip nm ∈ canonicalFees)
    (hf : pyFloat? (pyStrip ps) = none) :
    feeStep (some fs) line = none := by
  rw [feeStep, hc]
  show (if pyStrip nm ∈ canonicalFees then
      (match pyFloat? (pyStrip ps) with
        | some v => some (dput fs (pyStrip nm) v)
        | none => none)
    else some fs) = none
  rw [if_pos hn, hf]

theorem shareStep_none (itemNames personKeys : List Str) (d : List (Str × List Str))
    (line : Str) (hc : splitColon line = none) :
    shareStep itemNames personKeys d line = d := by
  rw [shareStep, hc]

theorem shareStep_some (itemNames personKeys : List Str) (d : List (Str × List Str))
    (line : Str) (nm rest : Str) (hc : splitColon line = some (nm, rest)) :
    shareStep itemNames personKeys d line =
      (if pyStrip nm ∈ itemNames then
        (if (((rest.splitOn ',').map pyStrip).filter (fun a => a ≠ [])).filter
              (fun a => a ∈ personKeys) ≠ [] then
          dput d (pyStrip nm)
            ((((rest.splitOn ',').map pyStrip).filter (fun a => a ≠ [])).filter
              (fun a => a ∈ personKeys))
        else d)
      else d) := by
  rw [shareStep, hc]

/-- The PERSONS loop yields an empty dict exactly when no line has a colon. -/
theorem parsePersons_eq_nil_iff (pc : Str) :
    parsePersons pc = [] ↔ ∀ line ∈ linesOf pc, lineHasColon line = false := by
  rw [parsePersons]
  have main : ∀ (lines : List Str) (d0 : List (Str × Str)),
      lines.foldl personStep d0 = [] ↔
        (d0 = [] ∧ ∀ line ∈ lines, lineHasColon line = false) := by
    intro lines
    induction lines with
    | nil => intro d0; simp
    | cons line rest ih =>
      intro d0
      rw [List.foldl_cons]
      cases hc : splitColon line with
      | none =>
        rw [personStep_none d0 line hc, ih d0]
        constructor
        · rintro ⟨h0, hall⟩
          refine ⟨h0, ?_⟩
          intro l hl
          rcases List.mem_cons.1 hl with rfl | hl'
          · rw [lineHasColon, hc]; rfl
          · exact hall l hl'
        · rintro ⟨h0, hall⟩
          exact ⟨h0, fun l hl => hall l (List.mem_cons_of_mem _ hl)⟩
      | some p =>
        rw [personStep_some d0 line p.1 p.2 (by rw [hc])]
        rw [ih (dput d0 (pyStrip p.1) (pyStrip p.2))]
        constructor
        · rintro ⟨h0, -⟩
          exact absurd h0 (dput_ne_nil d0 (pyStrip p.1) (pyStrip p.2))
        · rintro ⟨-, hall⟩
          have := hall line (List.mem_cons_self _ _)
          rw [lineHasColon, hc] at this
          exact absurd this Bool.noConfusion
  rw [main (linesOf pc) []]
  simp

/-- A fold of `itemStep` or `feeStep` from `none` stays `none`. -/
theorem foldl_step_none {β : Type} (step : Option β → Str → Option β)
    (hstep : ∀ l, step none l = none) (lines : List Str) :
    lines.foldl step none = none := by
  induction lines with
  | nil => rfl
  | cons l t ih => rw [List.foldl_cons, hstep l]; exact ih

/-- The ITEMS loop fails exactly when some line has a colon and an
unparseable amount. -/
theorem parseItems_none_iff (ic : Str) :
    parseItems ic = none ↔ ∃ line ∈ linesOf ic, itemLineBad line = true := by
  rw [parseItems]
  have main : ∀ (lines : List Str) (its : List (Str × ℚ)),
      lines.foldl itemStep (some its) = none ↔
        ∃ line ∈ lines, itemLineBad line = true := by
    intro lines
    induction lines with
    | nil => intro its; simp [parseItems]
    | cons line rest ih =>
      intro its
      rw [List.foldl_cons]
      cases hc : splitColon line with
      | none =>
        rw [itemStep_noColon its line hc, ih its]
        constructor
        · rintro ⟨l, hl, hb⟩
          exact ⟨l, List.mem_cons_of_mem _ hl, hb⟩
        · rintro ⟨l, hl, hb⟩
          rcases List.mem_cons.1 hl with rfl | hl'
          · rw [itemLineBad, hc] at hb
            exact absurd hb Bool.noConfusion
          · exact ⟨l, hl', hb⟩
      | some p =>
        obtain ⟨nm, ps⟩ := p
        cases hf : pyFloat? (pyStrip ps) with
        | none =>
          rw [itemStep_bad its line nm ps hc hf]
          rw [foldl_step_none itemStep itemStep_noneAcc rest]
          simp only [true_iff]
          refine ⟨line, List.mem_cons_self _ _, ?_⟩
          rw [itemLineBad, hc]
          show (pyFloat? (pyStrip ps)).isNone = true
          rw [hf]
          rfl
        | some v =>
          rw [itemStep_ok its line nm ps v hc hf]
          rw [ih (its ++ [(pyStrip nm, v)])]
          constructor
          · rintro ⟨l, hl, hb⟩
            exact ⟨l, List.mem_cons_of_mem _ hl, hb⟩
          · rintro ⟨l, hl, hb⟩
            rcases List.mem_cons.1 hl with rfl | hl'
            · rw [itemLineBad, hc] at hb
              have hb2 : (pyFloat? (pyStrip ps)).isNone = true := hb
              rw [hf] at hb2
              exact absurd hb2 Bool.noConfusion
            · exact ⟨l, hl', hb⟩
  exact main (linesOf ic) []

/-- The FEES loop fails exactly when some canonical-named line has an
unparseable amount. -/
theorem parseFees_none_iff (fc : Str) :
    parseFees fc = none ↔ ∃ line ∈ linesOf fc, feeLineBad line = true := by
  rw [parseFees]
  have main : ∀ (lines : List Str) (fs : List (Str × ℚ)),
      lines.foldl feeStep (some fs) = none ↔
        ∃ line ∈ lines, feeLineBad line = true := by
    intro lines
    induction lines with
    | nil => intro fs; simp
    | cons line rest ih =>
      intro fs
      rw [List.foldl_cons]
      cases hc : splitColon line with
      | none =>
        rw [feeStep_noColon fs line hc, ih fs]
        constructor
        · rintro ⟨l, hl, hb⟩
          exact ⟨l, List.mem_cons_of_mem _ hl, hb⟩
        · rintro ⟨l, hl, hb⟩
          rcases List.mem_cons.1 hl with rfl | hl'
          · rw [feeLineBad, hc] at hb
            exact absurd hb Bool.noConfusion
          · exact ⟨l, hl', hb⟩
      | some p =>
        obtain ⟨nm, ps⟩ := p
        by_cases hcanon : pyStrip nm ∈ canonicalFees
        · cases hf : pyFloat? (pyStrip ps) with
          | none =>
            rw [feeStep_bad fs line nm ps hc hcanon hf]
            rw [foldl_step_none feeStep feeStep_noneAcc rest]
            simp only [true_iff]
            refine ⟨line, List.mem_cons_self _ _, ?_⟩
            rw [feeLineBad, hc]
            simp [hcanon, hf]
          | some v =>
            rw [feeStep_ok fs line nm ps v hc hcanon hf]
            rw [ih (dput fs (pyStrip nm) v)]
            constructor
            · rintro ⟨l, hl, hb⟩
              exact ⟨l, List.mem_cons_of_mem _ hl, hb⟩
            · rintro ⟨l, hl, hb⟩
              rcases List.mem_cons.1 hl with rfl | hl'
              · rw [feeLineBad, hc] at hb
                simp [hf] at hb
              · exact ⟨l, hl', hb⟩
        · rw [feeStep_notCanon fs line nm ps hc hcanon, ih fs]
          constructor
          · rintro ⟨l, hl, hb⟩
            exact ⟨l, List.mem_cons_of_mem _ hl, hb⟩
          · rintro ⟨l, hl, hb⟩
            rcases List.mem_cons.1 hl with rfl | hl'
            · rw [feeLineBad, hc] at hb
              simp [hcanon] at hb
            · exact ⟨l, hl', hb⟩
  exact main (linesOf fc) []

/-- Inversion for a successful `parse_bill_input`. -/
theorem parseBillInput_inv (text : Str) (pd : ParsedData)
    (h : parseBillInput text = some pd) :
    ∃ pc ic fc sc items fees0,
      extractSec text hdrP hdrI = some pc ∧
      extractSec text hdrI hdrF = some ic ∧
      extractSec text hdrF hdrS = some fc ∧
      extractTail text hdrS = some sc ∧
      parsePersons pc ≠ [] ∧
      parseItems ic = some items ∧
      parseFees fc = some fees0 ∧
      pd = ⟨parsePersons pc, items, fillFees fees0,
            parseShares sc (items.map (·.1)) ((parsePersons pc).map (·.1))⟩ := by
  rw [parseBillInput] at h
  cases h1 : extractSec text hdrP hdrI with
  | none => rw [h1] at h; simp at h
  | some pc =>
  cases h2 : extractSec text hdrI hdrF with
  | none => rw [h1, h2] at h; simp at h
  | some ic =>
  cases h3 : extractSec text hdrF hdrS with
  | none => rw [h1, h2, h3] at h; simp at h
  | some fc =>
  cases h4 : extractTail text hdrS with
  | none => rw [h1, h2, h3, h4] at h; simp at h
  | some sc =>
  rw [h1, h2, h3, h4] at h
  have h' : (if parsePersons pc = [] then none
      else match parseItems ic with
        | none => none
        | some items =>
          match parseFees fc with
          | none => none
          | some fees0 =>
            some (⟨parsePersons pc, items, fillFees fees0,
              parseShares sc (items.map (·.1)) ((parsePersons pc).map (·.1))⟩ : ParsedData))
      = some pd := h
  by_cases hpe : parsePersons pc = []
  · rw [if_pos hpe] at h'
    exact absurd h' (by simp)
  · rw [if_neg hpe] at h'
    cases hit : parseItems ic with
    | none =>
      rw [hit] at h'
      simp at h'
    | some items =>
      rw [hit] at h'
      cases hfe : parseFees fc with
      | none =>
        rw [hfe] at h'
        simp at h'
      | some fees0 =>
        rw [hfe] at h'
        refine ⟨pc, ic, fc, sc, items, fees0, rfl, rfl, rfl, rfl, hpe, hit, hfe, ?_⟩
        exact (Option.some_injective _ h').symm

/-! ### Claim theorems: decode failure (C5) -/

/-- C5: `parse_bill_input` returns `None` (never a partial result, never an
exception) exactly when a literal section header is missing (the regex
search fails), the PERSONS section yields no colon-bearing line, an ITEMS
line has an unparseable amount, or a canonical-named FEES line has an
unparseable amount; all other malformed content is skipped and decoding
continues. -/
theorem c5_decode_failure_contract (text : Str) :
    parseBillInput text = none ↔
      (match extractSec text hdrP hdrI, extractSec text hdrI hdrF,
            extractSec text hdrF hdrS, extractTail text hdrS with
      | some pc, some ic, some fc, some _ =>
        (∀ line ∈ linesOf pc, lineHasColon line = false) ∨
        (∃ line ∈ linesOf ic, itemLineBad line = true) ∨
        (∃ line ∈ linesOf fc, feeLineBad line = true)
      | _, _, _, _ => True) := by
  cases h1 : extractSec text hdrP hdrI with
  | none =>
    rw [parseBillInput, h1]
    simp
  | some pc =>
  cases h2 : extractSec text hdrI hdrF with
  | none =>
    rw [parseBillInput, h1, h2]
    simp
  | some ic =>
  cases h3 : extractSec text hdrF hdrS with
  | none =>
    rw [parseBillInput, h1, h2, h3]
    simp
  | some fc =>
  cases h4 : extractTail text hdrS with
  | none =>
    rw [parseBillInput, h1, h2, h3, h4]
    simp
  | some sc =>
  rw [parseBillInput, h1, h2, h3, h4]
  have hred : (match (some pc : Option Str), (some ic : Option Str),
        (some fc : Option Str), (some sc : Option Str) with
      | some pc, some ic, some fc, some _ =>
        (∀ line ∈ linesOf pc, lineHasColon line = false) ∨
        (∃ line ∈ linesOf ic, itemLineBad line = true) ∨
        (∃ line ∈ linesOf fc, feeLineBad line = true)
      | _, _, _, _ => True) =
      ((∀ line ∈ linesOf pc, lineHasColon line = false) ∨
        (∃ line ∈ linesOf ic, itemLineBad line = true) ∨
        (∃ line ∈ linesOf fc, feeLineBad line = true)) := rfl
  rw [hred]
  show ((if parsePersons pc = [] then none
      else match parseItems ic with
        | none => none
        | some items =>
          match parseFees fc with
          | none => none
          | some fees0 =>
            some (⟨parsePersons pc, items, fillFees fees0,
              parseShares sc (items.map (·.1)) ((parsePersons pc).map (·.1))⟩ : ParsedData))
      = none) ↔ _
  by_cases hpe : parsePersons pc = []
  · rw [if_pos hpe]
    simp only [eq_self_iff_true, true_iff]
    exact Or.inl ((parsePersons_eq_nil_iff pc).1 hpe)
  · rw [if_neg hpe]
    cases hit : parseItems ic with
    | none =>
      simp only [eq_self_iff_true, true_iff]
      exact Or.inr (Or.inl ((parseItems_none_iff ic).1 hit))
    | some items =>
      cases hfe : parseFees fc with
      | none =>
        simp only [eq_self_iff_true, true_iff]
        exact Or.inr (Or.inr ((parseFees_none_iff fc).1 hfe))
      | some fees0 =>
        constructor
        · intro hcontra
          exact absurd hcontra (by simp)
        · rintro (hbad | hbad | hbad)
          · exact absurd ((parsePersons_eq_nil_iff pc).2 hbad) hpe
          · rw [(parseItems_none_iff ic).2 hbad] at hit
            exact Option.noConfusion hit
          · rw [(parseFees_none_iff fc).2 hbad] at hfe
            exact Option.noConfusion hfe

/-! ### Decode-result invariants (C6) -/

/-- Every entry stored by the SHARES loop has a known item name, at least one
sharer, and only known person abbreviations. -/
theorem parseShares_invariants (sc : Str) (itemNames personKeys : List Str) :
    ∀ e ∈ parseShares sc itemNames personKeys,
      e.1 ∈ itemNames ∧ e.2 ≠ [] ∧ ∀ a ∈ e.2, a ∈ personKeys := by
  rw [parseShares]
  have main : ∀ (lines : List Str) (d : List (Str × List Str)),
      (∀ e ∈ d, e.1 ∈ itemNames ∧ e.2 ≠ [] ∧ ∀ a ∈ e.2, a ∈ personKeys) →
      ∀ e ∈ lines.foldl (shareStep itemNames personKeys) d,
        e.1 ∈ itemNames ∧ e.2 ≠ [] ∧ ∀ a ∈ e.2, a ∈ personKeys := by
    intro lines
    induction lines with
    | nil => intro d hd; simpa using hd
    | cons line rest ih =>
      intro d hd
      rw [List.foldl_cons]
      apply ih
      intro e he
      cases hc : splitColon line with
      | none =>
        rw [shareStep_none _ _ _ _ hc] at he
        exact hd e he
      | some p =>
        rw [shareStep_some itemNames personKeys d line p.1 p.2 (by rw [hc])] at he
        by_cases hin : pyStrip p.1 ∈ itemNames
        · rw [if_pos hin] at he
          by_cases hvne : (((p.2.splitOn ',').map pyStrip).filter (fun a => a ≠ [])).filter
              (fun a => a ∈ personKeys) ≠ []
          · rw [if_pos hvne] at he
            rcases mem_dput_pair _ _ _ e he with hm | hpair
            · exact hd e hm
            · refine ⟨?_, ?_, ?_⟩
              · rw [hpair]; exact hin
              · rw [hpair]; exact hvne
              · rw [hpair]
                intro a ha
                have := List.mem_filter.1 ha
                simpa using this.2
          · rw [if_neg hvne] at he
            exact hd e he
        · rw [if_neg hin] at he
          exact hd e he
  exact main (linesOf sc) [] (by simp)

/-- Every key stored by the FEES loop is canonical. -/
theorem parseFees_keys_canonical (fc : Str) (fs : List (Str × ℚ))
    (h : parseFees fc = some fs) : ∀ k ∈ dkeys fs, k ∈ canonicalFees := by
  rw [parseFees] at h
  have main : ∀ (lines : List Str) (fs0 : List (Str × ℚ)),
      (∀ k ∈ dkeys fs0, k ∈ canonicalFees) →
      lines.foldl feeStep (some fs0) = some fs →
      ∀ k ∈ dkeys fs, k ∈ canonicalFees := by
    intro lines
    induction lines with
    | nil =>
      intro fs0 h0 he
      exact (Option.some_injective _ he) ▸ h0
    | cons line rest ih =>
      intro fs0 h0 he
      rw [List.foldl_cons] at he
      cases hc : splitColon line with
      | none =>
        rw [feeStep_noColon fs0 line hc] at he
        exact ih fs0 h0 he
      | some p =>
        by_cases hcanon : pyStrip p.1 ∈ canonicalFees
        · cases hf : pyFloat? (pyStrip p.2) with
          | none =>
            rw [feeStep_bad fs0 line p.1 p.2 (by rw [hc]) hcanon hf] at he
            rw [foldl_step_none feeStep feeStep_noneAcc rest] at he
            exact absurd he (by simp)
          | some v =>
            rw [feeStep_ok fs0 line p.1 p.2 v (by rw [hc]) hcanon hf] at he
            refine ih (dput fs0 (pyStrip p.1) v) ?_ he
            intro k hk
            rcases (mem_dkeys_dput fs0 (pyStrip p.1) k v).1 hk with hm | rfl
            · exact h0 k hm
            · exact hcanon
        · rw [feeStep_notCanon fs0 line p.1 p.2 (by rw [hc]) hcanon] at he
          exact ih fs0 h0 he
  exact main (linesOf fc) [] (by simp [dkeys_nil]) h

/-- A canonical fee never mentioned on a FEES line is absent from the FEES
loop's dict. -/
theorem parseFees_unmentioned (fc : Str) (fs : List (Str × ℚ))
    (h : parseFees fc = some fs) (f : Str)
    (hno : ∀ line ∈ linesOf fc, feeLineNames line f = false) : f ∉ dkeys fs := by
  rw [parseFees] at h
  have main : ∀ (lines : List Str) (fs0 : List (Str × ℚ)),
      (∀ line ∈ lines, feeLineNames line f = false) →
      f ∉ dkeys fs0 →
      lines.foldl feeStep (some fs0) = some fs →
      f ∉ dkeys fs := by
    intro lines
    induction lines with
    | nil =>
      intro fs0 _ h0 he
      exact (Option.some_injective _ he) ▸ h0
    | cons line rest ih =>
      intro fs0 hno0 h0 he
      rw [List.foldl_cons] at he
      cases hc : splitColon line with
      | none =>
        rw [feeStep_noColon fs0 line hc] at he
        exact ih fs0 (fun l hl => hno0 l (List.mem_cons_of_mem _ hl)) h0 he
      | some p =>
        by_cases hcanon : pyStrip p.1 ∈ canonicalFees
        · cases hf : pyFloat? (pyStrip p.2) with
          | none =>
            rw [feeStep_bad fs0 line p.1 p.2 (by rw [hc]) hcanon hf] at he
            rw [foldl_step_none feeStep feeStep_noneAcc rest] at he
            exact absurd he (by simp)
          | some v =>
            rw [feeStep_ok fs0 line p.1 p.2 v (by rw [hc]) hcanon hf] at he
            have hne : pyStrip p.1 ≠ f := by
              intro heq
              have := hno0 line (List.mem_cons_self _ _)
              rw [feeLineNames, hc] at this
              have hb : (pyStrip p.1 == f) = false := this
              rw [heq] at hb
              simp at hb
            refine ih (dput fs0 (pyStrip p.1) v)
              (fun l hl => hno0 l (List.mem_cons_of_mem _ hl)) ?_ he
            intro hmem
            rcases (mem_dkeys_dput fs0 (pyStrip p.1) f v).1 hmem with hm | he'
            · exact h0 hm
            · exact hne he'.symm
        · rw [feeStep_notCanon fs0 line p.1 p.2 (by rw [hc]) hcanon] at he
          exact ih fs0 (fun l hl => hno0 l (List.mem_cons_of_mem _ hl)) h0 he
  exact main (linesOf fc) [] hno (by simp [dkeys_nil]) h

/-- The `fillFees` step function. -/
theorem fillFees_step_keys (d : List (Str × ℚ)) (g k : Str) :
    k ∈ dkeys (if dmem d g then d else dput d g 0) → k ∈ dkeys d ∨ k = g := by
  by_cases hm : dmem d g
  · rw [if_pos hm]; exact Or.inl
  · rw [if_neg hm]
    exact (mem_dkeys_dput d g k 0).1

theorem fillFees_step_mono (d : List (Str × ℚ)) (g k : Str) (hk : k ∈ dkeys d) :
    k ∈ dkeys (if dmem d g then d else dput d g 0) := by
  by_cases hm : dmem d g
  · rw [if_pos hm]; exact hk
  · rw [if_neg hm]; exact (mem_dkeys_dput d g k 0).2 (Or.inl hk)

theorem fillFees_fold_mono (L : List Str) :
    ∀ (d : List (Str × ℚ)) (k : Str), k ∈ dkeys d →
      k ∈ dkeys (L.foldl (fun d f => if dmem d f then d else dput d f 0) d) := by
  induction L with
  | nil => intro d k hk; exact hk
  | cons g t ih =>
    intro d k hk
    rw [List.foldl_cons]
    exact ih _ k (fillFees_step_mono d g k hk)

theorem fillFees_fold_sub (L : List Str) :
    ∀ (d : List (Str × ℚ)) (k : Str),
      k ∈ dkeys (L.foldl (fun d f => if dmem d f then d else dput d f 0) d) →
      k ∈ dkeys d ∨ k ∈ L := by
  induction L with
  | nil => intro d k hk; exact Or.inl hk
  | cons g t ih =>
    intro d k hk
    rw [List.foldl_cons] at hk
    rcases ih _ k hk with hm | hm
    · rcases fillFees_step_keys d g k hm with hm' | rfl
      · exact Or.inl hm'
      · exact Or.inr (List.mem_cons_self _ _)
    · exact Or.inr (List.mem_cons_of_mem _ hm)

theorem fillFees_fold_covers (L : List Str) :
    ∀ (d : List (Str × ℚ)) (f : Str), f ∈ L →
      f ∈ dkeys (L.foldl (fun d f => if dmem d f then d else dput d f 0) d) := by
  induction L with
  | nil => intro d f hf; simp at hf
  | cons g t ih =>
    intro d f hf
    rw [List.foldl_cons]
    rcases List.mem_cons.1 hf with rfl | hf'
    · apply fillFees_fold_mono
      by_cases hm : dmem d f
      · rw [if_pos hm]; exact (dmem_iff d f).1 hm
      · rw [if_neg hm]; exact (mem_dkeys_dput d f f 0).2 (Or.inr rfl)
    · exact ih _ f hf'

theorem fillFees_fold_skip (L : List Str) :
    ∀ (d : List (Str × ℚ)) (f : Str), f ∉ L →
      dget? (L.foldl (fun d f => if dmem d f then d else dput d f 0) d) f = dget? d f := by
  induction L with
  | nil => intro d f _; rfl
  | cons g t ih =>
    intro d f hf
    simp only [List.mem_cons, not_or] at hf
    rw [List.foldl_cons, ih _ f hf.2]
    by_cases hm : dmem d g
    · rw [if_pos hm]
    · rw [if_neg hm, dget?_dput_ne _ _ _ _ hf.1]

theorem fillFees_fold_default (L : List Str) :
    ∀ (d : List (Str × ℚ)) (f : Str), L.Nodup → f ∈ L → f ∉ dkeys d →
      dget? (L.foldl (fun d f => if dmem d f then d else dput d f 0) d) f = some 0 := by
  induction L with
  | nil => intro d f _ hf _; simp at hf
  | cons g t ih =>
    intro d f hnd hf h0
    rw [List.nodup_cons] at hnd
    rw [List.foldl_cons]
    rcases List.mem_cons.1 hf with rfl | hf'
    · rw [if_neg (fun hm => h0 ((dmem_iff d f).1 hm))]
      rw [fillFees_fold_skip t _ f hnd.1]
      exact dget?_dput_self d f 0
    · apply ih _ f hnd.2 hf'
      intro hmem
      rcases fillFees_step_keys d g f hmem with hm | rfl
      · exact h0 hm
      · exact hnd.1 hf'

/-- C6: every successfully decoded bill satisfies the structural invariants:
sharer abbreviations are keys of `persons`; `item_shares` keys are item
names; each entry has at least one sharer; the fees dict holds exactly the
three canonical keys, each present, and a canonical fee not mentioned in the
FEES section is present with value `0.0`. -/
theorem c6_decode_result_invariant (text : Str) (pd : ParsedData)
    (h : parseBillInput text = some pd) :
    (∀ e ∈ pd.item_shares, ∀ a ∈ e.2, a ∈ dkeys pd.persons) ∧
    (∀ e ∈ pd.item_shares, e.1 ∈ dkeys pd.items) ∧
    (∀ e ∈ pd.item_shares, e.2 ≠ []) ∧
    (∀ k, k ∈ dkeys pd.fees ↔ k ∈ canonicalFees) ∧
    (∀ f ∈ canonicalFees, ∃ v, dget? pd.fees f = some v) ∧
    (∀ fc, extractSec text hdrF hdrS = some fc →
      ∀ f ∈ canonicalFees, (∀ line ∈ linesOf fc, feeLineNames line f = false) →
        dget? pd.fees f = some 0) := by
  obtain ⟨pc, ic, fc0, sc, items, fees0, h1, h2, h3, h4, hpe, hit, hfe, hpd⟩ :=
    parseBillInput_inv text pd h
  have hshinv := parseShares_invariants sc (items.map (·.1)) ((parsePersons pc).map (·.1))
  have hkeysfees : ∀ k, k ∈ dkeys (fillFees fees0) ↔ k ∈ canonicalFees := by
    intro k
    constructor
    · intro hk
      rw [fillFees] at hk
      rcases fillFees_fold_sub canonicalFees fees0 k hk with hm | hm
      · exact parseFees_keys_canonical fc0 fees0 hfe k hm
      · exact hm
    · intro hk
      rw [fillFees]
      exact fillFees_fold_covers canonicalFees fees0 k hk
  subst hpd
  refine ⟨?_, ?_, ?_, hkeysfees, ?_, ?_⟩
  · intro e he a ha
    exact (hshinv e he).2.2 a ha
  · intro e he
    exact (hshinv e he).1
  · intro e he
    exact (hshinv e he).2.1
  · intro f hf
    cases hg : dget? (fillFees fees0) f with
    | none =>
      exact absurd ((hkeysfees f).2 hf) ((dget?_eq_none_iff _ f).1 hg)
    | some v => exact ⟨v, rfl⟩
  · intro fc hfc f hf hno
    have hfceq : fc = fc0 := Option.some_injective _ (hfc ▸ h3 ▸ rfl)
    subst hfceq
    rw [fillFees]
    exact fillFees_fold_default canonicalFees fees0 f (by decide) hf
      (parseFees_unmentioned fc fees0 hfe f hno)

/-- C6 witness: the invariants at the concrete C9 input text. -/
theorem c6_decode_result_invariant_witness :
    (∀ e ∈ (⟨[("A".toList, "Alice".toList)], [("Apple".toList, 4)],
        [(keyTax, 0), (keyDelivery, 0), (keyTip, 0)],
        [("Apple".toList, ["A".toList, "A".toList])]⟩ : ParsedData).item_shares,
      ∀ a ∈ e.2, a ∈ dkeys ([("A".toList, "Alice".toList)] : List (Str × Str))) ∧
    (∀ e ∈ (⟨[("A".toList, "Alice".toList)], [("Apple".toList, 4)],
        [(keyTax, 0), (keyDelivery, 0), (keyTip, 0)],
        [("Apple".toList, ["A".toList, "A".toList])]⟩ : ParsedData).item_shares,
      e.1 ∈ dkeys ([("Apple".toList, (4:ℚ))] : List (Str × ℚ))) ∧
    (∀ e ∈ (⟨[("A".toList, "Alice".toList)], [("Apple".toList, 4)],
        [(keyTax, 0), (keyDelivery, 0), (keyTip, 0)],
        [("Apple".toList, ["A".toList, "A".toList])]⟩ : ParsedData).item_shares,
      e.2 ≠ []) ∧
    (∀ k, k ∈ dkeys (⟨[("A".toList, "Alice".toList)], [("Apple".toList, 4)],
        [(keyTax, 0), (keyDelivery, 0), (keyTip, 0)],
        [("Apple".toList, ["A".toList, "A".toList])]⟩ : ParsedData).fees ↔
      k ∈ canonicalFees) ∧
    (∀ f ∈ canonicalFees, ∃ v, dget? (⟨[("A".toList, "Alice".toList)],
        [("Apple".toList, 4)], [(keyTax, 0), (keyDelivery, 0), (keyTip, 0)],
        [("Apple".toList, ["A".toList, "A".toList])]⟩ : ParsedData).fees f = some v) ∧
    (∀ fc, extractSec c9text hdrF hdrS = some fc →
      ∀ f ∈ canonicalFees, (∀ line ∈ linesOf fc, feeLineNames line f = false) →
        dget? (⟨[("A".toList, "Alice".toList)], [("Apple".toList, 4)],
          [(keyTax, 0), (keyDelivery, 0), (keyTip, 0)],
          [("Apple".toList, ["A".toList, "A".toList])]⟩ : ParsedData).fees f = some 0) :=
  c6_decode_result_invariant c9text
    ⟨[("A".toList, "Alice".toList)], [("Apple".toList, 4)],
      [(keyTax, 0), (keyDelivery, 0), (keyTip, 0)],
      [("Apple".toList, ["A".toList, "A".toList])]⟩ (by decide)

example : pyFloat? "11.98".toList = some (1198 / 100 : ℚ) := by decide
example : pyFloat? "-3.5e1".toList = some (-35 : ℚ) := by decide
example : printDec (1198 / 100 : ℚ) = "11.98".toList := by decide
example : printDec (5 : ℚ) = "5.0".toList := by decide
example : format2 (1 / 5 : ℚ) = "0.20".toList := by decide
example : format2 (-(2345 / 1000) : ℚ) = "-2.34".toList := by decide

/-! ### String lemmas for the round-trip analysis -/

theorem isPrefixOf_eq {l₁ l₂ : Str} : l₁.isPrefixOf l₂ = true ↔ l₁ <+: l₂ :=
  List.isPrefixOf_iff_prefix

theorem rev_pref {l₁ l₂ : Str} : l₁.reverse <+: l₂.reverse ↔ l₁ <:+ l₂ :=
  List.reverse_prefix

theorem pref_of_pref_le {l₁ l₂ l₃ : Str} (h₁ : l₁ <+: l₃) (h₂ : l₂ <+: l₃)
    (h : l₁.length ≤ l₂.length) : l₁ <+: l₂ :=
  List.prefix_of_prefix_length_le h₁ h₂ h

theorem pref_append (l₁ l₂ : Str) : l₁ <+: l₁ ++ l₂ :=
  List.prefix_append l₁ l₂

theorem pref_nil {l : Str} : l <+: [] ↔ l = [] :=
  List.prefix_nil

theorem suff_nil {l : Str} : l <:+ [] ↔ l = [] :=
  List.suffix_nil

theorem pref_eq_of_length {l₁ l₂ : Str} (h : l₁ <+: l₂)
    (hl : l₁.length = l₂.length) : l₁ = l₂ :=
  List.IsPrefix.eq_of_length h hl

theorem cons_pref_cons {a b : Char} {l₁ l₂ : Str} :
    a :: l₁ <+: b :: l₂ ↔ a = b ∧ l₁ <+: l₂ :=
  List.cons_prefix_cons

theorem pref_isInf {l₁ l₂ : Str} (h : l₁ <+: l₂) : l₁ <:+: l₂ := h.isInfix

theorem suff_isInf {l₁ l₂ : Str} (h : l₁ <:+ l₂) : l₁ <:+: l₂ := h.isInfix

theorem inf_mem {p s : Str} (h : p <:+: s) {c : Char} (hc : c ∈ p) : c ∈ s :=
  h.sublist.subset hc

theorem inf_cons_of {p l : Str} (a : Char) (h : p <:+: l) : p <:+: a :: l := by
  rcases h with ⟨s, t, rfl⟩
  exact ⟨a :: s, t, rfl⟩

theorem inf_cons_iff {l₁ : Str} {a : Char} {l₂ : Str} :
    l₁ <:+: a :: l₂ ↔ l₁ <+: a :: l₂ ∨ l₁ <:+: l₂ := by
  constructor
  · rintro ⟨s, t, hst⟩
    cases s with
    | nil =>
      simp only [List.nil_append] at hst
      exact Or.inl ⟨t, hst⟩
    | cons c s' =>
      simp only [List.cons_append] at hst
      injection hst with h1 h2
      exact Or.inr ⟨s', t, h2⟩
  · rintro (⟨t, ht⟩ | ⟨s, t, hst⟩)
    · exact ⟨[], t, by simpa using ht⟩
    · exact ⟨a :: s, t, by rw [← hst]; rfl⟩

theorem pref_mem {X : Str} (c : Char) {Y H : Str} (h : H <+: X ++ c :: Y) :
    H <+: X ∨ c ∈ H := by
  by_cases hl : H.length ≤ X.length
  · exact Or.inl (pref_of_pref_le h (pref_append X (c :: Y)) hl)
  · right
    have hX : X <+: H := pref_of_pref_le (pref_append X (c :: Y)) h (le_of_not_le hl)
    rcases hX with ⟨u, hu⟩
    rcases h with ⟨t, ht⟩
    have hu' : u ≠ [] := by
      intro h0
      rw [h0, List.append_nil] at hu
      rw [hu] at hl
      exact hl le_rfl
    rw [← hu, List.append_assoc] at ht
    have hcan := List.append_cancel_left ht
    cases u with
    | nil => exact absurd rfl hu'
    | cons d u' =>
      simp only [List.cons_append] at hcan
      injection hcan with h1 h2
      rw [← hu, h1]
      simp

theorem pref_concat {X : Str} {c : Char} {H : Str} (h : H <+: X ++ [c]) :
    H <+: X ∨ H = X ++ [c] := by
  by_cases hl : H.length ≤ X.length
  · exact Or.inl (pref_of_pref_le h (pref_append X [c]) hl)
  · right
    apply pref_eq_of_length h
    have h1 : H.length ≤ X.length + 1 := by simpa using h.length_le
    have h2 : X.length < H.length := lt_of_not_le hl
    simp
    omega

theorem pref_nl_reduce {B x y : Str} (hB : '\n' ∉ B) (h : B <+: x ++ '\n' :: y) :
    B <+: x := by
  induction x generalizing B with
  | nil =>
    cases B with
    | nil => exact ⟨[], rfl⟩
    | cons c B' =>
      simp only [List.nil_append] at h
      rcases cons_pref_cons.mp h with ⟨rfl, -⟩
      exact absurd (List.mem_cons_self _ _) hB
  | cons d x' ih =>
    cases B with
    | nil => exact ⟨d :: x', rfl⟩
    | cons c B' =>
      rw [List.cons_append] at h
      rcases cons_pref_cons.mp h with ⟨rfl, h'⟩
      have hB' : '\n' ∉ B' := fun hm => hB (List.mem_cons_of_mem _ hm)
      exact cons_pref_cons.mpr ⟨rfl, ih hB' h'⟩

theorem nl_append_eq {A m t s : Str} (hA : '\n' ∉ A) (hm : '\n' ∉ m)
    (h : A ++ '\n' :: t = m ++ '\n' :: s) : A = m := by
  induction A generalizing m with
  | nil =>
    cases m with
    | nil => rfl
    | cons d m' =>
      simp only [List.nil_append, List.cons_append] at h
      injection h with h1 h2
      rw [← h1] at hm
      exact absurd (List.mem_cons_self _ _) hm
  | cons a A' ih =>
    cases m with
    | nil =>
      simp only [List.cons_append, List.nil_append] at h
      injection h with h1 h2
      rw [h1] at hA
      exact absurd (List.mem_cons_self _ _) hA
    | cons d m' =>
      simp only [List.cons_append] at h
      injection h with h1 h2
      have hA' : '\n' ∉ A' := fun hx => hA (List.mem_cons_of_mem _ hx)
      have hm' : '\n' ∉ m' := fun hx => hm (List.mem_cons_of_mem _ hx)
      rw [h1, ih hA' hm' h2]

theorem inf_append_mem {p : Str} (X : Str) (c : Char) (Y : Str)
    (h : p <:+: X ++ c :: Y) : p <:+: X ∨ p <:+: Y ∨ c ∈ p := by
  induction X generalizing p with
  | nil =>
    simp only [List.nil_append] at h
    rcases inf_cons_iff.mp h with hp | hi
    · cases p with
      | nil => exact Or.inl ⟨[], [], rfl⟩
      | cons d p' =>
        rcases cons_pref_cons.mp hp with ⟨rfl, -⟩
        exact Or.inr (Or.inr (List.mem_cons_self _ _))
    · exact Or.inr (Or.inl hi)
  | cons x X' ih =>
    rw [List.cons_append] at h
    rcases inf_cons_iff.mp h with hp | hi
    · cases p with
      | nil => exact Or.inl ⟨[], x :: X', by simp⟩
      | cons d p' =>
        rcases cons_pref_cons.mp hp with ⟨rfl, hp'⟩
        rcases pref_mem c hp' with h1 | h2
        · exact Or.inl (pref_isInf (cons_pref_cons.mpr ⟨rfl, h1⟩))
        · exact Or.inr (Or.inr (List.mem_cons_of_mem _ h2))
    · rcases ih hi with h1 | h2
      · exact Or.inl (inf_cons_of x h1)
      · exact Or.inr h2

theorem joinNL_nil : joinNL [] = [] := rfl

theorem joinNL_single (l : Str) : joinNL [l] = l := rfl

theorem joinNL_cons_ne (l : Str) (rest : List Str) (h : rest ≠ []) :
    joinNL (l :: rest) = l ++ '\n' :: joinNL rest := by
  cases rest with
  | nil => exact absurd rfl h
  | cons a t => rfl

theorem joinNL_append (xs ys : List Str) (hx : xs ≠ []) (hy : ys ≠ []) :
    joinNL (xs ++ ys) = joinNL xs ++ '\n' :: joinNL ys := by
  induction xs with
  | nil => exact absurd rfl hx
  | cons x xs ih =>
    cases xs with
    | nil => simpa using joinNL_cons_ne x ys hy
    | cons x' xs' =>
      rw [show (x :: x' :: xs') ++ ys = x :: (x' :: xs' ++ ys) from rfl,
          joinNL_cons_ne _ _ (by simp), ih (by simp),
          joinNL_cons_ne x (x' :: xs') (by simp)]
      simp [List.append_assoc]

theorem bodyLines_ne_nil (ls : List Str) : bodyLines ls ≠ [] := by
  unfold bodyLines
  split
  · simp
  · next h => exact h

theorem joinNL_bodyLines (ls : List Str) : joinNL (bodyLines ls) = joinNL ls := by
  unfold bodyLines
  split
  · next h => rw [h]; rfl
  · rfl

theorem joinNL_body_pad (ls : List Str) :
    joinNL (bodyLines ls ++ [[]]) = joinNL ls ++ ['\n'] := by
  rw [joinNL_append _ _ (bodyLines_ne_nil ls) (by simp), joinNL_bodyLines]
  rfl

theorem mem_bodyLines {l : Str} {ls : List Str} (h : l ∈ bodyLines ls) :
    l = [] ∨ l ∈ ls := by
  unfold bodyLines at h
  split at h
  · simp at h
    exact Or.inl h
  · exact Or.inr h

theorem joinNL_ne_nil (ls : List Str) (h0 : ls ≠ []) (h1 : ∀ l ∈ ls, l ≠ []) :
    joinNL ls ≠ [] := by
  cases ls with
  | nil => exact absurd rfl h0
  | cons l rest =>
    cases rest with
    | nil => exact h1 l (by simp)
    | cons a t =>
      rw [joinNL_cons_ne _ _ (by simp)]
      simp

theorem joinNL_head? (l : Str) (rest : List Str) (hl : l ≠ []) :
    (joinNL (l :: rest)).head? = l.head? := by
  cases rest with
  | nil => rfl
  | cons a t =>
    rw [joinNL_cons_ne _ _ (by simp)]
    exact List.head?_append_of_ne_nil _ hl

theorem joinNL_getLast? (ls : List Str) (L : Str) (hL : ls.getLast? = some L)
    (hne : ∀ l ∈ ls, l ≠ []) : (joinNL ls).getLast? = L.getLast? := by
  induction ls with
  | nil => simp at hL
  | cons l rest ih =>
    cases rest with
    | nil =>
      simp at hL
      rw [hL]
      rfl
    | cons a t =>
      have hst : (a :: t).getLast? = some L := by
        rw [← List.getLast?_cons_cons (a := l)]
        exact hL
      have hX : joinNL (a :: t) ≠ [] :=
        joinNL_ne_nil _ (by simp) (fun x hx => hne x (List.mem_cons_of_mem _ hx))
      rw [joinNL_cons_ne _ _ (by simp),
          List.getLast?_append_of_ne_nil _ (by simp),
          show ('\n' :: joinNL (a :: t) : Str) = ['\n'] ++ joinNL (a :: t) from rfl,
          List.getLast?_append_of_ne_nil _ hX]
      exact ih hst (fun x hx => hne x (List.mem_cons_of_mem _ hx))

theorem findSub_at_zero (pat s : Str) (h : pat <+: s) : findSub pat s = some 0 := by
  cases s with
  | nil =>
    rw [pref_nil.mp h]
    rfl
  | cons c t =>
    unfold findSub
    rw [if_pos (isPrefixOf_eq.mpr h)]

theorem findSub_shift_one (pat : Str) (c : Char) (t : Str) (h : ¬ pat <+: (c :: t)) :
    findSub pat (c :: t) = (findSub pat t).map (· + 1) := by
  rw [show findSub pat (c :: t)
        = if pat.isPrefixOf (c :: t) then some 0 else (findSub pat t).map (· + 1)
      from rfl,
    if_neg (fun hb => h (isPrefixOf_eq.mp hb))]

theorem hasSub_of_inf (pat s : Str) (h : pat <:+: s) : hasSub pat s = true := by
  induction s with
  | nil =>
    rcases h with ⟨u, v, huv⟩
    have hp : pat = [] := by
      rcases List.append_eq_nil.mp huv with ⟨h1, -⟩
      rcases List.append_eq_nil.mp h1 with ⟨-, h2⟩
      exact h2
    rw [hp]
    rfl
  | cons c t ih =>
    unfold hasSub
    rcases inf_cons_iff.mp h with hp | hi
    · rw [findSub_at_zero _ _ hp]
      rfl
    · by_cases hb : pat <+: (c :: t)
      · rw [findSub_at_zero _ _ hb]
        rfl
      · rw [findSub_shift_one _ _ _ hb]
        have h2 := ih hi
        unfold hasSub at h2
        cases hf : findSub pat t with
        | none =>
          rw [hf] at h2
          simp at h2
        | some x => rfl

theorem not_inf_of_hasSub (pat s : Str) (h : hasSub pat s = false) :
    ¬ pat <:+: s := fun hin => by
  rw [hasSub_of_inf pat s hin] at h
  exact Bool.true_eq_false.mp h

theorem dropWhile_self_head (p : Char → Bool) (a : Char) (t : Str)
    (h : (a :: t : Str).dropWhile p = a :: t) : p a = false := by
  by_contra hp
  simp only [Bool.not_eq_false] at hp
  rw [List.dropWhile_cons, if_pos hp] at h
  have h1 := congrArg List.length h
  have h2 := (List.dropWhile_suffix (l := t) p).length_le
  simp at h1
  omega

theorem stripped_dropWhile_eq (s : Str) (h : pyStrip s = s) :
    s.dropWhile pyIsSpace = s := by
  have h1 := (List.dropWhile_suffix (l := s) pyIsSpace).length_le
  have h2 : s.length ≤ (s.dropWhile pyIsSpace).length := by
    conv_lhs => rw [← h]
    unfold pyStrip
    rw [List.length_reverse]
    calc ((s.dropWhile pyIsSpace).reverse.dropWhile pyIsSpace).length
        ≤ (s.dropWhile pyIsSpace).reverse.length :=
          (List.dropWhile_suffix pyIsSpace).length_le
      _ = (s.dropWhile pyIsSpace).length := List.length_reverse _
  exact (List.dropWhile_suffix pyIsSpace).eq_of_length (le_antisymm h1 h2)

theorem stripped_rev_dropWhile_eq (s : Str) (h : pyStrip s = s) :
    s.reverse.dropWhile pyIsSpace = s.reverse := by
  have h0 := stripped_dropWhile_eq s h
  have h1 : pyStrip s = (s.reverse.dropWhile pyIsSpace).reverse := by
    unfold pyStrip
    rw [h0]
  rw [h] at h1
  calc s.reverse.dropWhile pyIsSpace
      = (s.reverse.dropWhile pyIsSpace).reverse.reverse := by rw [List.reverse_reverse]
    _ = s.reverse := by rw [← h1]

theorem stripped_head_not_ws (s : Str) (h : pyStrip s = s) (c : Char)
    (hc : s.head? = some c) : pyIsSpace c = false := by
  have h0 := stripped_dropWhile_eq s h
  cases s with
  | nil => simp at hc
  | cons a t =>
    rw [List.head?_cons] at hc
    have ha : a = c := Option.some.inj hc
    rw [← ha]
    exact dropWhile_self_head pyIsSpace a t h0

theorem stripped_last_not_ws (s : Str) (h : pyStrip s = s) (c : Char)
    (hc : s.getLast? = some c) : pyIsSpace c = false := by
  have h0 := stripped_rev_dropWhile_eq s h
  have hc' : s.reverse.head? = some c := by
    rw [List.head?_reverse]
    exact hc
  cases hs : s.reverse with
  | nil =>
    rw [hs] at hc'
    simp at hc'
  | cons a t =>
    rw [hs] at hc' h0
    rw [List.head?_cons] at hc'
    have ha : a = c := Option.some.inj hc'
    rw [← ha]
    exact dropWhile_self_head pyIsSpace a t h0

theorem pyStrip_self (s : Str)
    (hh : ∀ c, s.head? = some c → pyIsSpace c = false)
    (hl : ∀ c, s.getLast? = some c → pyIsSpace c = false) : pyStrip s = s := by
  cases s with
  | nil => rfl
  | cons a t =>
    have ha : pyIsSpace a = false := hh a rfl
    unfold pyStrip
    rw [List.dropWhile_cons, if_neg (by simp [ha])]
    cases hr : (a :: t : Str).reverse with
    | nil => simp at hr
    | cons b u =>
      have hb : (a :: t : Str).getLast? = some b := by
        rw [← List.head?_reverse, hr]
        rfl
      have hbws := hl b hb
      rw [List.dropWhile_cons, if_neg (by simp [hbws]), ← hr, List.reverse_reverse]

theorem pyStrip_sandwich (x : Str) (hx : x ≠ [])
    (hh : ∀ c, x.head? = some c → pyIsSpace c = false)
    (hl : ∀ c, x.getLast? = some c → pyIsSpace c = false) :
    pyStrip (x ++ ['\n']) = x := by
  cases x with
  | nil => exact absurd rfl hx
  | cons a t =>
    have ha : pyIsSpace a = false := hh a rfl
    unfold pyStrip
    rw [List.cons_append, List.dropWhile_cons, if_neg (by simp [ha])]
    have hrev : (a :: (t ++ ['\n']) : Str).reverse = '\n' :: (a :: t : Str).reverse := by
      simp
    rw [hrev, List.dropWhile_cons, if_pos (by decide)]
    cases hr : (a :: t : Str).reverse with
    | nil => simp at hr
    | cons b u =>
      have hb : (a :: t : Str).getLast? = some b := by
        rw [← List.head?_reverse, hr]
        rfl
      have hbws := hl b hb
      rw [List.dropWhile_cons, if_neg (by simp [hbws]), ← hr, List.reverse_reverse]

theorem pyStrip_cons_ws (c : Char) (hc : pyIsSpace c = true) (s : Str) :
    pyStrip (c :: s) = pyStrip s := by
  unfold pyStrip
  rw [List.dropWhile_cons, if_pos hc]

theorem pyStrip_no_ws (s : Str) (h : ∀ c ∈ s, pyIsSpace c = false) : pyStrip s = s := by
  apply pyStrip_self
  · intro c hc
    exact h c (List.mem_of_mem_head? (by simp [hc]))
  · intro c hc
    rcases List.getLast?_eq_some_iff.mp hc with ⟨ys, hys⟩
    exact h c (by rw [hys]; simp)

/-! ### Locating the section headers inside an encoded text -/

theorem findSub_nl_shift (B m S : Str) (hm : '\n' ∉ m) :
    findSub ('\n' :: B) (m ++ '\n' :: S)
      = (findSub ('\n' :: B) ('\n' :: S)).map (· + m.length) := by
  induction m with
  | nil =>
    simp only [List.nil_append, List.length_nil]
    cases findSub ('\n' :: B) ('\n' :: S) <;> simp
  | cons c m' ih =>
    have hc : c ≠ '\n' := by
      intro h
      apply hm
      rw [h]
      exact List.mem_cons_self _ _
    have hnp : ¬ ('\n' :: B) <+: (c :: (m' ++ '\n' :: S)) := by
      intro hp
      rcases cons_pref_cons.mp hp with ⟨he, -⟩
      exact hc he.symm
    rw [List.cons_append, findSub_shift_one _ _ _ hnp,
        ih (fun hx => hm (List.mem_cons_of_mem _ hx))]
    cases findSub ('\n' :: B) ('\n' :: S) with
    | none => simp
    | some x =>
      simp
      omega

theorem findSub_nl_hit (B S : Str) :
    findSub ('\n' :: B) ('\n' :: S)
      = if B <+: S then some 0 else (findSub ('\n' :: B) S).map (· + 1) := by
  by_cases h : B <+: S
  · rw [if_pos h]
    exact findSub_at_zero _ _ (cons_pref_cons.mpr ⟨rfl, h⟩)
  · rw [if_neg h]
    apply findSub_shift_one
    intro hp
    exact h (cons_pref_cons.mp hp).2

theorem not_pref_joinNL (B : Str) (M : List Str) (hB : '\n' ∉ B) (hM : M ≠ [])
    (h : ∀ l ∈ M, ¬ B <+: l) : ¬ B <+: joinNL M := by
  cases M with
  | nil => exact absurd rfl hM
  | cons m rest =>
    cases rest with
    | nil => exact h m (by simp)
    | cons a t =>
      rw [joinNL_cons_ne _ _ (by simp)]
      intro hp
      exact h m (by simp) (pref_nl_reduce hB hp)

theorem findSub_nl_lines (B : Str) (M : List Str) (S : Str) (hB : '\n' ∉ B)
    (hM : M ≠ []) (hMnl : ∀ l ∈ M, '\n' ∉ l) (hMB : ∀ l ∈ M, ¬ B <+: l)
    (hBS : B <+: S) :
    findSub ('\n' :: B) (joinNL M ++ '\n' :: S) = some (joinNL M).length := by
  induction M with
  | nil => exact absurd rfl hM
  | cons m rest ih =>
    cases rest with
    | nil =>
      rw [joinNL_single, findSub_nl_shift _ _ _ (hMnl m (by simp)),
          findSub_nl_hit, if_pos hBS]
      simp
    | cons a t =>
      have hrest : (a :: t : List Str) ≠ [] := by simp
      have hnp : ¬ B <+: (joinNL (a :: t) ++ '\n' :: S) := fun hp =>
        not_pref_joinNL B (a :: t) hB hrest
          (fun l hl => hMB l (List.mem_cons_of_mem _ hl)) (pref_nl_reduce hB hp)
      rw [joinNL_cons_ne _ _ hrest, List.append_assoc, List.cons_append,
          findSub_nl_shift _ _ _ (hMnl m (by simp)), findSub_nl_hit, if_neg hnp,
          ih hrest (fun l hl => hMnl l (List.mem_cons_of_mem _ hl))
            (fun l hl => hMB l (List.mem_cons_of_mem _ hl))]
      simp
      omega

theorem findSub_hdr_shift (A : Str) (hA : A ≠ []) (hAnl : '\n' ∉ A) :
    ∀ (m : Str), '\n' ∉ m → ¬ A <:+ m → ∀ (S : Str),
      findSub (A ++ ['\n']) (m ++ '\n' :: S)
        = (findSub (A ++ ['\n']) S).map (· + (m.length + 1)) := by
  intro m
  induction m with
  | nil =>
    intro hmnl hms S
    have hnp : ¬ (A ++ ['\n']) <+: ('\n' :: S) := by
      cases A with
      | nil => exact absurd rfl hA
      | cons a A' =>
        rw [List.cons_append]
        intro hp
        rcases cons_pref_cons.mp hp with ⟨he, -⟩
        apply hAnl
        rw [← he]
        exact List.mem_cons_self _ _
    rw [List.nil_append, findSub_shift_one _ _ _ hnp]
    cases findSub (A ++ ['\n']) S <;> simp
  | cons c m' ih =>
    intro hmnl hms S
    have hnp : ¬ (A ++ ['\n']) <+: (c :: (m' ++ '\n' :: S)) := by
      rintro ⟨t, ht⟩
      rw [List.append_assoc] at ht
      have ht' : A ++ '\n' :: t = (c :: m') ++ '\n' :: S := by simpa using ht
      have heq := nl_append_eq hAnl hmnl ht'
      apply hms
      rw [heq]
    have hms' : ¬ A <:+ m' := by
      intro hs
      apply hms
      rcases hs with ⟨u, hu⟩
      exact ⟨c :: u, by rw [← hu]; rfl⟩
    rw [List.cons_append, findSub_shift_one _ _ _ hnp,
        ih (fun hx => hmnl (List.mem_cons_of_mem _ hx)) hms' S]
    cases findSub (A ++ ['\n']) S with
    | none => simp
    | some x =>
      simp
      omega

theorem findSub_hdr_lines (A : Str) (hA : A ≠ []) (hAnl : '\n' ∉ A) :
    ∀ (M : List Str) (S : Str), M ≠ [] → (∀ l ∈ M, '\n' ∉ l) →
      (∀ l ∈ M, ¬ A <:+ l) →
      findSub (A ++ ['\n']) (joinNL M ++ '\n' :: S)
        = (findSub (A ++ ['\n']) S).map (· + ((joinNL M).length + 1)) := by
  intro M
  induction M with
  | nil =>
    intro S h
    exact absurd rfl h
  | cons m rest ih =>
    intro S hM hMnl hMs
    cases rest with
    | nil =>
      rw [joinNL_single]
      exact findSub_hdr_shift A hA hAnl m (hMnl m (by simp)) (hMs m (by simp)) S
    | cons a t =>
      rw [joinNL_cons_ne _ _ (by simp), List.append_assoc, List.cons_append,
          findSub_hdr_shift A hA hAnl m (hMnl m (by simp)) (hMs m (by simp)) _,
          ih _ (by simp) (fun l hl => hMnl l (List.mem_cons_of_mem _ hl))
            (fun l hl => hMs l (List.mem_cons_of_mem _ hl))]
      cases findSub (A ++ ['\n']) S with
      | none => simp
      | some x =>
        simp
        omega

theorem extractSec_eq_of (text A B : Str) (i j : ℕ)
    (h1 : findSub (A ++ ['\n']) text = some i)
    (h2 : findSub ('\n' :: B) (text.drop (i + A.length + 1)) = some j) :
    extractSec text A B = some ((text.drop (i + A.length + 1)).take j) := by
  simp only [extractSec, h1, h2]

theorem extractTail_eq_of (text A : Str) (i : ℕ)
    (h1 : findSub (A ++ ['\n']) text = some i) :
    extractTail text A = some (text.drop (i + A.length + 1)) := by
  simp only [extractTail, h1]

theorem extractSec_at (A B : Str) (M₁ : List Str) (S : Str) (hBnl : '\n' ∉ B)
    (hM₁ : M₁ ≠ []) (hM₁nl : ∀ l ∈ M₁, '\n' ∉ l) (hM₁B : ∀ l ∈ M₁, ¬ B <+: l)
    (hBS : B <+: S) :
    extractSec (A ++ '\n' :: (joinNL M₁ ++ '\n' :: S)) A B = some (joinNL M₁) := by
  have h0 : findSub (A ++ ['\n']) (A ++ '\n' :: (joinNL M₁ ++ '\n' :: S)) = some 0 :=
    findSub_at_zero _ _ ⟨joinNL M₁ ++ '\n' :: S, by simp⟩
  have hdrop : (A ++ '\n' :: (joinNL M₁ ++ '\n' :: S)).drop (0 + A.length + 1)
      = joinNL M₁ ++ '\n' :: S := by
    rw [show A ++ '\n' :: (joinNL M₁ ++ '\n' :: S)
          = (A ++ ['\n']) ++ (joinNL M₁ ++ '\n' :: S) by simp]
    apply List.drop_left'
    simp only [List.length_append, List.length_cons, List.length_nil]
    omega
  have h2 := findSub_nl_lines B M₁ S hBnl hM₁ hM₁nl hM₁B hBS
  rw [extractSec_eq_of _ _ _ 0 _ h0 (by rw [hdrop]; exact h2), hdrop]
  exact congrArg some (List.take_left' rfl)

theorem extractSec_skip (A B : Str) (M₀ M₁ : List Str) (S : Str)
    (hA : A ≠ []) (hAnl : '\n' ∉ A) (hBnl : '\n' ∉ B)
    (hM₀ : M₀ ≠ []) (hM₀nl : ∀ l ∈ M₀, '\n' ∉ l) (hM₀s : ∀ l ∈ M₀, ¬ A <:+ l)
    (hM₁ : M₁ ≠ []) (hM₁nl : ∀ l ∈ M₁, '\n' ∉ l) (hM₁B : ∀ l ∈ M₁, ¬ B <+: l)
    (hBS : B <+: S) :
    extractSec (joinNL M₀ ++ '\n' :: (A ++ '\n' :: (joinNL M₁ ++ '\n' :: S))) A B
      = some (joinNL M₁) := by
  have h0 : findSub (A ++ ['\n'])
      (joinNL M₀ ++ '\n' :: (A ++ '\n' :: (joinNL M₁ ++ '\n' :: S)))
      = some ((joinNL M₀).length + 1) := by
    rw [findSub_hdr_lines A hA hAnl M₀ _ hM₀ hM₀nl hM₀s,
        findSub_at_zero _ _ ⟨joinNL M₁ ++ '\n' :: S, by simp⟩]
    simp
  have hdrop : (joinNL M₀ ++ '\n' :: (A ++ '\n' :: (joinNL M₁ ++ '\n' :: S))).drop
      ((joinNL M₀).length + 1 + A.length + 1) = joinNL M₁ ++ '\n' :: S := by
    rw [show joinNL M₀ ++ '\n' :: (A ++ '\n' :: (joinNL M₁ ++ '\n' :: S))
          = (joinNL M₀ ++ '\n' :: A ++ ['\n']) ++ (joinNL M₁ ++ '\n' :: S) by simp]
    apply List.drop_left'
    simp only [List.length_append, List.length_cons, List.length_nil]
    omega
  have h2 := findSub_nl_lines B M₁ S hBnl hM₁ hM₁nl hM₁B hBS
  rw [extractSec_eq_of _ _ _ _ _ h0 (by rw [hdrop]; exact h2), hdrop]
  exact congrArg some (List.take_left' rfl)

theorem extractTail_skip (A : Str) (M₀ : List Str) (R : Str)
    (hA : A ≠ []) (hAnl : '\n' ∉ A)
    (hM₀ : M₀ ≠ []) (hM₀nl : ∀ l ∈ M₀, '\n' ∉ l) (hM₀s : ∀ l ∈ M₀, ¬ A <:+ l) :
    extractTail (joinNL M₀ ++ '\n' :: (A ++ '\n' :: R)) A = some R := by
  have h0 : findSub (A ++ ['\n']) (joinNL M₀ ++ '\n' :: (A ++ '\n' :: R))
      = some ((joinNL M₀).length + 1) := by
    rw [findSub_hdr_lines A hA hAnl M₀ _ hM₀ hM₀nl hM₀s,
        findSub_at_zero _ _ ⟨R, by simp⟩]
    simp
  rw [extractTail_eq_of _ _ _ h0]
  congr 1
  rw [show joinNL M₀ ++ '\n' :: (A ++ '\n' :: R)
        = (joinNL M₀ ++ '\n' :: A ++ ['\n']) ++ R by simp]
  apply List.drop_left'
  simp only [List.length_append, List.length_cons, List.length_nil]
  omega

/-! ### Encoded lines never collide with section headers -/

theorem inf_of_findSub (pat s : Str) : ∀ i, findSub pat s = some i → pat <:+: s := by
  induction s with
  | nil =>
    intro i h
    unfold findSub at h
    split at h
    · next hp => exact (isPrefixOf_eq.mp hp).isInfix
    · simp at h
  | cons c t ih =>
    intro i h
    rw [show findSub pat (c :: t)
          = if pat.isPrefixOf (c :: t) then some 0 else (findSub pat t).map (· + 1)
        from rfl] at h
    split at h
    · next hp => exact (isPrefixOf_eq.mp hp).isInfix
    · cases hf : findSub pat t with
      | none =>
        rw [hf] at h
        simp at h
      | some j => exact inf_cons_of c (ih j hf)

theorem hasSub_false_iff (pat s : Str) : hasSub pat s = false ↔ ¬ pat <:+: s := by
  constructor
  · exact not_inf_of_hasSub pat s
  · intro h
    cases hb : hasSub pat s
    · rfl
    · exfalso
      unfold hasSub at hb
      cases hf : findSub pat s with
      | none =>
        rw [hf] at hb
        simp at hb
      | some i => exact h (inf_of_findSub pat s i hf)

theorem hdr_not_pref_line (H a v : Str) (h3 : dash3 <+: H) (hc : ':' ∉ H)
    (hna : hasSub dash3 a = false) : ¬ (H <+: a ++ ':' :: v) := by
  intro h
  rcases pref_mem ':' h with hHa | hcol
  · exact ((hasSub_false_iff _ _).mp hna) (pref_isInf (h3.trans hHa))
  · exact hc hcol

theorem ne_space_cons (H : Str) (hh : H.head? ≠ some ' ') : ∀ t, H ≠ ' ' :: t :=
  fun t ht => hh (by rw [ht]; rfl)

theorem hdr_not_suff_line (H a v : Str) (h3 : dash3 <+: H) (hc : ':' ∉ H)
    (hsp : ∀ t, H ≠ ' ' :: t) (hv : hasSub dash3 v = false) :
    ¬ (H <:+ a ++ ':' :: ' ' :: v) := by
  intro h
  have h' : H.reverse <+: (a ++ ':' :: ' ' :: v).reverse := rev_pref.mpr h
  have hshape : (a ++ ':' :: ' ' :: v).reverse
      = (v.reverse ++ [' ']) ++ ':' :: a.reverse := by
    simp
  rw [hshape] at h'
  rcases pref_mem ':' h' with h1 | h2
  · rcases pref_concat h1 with h1a | h1b
    · have hsv : H <:+ v := rev_pref.mp h1a
      exact ((hasSub_false_iff _ _).mp hv) ((pref_isInf h3).trans (suff_isInf hsv))
    · have hH : H = ' ' :: v := by
        have := congrArg List.reverse h1b
        simpa using this
      exact hsp v hH
  · exact hc (by simpa using h2)

theorem mem_token_line {c : Char} {a v : Str} (h : c ∈ a ++ ':' :: ' ' :: v) :
    c ∈ a ∨ c = ':' ∨ c = ' ' ∨ c ∈ v := by
  rcases List.mem_append.mp h with h1 | h2
  · exact Or.inl h1
  · rcases List.mem_cons.mp h2 with rfl | h3
    · exact Or.inr (Or.inl rfl)
    · rcases List.mem_cons.mp h3 with rfl | h4
      · exact Or.inr (Or.inr (Or.inl rfl))
      · exact Or.inr (Or.inr (Or.inr h4))

theorem token_line_no_nl (a v : Str) (ha : '\n' ∉ a) (hv : '\n' ∉ v) :
    '\n' ∉ a ++ ':' :: ' ' :: v := by
  intro h
  rcases mem_token_line h with h1 | h2 | h3 | h4
  · exact ha h1
  · exact absurd h2 (by decide)
  · exact absurd h3 (by decide)
  · exact hv h4

theorem mem_joinComma {c : Char} : ∀ {l : List Str}, c ∈ joinComma l →
    c = ',' ∨ c = ' ' ∨ ∃ a ∈ l, c ∈ a := by
  intro l
  induction l with
  | nil =>
    intro h
    simp [joinComma] at h
  | cons a rest ih =>
    intro h
    cases rest with
    | nil => exact Or.inr (Or.inr ⟨a, by simp, h⟩)
    | cons b t =>
      have h' : c ∈ a ++ ',' :: ' ' :: joinComma (b :: t) := h
      rcases List.mem_append.mp h' with h1 | h2
      · exact Or.inr (Or.inr ⟨a, by simp, h1⟩)
      · rcases List.mem_cons.mp h2 with rfl | h3
        · exact Or.inl rfl
        · rcases List.mem_cons.mp h3 with rfl | h4
          · exact Or.inr (Or.inl rfl)
          · rcases ih h4 with h5 | h5 | ⟨x, hx, hcx⟩
            · exact Or.inl h5
            · exact Or.inr (Or.inl h5)
            · exact Or.inr (Or.inr ⟨x, List.mem_cons_of_mem _ hx, hcx⟩)

theorem joinComma_ne_nil (l : List Str) (h0 : l ≠ []) (h1 : ∀ a ∈ l, a ≠ []) :
    joinComma l ≠ [] := by
  cases l with
  | nil => exact absurd rfl h0
  | cons a rest =>
    cases rest with
    | nil => exact h1 a (by simp)
    | cons b t =>
      show a ++ ',' :: ' ' :: joinComma (b :: t) ≠ []
      simp

theorem joinComma_getLast? (l : List Str) (L : Str) (hL : l.getLast? = some L)
    (hne : ∀ a ∈ l, a ≠ []) : (joinComma l).getLast? = L.getLast? := by
  induction l with
  | nil => simp at hL
  | cons a rest ih =>
    cases rest with
    | nil =>
      simp at hL
      rw [hL]
      rfl
    | cons b t =>
      have hst : (b :: t).getLast? = some L := by
        rw [← List.getLast?_cons_cons (a := a)]
        exact hL
      have hX : joinComma (b :: t) ≠ [] :=
        joinComma_ne_nil _ (by simp) (fun x hx => hne x (List.mem_cons_of_mem _ hx))
      show (a ++ ',' :: ' ' :: joinComma (b :: t)).getLast? = _
      rw [List.getLast?_append_of_ne_nil _ (by simp),
          show (',' :: ' ' :: joinComma (b :: t) : Str)
            = [',', ' '] ++ joinComma (b :: t) from rfl,
          List.getLast?_append_of_ne_nil _ hX]
      exact ih hst (fun x hx => hne x (List.mem_cons_of_mem _ hx))

theorem inf_joinComma (p : Str) (hpne : p ≠ []) (hp1 : ',' ∉ p) (hp2 : ' ' ∉ p) :
    ∀ (l : List Str), (∀ a ∈ l, ¬ p <:+: a) → ¬ p <:+: joinComma l := by
  intro l
  induction l with
  | nil =>
    intro _ hinf
    have hs := hinf.sublist
    rw [show joinComma [] = ([] : Str) from rfl, List.sublist_nil] at hs
    exact hpne hs
  | cons a rest ih =>
    intro h hinf
    cases rest with
    | nil => exact h a (by simp) hinf
    | cons b t =>
      have hinf' : p <:+: a ++ ',' :: (' ' :: joinComma (b :: t)) := hinf
      rcases inf_append_mem a ',' _ hinf' with h1 | h2 | h3
      · exact h a (by simp) h1
      · rcases inf_cons_iff.mp h2 with hp' | hi
        · cases p with
          | nil => exact hpne rfl
          | cons c p' =>
            rcases cons_pref_cons.mp hp' with ⟨rfl, -⟩
            exact hp2 (List.mem_cons_self _ _)
        · exact ih (fun x hx => h x (List.mem_cons_of_mem _ hx)) hi
      · exact hp1 h3

theorem dash3_not_inf_signed (body : Str) (hb : '-' ∉ body) :
    ¬ dash3 <:+: body ∧ ¬ dash3 <:+: ('-' :: body) := by
  constructor
  · intro h
    exact hb (inf_mem h (by decide))
  · rintro ⟨s, t, hst⟩
    cases s with
    | nil =>
      simp only [List.nil_append] at hst
      rw [show dash3 ++ t = '-' :: '-' :: '-' :: t from rfl] at hst
      injection hst with h1 h2
      rw [← h2] at hb
      exact hb (List.mem_cons_self _ _)
    | cons d s' =>
      simp only [List.cons_append] at hst
      injection hst with h1 h2
      apply hb
      rw [← h2]
      exact List.mem_append.mpr (Or.inl (List.mem_append.mpr (Or.inr (by decide))))

/-! ### Decimal rendering and parsing round-trip -/

theorem natDigitsRev_lt (fuel : ℕ) : ∀ n, ∀ d ∈ natDigitsRev fuel n, d < 10 := by
  induction fuel with
  | zero =>
    intro n d hd
    simp [natDigitsRev] at hd
  | succ f ih =>
    intro n d hd
    unfold natDigitsRev at hd
    split at hd
    · simp at hd
    · rcases List.mem_cons.mp hd with rfl | h
      · exact Nat.mod_lt _ (by omega)
      · exact ih _ d h

theorem digitCh_digit (d : ℕ) (h : d < 10) : isDigitCh (digitCh d) = true := by
  interval_cases d <;> decide

theorem digitCh_toNat (d : ℕ) (h : d < 10) : (digitCh d).toNat - 48 = d := by
  interval_cases d <;> decide

theorem natStr_digits (n : ℕ) : ∀ c ∈ natStr n, isDigitCh c = true := by
  intro c hc
  unfold natStr at hc
  split at hc
  · simp at hc
    rw [hc]
    decide
  · simp at hc
    rcases hc with ⟨d, hd, rfl⟩
    exact digitCh_digit d (natDigitsRev_lt _ _ d hd)

theorem padZeros_digits (k : ℕ) (s : Str) (h : ∀ c ∈ s, isDigitCh c = true) :
    ∀ c ∈ padZeros k s, isDigitCh c = true := by
  intro c hc
  unfold padZeros at hc
  rcases List.mem_append.mp hc with h1 | h2
  · rw [List.eq_of_mem_replicate h1]
    decide
  · exact h c h2

theorem digitsVal_go : ∀ (t : Str) (a : ℕ),
    t.foldl (fun a c => 10 * a + (c.toNat - 48)) a
      = a * 10 ^ t.length + digitsVal t := by
  intro t
  induction t with
  | nil =>
    intro a
    simp [digitsVal]
  | cons c t ih =>
    intro a
    rw [show (c :: t).foldl (fun a c => 10 * a + (c.toNat - 48)) a
          = t.foldl (fun a c => 10 * a + (c.toNat - 48)) (10 * a + (c.toNat - 48))
        from rfl, ih,
        show digitsVal (c :: t)
          = t.foldl (fun a c => 10 * a + (c.toNat - 48)) (10 * 0 + (c.toNat - 48))
        from rfl, ih]
    simp [List.length_cons]
    ring

theorem digitsVal_append (s t : Str) :
    digitsVal (s ++ t) = digitsVal s * 10 ^ t.length + digitsVal t := by
  rw [show digitsVal (s ++ t)
        = (s ++ t).foldl (fun a c => 10 * a + (c.toNat - 48)) 0 from rfl,
      List.foldl_append, digitsVal_go]
  rfl

theorem digitsVal_zeros (j : ℕ) : digitsVal (List.replicate j '0') = 0 := by
  induction j with
  | zero => rfl
  | succ j ih =>
    rw [List.replicate_succ,
        show digitsVal ('0' :: List.replicate j '0')
          = digitsVal (List.replicate j '0') from rfl, ih]

theorem digitsVal_padZeros (k : ℕ) (s : Str) :
    digitsVal (padZeros k s) = digitsVal s := by
  unfold padZeros
  rw [digitsVal_append, digitsVal_zeros]
  ring

theorem natDigitsRev_val (fuel : ℕ) : ∀ n, n ≤ fuel →
    ofDigitsRev (natDigitsRev fuel n) = n := by
  induction fuel with
  | zero =>
    intro n h
    have h0 : n = 0 := Nat.le_zero.mp h
    rw [h0]
    rfl
  | succ f ih =>
    intro n h
    unfold natDigitsRev
    split
    · next h0 => rw [h0]; rfl
    · next h0 =>
      show n % 10 + 10 * ofDigitsRev (natDigitsRev f (n / 10)) = n
      have hlt := Nat.div_lt_self (Nat.pos_of_ne_zero h0) (by omega : 1 < 10)
      rw [ih (n / 10) (by omega)]
      exact Nat.mod_add_div n 10

theorem digitsVal_map_digitCh : ∀ (D : List ℕ), (∀ d ∈ D, d < 10) →
    digitsVal (D.reverse.map digitCh) = ofDigitsRev D := by
  intro D
  induction D with
  | nil =>
    intro _
    rfl
  | cons d D ih =>
    intro hD
    rw [List.reverse_cons, List.map_append, digitsVal_append,
        ih (fun x hx => hD x (List.mem_cons_of_mem _ hx))]
    simp only [List.map_cons, List.map_nil, List.length_cons, List.length_nil]
    rw [show digitsVal ([digitCh d]) = 10 * 0 + ((digitCh d).toNat - 48) from rfl,
        digitCh_toNat d (hD d (List.mem_cons_self _ _))]
    show ofDigitsRev D * 10 ^ (0 + 1) + (10 * 0 + d) = d + 10 * ofDigitsRev D
    ring

theorem digitsVal_natStr (n : ℕ) : digitsVal (natStr n) = n := by
  unfold natStr
  split
  · next h => rw [h]; rfl
  · exact (digitsVal_map_digitCh _ (natDigitsRev_lt n n)).trans (natDigitsRev_val n n le_rfl)

theorem natDigitsRev_len (fuel : ℕ) : ∀ n k, n < 10 ^ k →
    (natDigitsRev fuel n).length ≤ k := by
  induction fuel with
  | zero =>
    intro n k _
    simp [natDigitsRev]
  | succ f ih =>
    intro n k h
    unfold natDigitsRev
    split
    · simp
    · next h0 =>
      cases k with
      | zero =>
        exfalso
        simp at h
        exact h0 h
      | succ k' =>
        simp only [List.length_cons]
        have hd : n / 10 < 10 ^ k' := by
          rw [Nat.div_lt_iff_lt_mul (by omega)]
          calc n < 10 ^ (k' + 1) := h
            _ = 10 ^ k' * 10 := by ring
        have := ih (n / 10) k' hd
        omega

theorem natStr_len_le (n k : ℕ) (hk : 1 ≤ k) (h : n < 10 ^ k) :
    (natStr n).length ≤ k := by
  unfold natStr
  split
  · simpa using hk
  · simp only [List.length_map, List.length_reverse]
    exact natDigitsRev_len n n k h

theorem padZeros_length (k : ℕ) (s : Str) (h : s.length ≤ k) :
    (padZeros k s).length = k := by
  unfold padZeros
  simp
  omega

theorem natStr_ne_nil (n : ℕ) : natStr n ≠ [] := by
  unfold natStr
  split
  · simp
  · next h =>
    simp only [ne_eq, List.map_eq_nil_iff, List.reverse_eq_nil_iff]
    cases n with
    | zero => exact absurd rfl h
    | succ m =>
      unfold natDigitsRev
      rw [if_neg h]
      simp

theorem takeWhile_digits (D : Str) (hD : ∀ c ∈ D, isDigitCh c = true) (r : Str) :
    (D ++ r).takeWhile isDigitCh = D ++ r.takeWhile isDigitCh := by
  induction D with
  | nil => rfl
  | cons c D ih =>
    rw [List.cons_append, List.takeWhile_cons, if_pos (hD c (by simp)),
        ih (fun x hx => hD x (by simp [hx]))]
    rfl

theorem dropWhile_digits (D : Str) (hD : ∀ c ∈ D, isDigitCh c = true) (r : Str) :
    (D ++ r).dropWhile isDigitCh = r.dropWhile isDigitCh := by
  induction D with
  | nil => rfl
  | cons c D ih =>
    rw [List.cons_append, List.dropWhile_cons, if_pos (hD c (by simp)),
        ih (fun x hx => hD x (by simp [hx]))]

theorem pyFloatCore_decimal (X F : Str) (hX : ∀ c ∈ X, isDigitCh c = true)
    (hXne : X ≠ []) (hF : ∀ c ∈ F, isDigitCh c = true) :
    pyFloatCore (X ++ '.' :: F)
      = some ((digitsVal X : ℚ) + (digitsVal F : ℚ) / (10 : ℚ) ^ F.length) := by
  have h1 : (X ++ '.' :: F).takeWhile isDigitCh = X := by
    rw [takeWhile_digits X hX, List.takeWhile_cons, if_neg (by decide)]
    simp
  have h2 : (X ++ '.' :: F).dropWhile isDigitCh = '.' :: F := by
    rw [dropWhile_digits X hX, List.dropWhile_cons, if_neg (by decide)]
  have h3 : F.takeWhile isDigitCh = F := List.takeWhile_eq_self_iff.mpr hF
  have h4 : F.dropWhile isDigitCh = [] := List.dropWhile_eq_nil_iff.mpr hF
  simp only [pyFloatCore, h1, h2, h3, h4]
  rw [if_neg (by rintro ⟨h, -⟩; exact hXne h)]

theorem pyFloat?_not_sign (c : Char) (rest : Str) (h1 : c ≠ '+') (h2 : c ≠ '-') :
    pyFloat? (c :: rest) = pyFloatCore (c :: rest) := by
  unfold pyFloat?
  split
  · next heq => injection heq with ha hb; exact absurd ha h1
  · next heq => injection heq with ha hb; exact absurd ha h2
  · rfl

theorem pyFloat?_neg (t : Str) :
    pyFloat? ('-' :: t) = (pyFloatCore t).map (fun q => -q) := rfl

theorem mem_decBody {c : Char} {X F : Str} (hX : ∀ x ∈ X, isDigitCh x = true)
    (hF : ∀ x ∈ F, isDigitCh x = true) (hc : c ∈ X ++ '.' :: F) :
    isDigitCh c = true ∨ c = '.' := by
  rcases List.mem_append.mp hc with h1 | h2
  · exact Or.inl (hX c h1)
  · rcases List.mem_cons.mp h2 with rfl | h3
    · exact Or.inr rfl
    · exact Or.inl (hF c h3)

theorem no_dash_decBody {X F : Str} (hX : ∀ x ∈ X, isDigitCh x = true)
    (hF : ∀ x ∈ F, isDigitCh x = true) : '-' ∉ X ++ '.' :: F := by
  intro h
  rcases mem_decBody hX hF h with h1 | h1
  · exact absurd h1 (by decide)
  · exact absurd h1 (by decide)

theorem printDec_num (q : ℚ) :
    ∃ X F, (∀ c ∈ X, isDigitCh c = true) ∧ (∀ c ∈ F, isDigitCh c = true) ∧
      X ≠ [] ∧
      ((¬ (q * (10:ℚ) ^ decExp q.den).num < 0 ∧ printDec q = X ++ '.' :: F) ∨
        ((q * (10:ℚ) ^ decExp q.den).num < 0 ∧ printDec q = '-' :: (X ++ '.' :: F))) ∧
      (digitsVal X : ℚ) + (digitsVal F : ℚ) / (10:ℚ) ^ F.length
        = (((q * (10:ℚ) ^ decExp q.den).num.natAbs : ℕ) : ℚ)
            / (10:ℚ) ^ decExp q.den := by
  by_cases hk : decExp q.den = 0
  · refine ⟨natStr (q * (10:ℚ) ^ decExp q.den).num.natAbs, ['0'],
      natStr_digits _, ?_, natStr_ne_nil _, ?_, ?_⟩
    · intro c hc
      simp at hc
      rw [hc]
      decide
    · by_cases hm : (q * (10:ℚ) ^ decExp q.den).num < 0
      · refine Or.inr ⟨hm, ?_⟩
        simp only [printDec]
        rw [if_pos hk, if_pos hm]
      · refine Or.inl ⟨hm, ?_⟩
        simp only [printDec]
        rw [if_pos hk, if_neg hm]
    · have h0 : digitsVal ['0'] = 0 := by decide
      rw [digitsVal_natStr, hk, h0]
      norm_num
  · refine ⟨natStr ((q * (10:ℚ) ^ decExp q.den).num.natAbs / 10 ^ decExp q.den),
      padZeros (decExp q.den)
        (natStr ((q * (10:ℚ) ^ decExp q.den).num.natAbs % 10 ^ decExp q.den)),
      natStr_digits _, padZeros_digits _ _ (natStr_digits _), natStr_ne_nil _, ?_, ?_⟩
    · by_cases hm : (q * (10:ℚ) ^ decExp q.den).num < 0
      · refine Or.inr ⟨hm, ?_⟩
        simp only [printDec, if_neg hk, if_pos hm]
      · refine Or.inl ⟨hm, ?_⟩
        simp only [printDec, if_neg hk, if_neg hm]
    · have hmod : (q * (10:ℚ) ^ decExp q.den).num.natAbs % 10 ^ decExp q.den
          < 10 ^ decExp q.den := Nat.mod_lt _ (by positivity)
      have hlen : (padZeros (decExp q.den)
          (natStr ((q * (10:ℚ) ^ decExp q.den).num.natAbs % 10 ^ decExp q.den))).length
          = decExp q.den :=
        padZeros_length _ _ (natStr_len_le _ _ (by omega) hmod)
      rw [hlen, digitsVal_natStr, digitsVal_padZeros, digitsVal_natStr]
      have hdm := Nat.div_add_mod
        ((q * (10:ℚ) ^ decExp q.den).num.natAbs) (10 ^ decExp q.den)
      have hdm' := congrArg (fun n : ℕ => (n : ℚ)) hdm
      push_cast at hdm'
      have h10 : ((10:ℚ) ^ decExp q.den) ≠ 0 := by positivity
      field_simp
      linarith [hdm']

theorem format2_num (q : ℚ) :
    ∃ X F, (∀ c ∈ X, isDigitCh c = true) ∧ (∀ c ∈ F, isDigitCh c = true) ∧
      X ≠ [] ∧
      ((¬ round2 q < 0 ∧ format2 q = X ++ '.' :: F) ∨
        (round2 q < 0 ∧ format2 q = '-' :: (X ++ '.' :: F))) ∧
      (digitsVal X : ℚ) + (digitsVal F : ℚ) / (10:ℚ) ^ F.length
        = (((round2 q).natAbs : ℕ) : ℚ) / 100 := by
  refine ⟨natStr ((round2 q).natAbs / 100),
    padZeros 2 (natStr ((round2 q).natAbs % 100)),
    natStr_digits _, padZeros_digits _ _ (natStr_digits _), natStr_ne_nil _, ?_, ?_⟩
  · by_cases hm : round2 q < 0
    · refine Or.inr ⟨hm, ?_⟩
      simp only [format2, if_pos hm]
    · refine Or.inl ⟨hm, ?_⟩
      simp only [format2, if_neg hm]
  · have hmod : (round2 q).natAbs % 100 < 100 := Nat.mod_lt _ (by omega)
    have hlen : (padZeros 2 (natStr ((round2 q).natAbs % 100))).length = 2 :=
      padZeros_length _ _ (natStr_len_le _ 2 (by omega) (by simpa using hmod))
    rw [hlen, digitsVal_natStr, digitsVal_padZeros, digitsVal_natStr]
    have hdm := Nat.div_add_mod ((round2 q).natAbs) 100
    have hdm' := congrArg (fun n : ℕ => (n : ℚ)) hdm
    push_cast at hdm'
    have h10 : ((10:ℚ) ^ (2:ℕ)) = 100 := by norm_num
    rw [h10]
    field_simp
    linarith [hdm']

theorem pyFloat?_printDec (q : ℚ) (h : IsDec q) : pyFloat? (printDec q) = some q := by
  obtain ⟨X, F, hX, hF, hXne, hshape, hval⟩ := printDec_num q
  have hq : (((q * (10:ℚ) ^ decExp q.den).num : ℤ) : ℚ) = q * (10:ℚ) ^ decExp q.den :=
    (Rat.den_eq_one_iff _).mp h
  have h10 : ((10:ℚ) ^ decExp q.den) ≠ 0 := by positivity
  have hcore := pyFloatCore_decimal X F hX hXne hF
  rcases hshape with ⟨hm, hpr⟩ | ⟨hm, hpr⟩
  · rw [hpr]
    cases X with
    | nil => exact absurd rfl hXne
    | cons c X' =>
      have hcd : isDigitCh c = true := hX c (by simp)
      rw [List.cons_append,
          pyFloat?_not_sign c _
            (by intro h'; rw [h'] at hcd; exact absurd hcd (by decide))
            (by intro h'; rw [h'] at hcd; exact absurd hcd (by decide)),
          ← List.cons_append, hcore, hval]
      congr 1
      have hm' : (0:ℤ) ≤ (q * (10:ℚ)^decExp q.den).num := le_of_not_lt hm
      rw [Int.cast_natAbs, abs_of_nonneg hm', hq]
      field_simp
  · rw [hpr, pyFloat?_neg, hcore, hval]
    simp only [Option.map_some']
    congr 1
    rw [Int.cast_natAbs, abs_of_neg hm]
    push_cast
    rw [neg_div, neg_neg, hq]
    field_simp

theorem pyFloat?_format2 (q : ℚ) :
    pyFloat? (format2 q) = some (((round2 q : ℤ) : ℚ) / 100) := by
  obtain ⟨X, F, hX, hF, hXne, hshape, hval⟩ := format2_num q
  have hcore := pyFloatCore_decimal X F hX hXne hF
  rcases hshape with ⟨hm, hpr⟩ | ⟨hm, hpr⟩
  · rw [hpr]
    cases X with
    | nil => exact absurd rfl hXne
    | cons c X' =>
      have hcd : isDigitCh c = true := hX c (by simp)
      rw [List.cons_append,
          pyFloat?_not_sign c _
            (by intro h'; rw [h'] at hcd; exact absurd hcd (by decide))
            (by intro h'; rw [h'] at hcd; exact absurd hcd (by decide)),
          ← List.cons_append, hcore, hval]
      congr 1
      have hm' : (0:ℤ) ≤ round2 q := le_of_not_lt hm
      rw [Int.cast_natAbs, abs_of_nonneg hm']
  · rw [hpr, pyFloat?_neg, hcore, hval]
    simp only [Option.map_some']
    congr 1
    rw [Int.cast_natAbs, abs_of_neg hm]
    push_cast
    ring

/-! ### Parsing an encoded section body recovers the original entries -/

theorem printDec_chars (q : ℚ) : ∀ c ∈ printDec q,
    isDigitCh c = true ∨ c = '.' ∨ c = '-' := by
  obtain ⟨X, F, hX, hF, -, hshape, -⟩ := printDec_num q
  intro c hc
  rcases hshape with ⟨-, hpr⟩ | ⟨-, hpr⟩ <;> rw [hpr] at hc
  · rcases mem_decBody hX hF hc with h1 | h1
    · exact Or.inl h1
    · exact Or.inr (Or.inl h1)
  · rcases List.mem_cons.mp hc with rfl | h2
    · exact Or.inr (Or.inr rfl)
    · rcases mem_decBody hX hF h2 with h1 | h1
      · exact Or.inl h1
      · exact Or.inr (Or.inl h1)

theorem format2_chars (q : ℚ) : ∀ c ∈ format2 q,
    isDigitCh c = true ∨ c = '.' ∨ c = '-' := by
  obtain ⟨X, F, hX, hF, -, hshape, -⟩ := format2_num q
  intro c hc
  rcases hshape with ⟨-, hpr⟩ | ⟨-, hpr⟩ <;> rw [hpr] at hc
  · rcases mem_decBody hX hF hc with h1 | h1
    · exact Or.inl h1
    · exact Or.inr (Or.inl h1)
  · rcases List.mem_cons.mp hc with rfl | h2
    · exact Or.inr (Or.inr rfl)
    · rcases mem_decBody hX hF h2 with h1 | h1
      · exact Or.inl h1
      · exact Or.inr (Or.inl h1)

theorem digitish_not_ws (c : Char) (h : isDigitCh c = true ∨ c = '.' ∨ c = '-') :
    pyIsSpace c = false := by
  rcases h with h | rfl | rfl
  · cases hc : pyIsSpace c
    · rfl
    · exfalso
      have h6 := hc
      simp only [pyIsSpace, Bool.or_eq_true, decide_eq_true_eq] at h6
      rcases h6 with ((((rfl | rfl) | rfl) | rfl) | rfl) | rfl <;> exact absurd h (by decide)
  · decide
  · decide

theorem digitish_ne_nl (c : Char) (h : isDigitCh c = true ∨ c = '.' ∨ c = '-') :
    c ≠ '\n' := by
  rcases h with h | rfl | rfl
  · intro hc
    rw [hc] at h
    exact absurd h (by decide)
  · decide
  · decide

theorem printDec_not_nl (q : ℚ) : '\n' ∉ printDec q :=
  fun hm => digitish_ne_nl _ (printDec_chars q _ hm) rfl

theorem format2_not_nl (q : ℚ) : '\n' ∉ format2 q :=
  fun hm => digitish_ne_nl _ (format2_chars q _ hm) rfl

theorem printDec_strip (q : ℚ) : pyStrip (printDec q) = printDec q :=
  pyStrip_no_ws _ (fun c hc => digitish_not_ws c (printDec_chars q c hc))

theorem format2_strip (q : ℚ) : pyStrip (format2 q) = format2 q :=
  pyStrip_no_ws _ (fun c hc => digitish_not_ws c (format2_chars q c hc))

theorem printDec_no_dash3 (q : ℚ) : hasSub dash3 (printDec q) = false := by
  obtain ⟨X, F, hX, hF, -, hshape, -⟩ := printDec_num q
  obtain ⟨hb1, hb2⟩ := dash3_not_inf_signed (X ++ '.' :: F) (no_dash_decBody hX hF)
  rcases hshape with ⟨-, hpr⟩ | ⟨-, hpr⟩ <;> rw [hpr]
  · exact (hasSub_false_iff _ _).mpr hb1
  · exact (hasSub_false_iff _ _).mpr hb2

theorem format2_no_dash3 (q : ℚ) : hasSub dash3 (format2 q) = false := by
  obtain ⟨X, F, hX, hF, -, hshape, -⟩ := format2_num q
  obtain ⟨hb1, hb2⟩ := dash3_not_inf_signed (X ++ '.' :: F) (no_dash_decBody hX hF)
  rcases hshape with ⟨-, hpr⟩ | ⟨-, hpr⟩ <;> rw [hpr]
  · exact (hasSub_false_iff _ _).mpr hb1
  · exact (hasSub_false_iff _ _).mpr hb2

theorem printDec_ne_nil (q : ℚ) : printDec q ≠ [] := by
  obtain ⟨X, F, -, -, -, hshape, -⟩ := printDec_num q
  rcases hshape with ⟨-, hpr⟩ | ⟨-, hpr⟩ <;> rw [hpr] <;> simp

theorem format2_ne_nil (q : ℚ) : format2 q ≠ [] := by
  obtain ⟨X, F, -, -, -, hshape, -⟩ := format2_num q
  rcases hshape with ⟨-, hpr⟩ | ⟨-, hpr⟩ <;> rw [hpr] <;> simp

theorem splitColon_append (a : Str) (ha : ':' ∉ a) (r : Str) :
    splitColon (a ++ ':' :: r) = some (a, r) := by
  induction a with
  | nil =>
    show splitColon (':' :: r) = some ([], r)
    unfold splitColon
    rw [if_pos rfl]
  | cons c a' ih =>
    have hc : c ≠ ':' := by
      intro h
      apply ha
      rw [← h]
      exact List.mem_cons_self _ _
    rw [List.cons_append]
    unfold splitColon
    rw [if_neg hc, ih (fun hx => ha (List.mem_cons_of_mem _ hx))]
    rfl

theorem joinNL_intercalate (ls : List Str) : joinNL ls = List.intercalate ['\n'] ls := by
  induction ls with
  | nil => rfl
  | cons l rest ih =>
    cases rest with
    | nil =>
      rw [joinNL_single]
      simp [List.intercalate]
    | cons b t =>
      rw [joinNL_cons_ne _ _ (by simp), ih,
          show List.intercalate ['\n'] (l :: b :: t)
            = l ++ '\n' :: List.intercalate ['\n'] (b :: t) by
              simp [List.intercalate, List.intersperse]]

theorem splitOn_joinNL (ls : List Str) (h0 : ls ≠ []) (hnl : ∀ l ∈ ls, '\n' ∉ l) :
    (joinNL ls).splitOn '\n' = ls := by
  rw [joinNL_intercalate]
  exact List.splitOn_intercalate ls '\n' hnl h0

theorem splitOn_joinComma (l : List Str) (h0 : l ≠ []) (hc : ∀ a ∈ l, ',' ∉ a) :
    (' ' :: joinComma l).splitOn ',' = l.map (fun a => ' ' :: a) := by
  induction l with
  | nil => exact absurd rfl h0
  | cons a rest ih =>
    cases rest with
    | nil =>
      show ((' ' :: a) : Str).splitOn ',' = [' ' :: a]
      apply List.splitOnP_eq_single
      intro x hx
      rcases List.mem_cons.mp hx with rfl | hxa
      · decide
      · intro hbeq
        have hx' : x = ',' := by simpa using hbeq
        rw [hx'] at hxa
        exact hc a (by simp) hxa
    | cons b t =>
      show ((' ' :: a) ++ ',' :: (' ' :: joinComma (b :: t)) : Str).splitOn ',' = _
      rw [show ((' ' :: a) ++ ',' :: (' ' :: joinComma (b :: t)) : Str).splitOn ','
            = ((' ' :: a) ++ ',' :: (' ' :: joinComma (b :: t)) : Str).splitOnP
                (· == ',') from rfl,
          List.splitOnP_first _ _ ?_ ',' (by simp)]
      · rw [show ((' ' :: joinComma (b :: t)) : Str).splitOnP (· == ',')
              = ((' ' :: joinComma (b :: t)) : Str).splitOn ',' from rfl,
            ih (by simp) (fun x hx => hc x (List.mem_cons_of_mem _ hx))]
        rfl
      · intro x hx
        rcases List.mem_cons.mp hx with rfl | hxa
        · decide
        · intro hbeq
          have hx' : x = ',' := by simpa using hbeq
          rw [hx'] at hxa
          exact hc a (by simp) hxa

theorem dkeys_append {α : Type} (d e : List (Str × α)) :
    dkeys (d ++ e) = dkeys d ++ dkeys e :=
  List.map_append _ _ _

theorem token_line_head? (a v : Str) (ha : a ≠ []) :
    (a ++ ':' :: ' ' :: v).head? = a.head? := List.head?_append_of_ne_nil _ ha

theorem token_line_getLast? (a v : Str) (hv : v ≠ []) :
    (a ++ ':' :: ' ' :: v).getLast? = v.getLast? := by
  rw [List.getLast?_append_of_ne_nil _ (by simp),
      show (':' :: ' ' :: v : Str) = [':', ' '] ++ v from rfl,
      List.getLast?_append_of_ne_nil _ hv]

theorem token_line_ne_nil (a v : Str) (ha : a ≠ []) : a ++ ':' :: ' ' :: v ≠ [] := by
  intro hnil
  exact ha (List.append_eq_nil.mp hnil).1

theorem foldPersons (ps : List (Str × Str)) :
    (∀ p ∈ ps, GoodTok p.1 ∧ GoodTok p.2) → (dkeys ps).Nodup →
    ∀ d0 : List (Str × Str), (∀ p ∈ ps, p.1 ∉ dkeys d0) →
      (ps.map personLine).foldl personStep d0 = d0 ++ ps := by
  induction ps with
  | nil =>
    intro _ _ d0 _
    simp
  | cons p rest ih =>
    intro hg hnd d0 hf
    obtain ⟨hg1, hg2⟩ := hg p (by simp)
    simp only [List.map_cons, List.foldl_cons]
    have hstep : personStep d0 (personLine p) = d0 ++ [p] := by
      rw [personStep_some d0 _ p.1 (' ' :: p.2)
            (by rw [show personLine p = p.1 ++ ':' :: ' ' :: p.2 from rfl]
                exact splitColon_append p.1 hg1.2.2.2.1 _),
          hg1.2.1, pyStrip_cons_ws ' ' (by decide), hg2.2.1,
          dput_of_not_mem d0 p.1 p.2 (hf p (by simp))]
    have hnd' : (dkeys rest).Nodup := by
      rw [dkeys_cons] at hnd
      exact hnd.of_cons
    have hfresh : ∀ x ∈ rest, x.1 ∉ dkeys (d0 ++ [p]) := by
      intro x hx
      rw [dkeys_append]
      simp only [List.mem_append, not_or]
      refine ⟨hf x (List.mem_cons_of_mem _ hx), ?_⟩
      rw [dkeys_cons] at hnd
      have hp1 : p.1 ∉ dkeys rest := (List.nodup_cons.mp hnd).1
      have hx1 : x.1 ∈ dkeys rest := List.mem_map.mpr ⟨x, hx, rfl⟩
      intro he
      simp only [dkeys_cons, dkeys_nil, List.mem_singleton] at he
      exact hp1 (he ▸ hx1)
    rw [hstep, ih (fun x hx => hg x (List.mem_cons_of_mem _ hx)) hnd' (d0 ++ [p]) hfresh,
        List.append_assoc]
    rfl

theorem foldItems (its : List (Str × ℚ)) :
    (∀ it ∈ its, GoodTok it.1 ∧ IsDec it.2) →
    ∀ acc : List (Str × ℚ),
      (its.map itemLine).foldl itemStep (some acc) = some (acc ++ its) := by
  induction its with
  | nil =>
    intro _ acc
    simp
  | cons it rest ih =>
    intro hg acc
    obtain ⟨hg1, hdec⟩ := hg it (by simp)
    simp only [List.map_cons, List.foldl_cons]
    have hstep : itemStep (some acc) (itemLine it) = some (acc ++ [it]) := by
      rw [itemStep_ok acc _ it.1 (' ' :: printDec it.2) it.2
            (by rw [show itemLine it = it.1 ++ ':' :: ' ' :: printDec it.2 from rfl]
                exact splitColon_append it.1 hg1.2.2.2.1 _)
            (by rw [pyStrip_cons_ws ' ' (by decide), printDec_strip]
                exact pyFloat?_printDec it.2 hdec),
          hg1.2.1]
    rw [hstep, ih (fun x hx => hg x (List.mem_cons_of_mem _ hx)) (acc ++ [it]),
        List.append_assoc]
    rfl

theorem foldFees (b : Bill) :
    [taxLine b, delLine b, tipLine b].foldl feeStep (some []) = some (encFees b) := by
  simp only [List.foldl_cons, List.foldl_nil]
  rw [feeStep_ok [] (taxLine b) keyTax (' ' :: format2 b.feeTax) _
        (by rw [show taxLine b = keyTax ++ ':' :: ' ' :: format2 b.feeTax from rfl]
            exact splitColon_append _ (by decide) _)
        (by decide)
        (by rw [pyStrip_cons_ws ' ' (by decide), format2_strip]
            exact pyFloat?_format2 b.feeTax),
      show pyStrip keyTax = keyTax from by decide]
  rw [feeStep_ok _ (delLine b) keyDelivery (' ' :: format2 b.feeDelivery) _
        (by rw [show delLine b = keyDelivery ++ ':' :: ' ' :: format2 b.feeDelivery from rfl]
            exact splitColon_append _ (by decide) _)
        (by decide)
        (by rw [pyStrip_cons_ws ' ' (by decide), format2_strip]
            exact pyFloat?_format2 b.feeDelivery),
      show pyStrip keyDelivery = keyDelivery from by decide]
  rw [feeStep_ok _ (tipLine b) keyTip (' ' :: format2 b.feeTip) _
        (by rw [show tipLine b = keyTip ++ ':' :: ' ' :: format2 b.feeTip from rfl]
            exact splitColon_append _ (by decide) _)
        (by decide)
        (by rw [pyStrip_cons_ws ' ' (by decide), format2_strip]
            exact pyFloat?_format2 b.feeTip),
      show pyStrip keyTip = keyTip from by decide]
  rfl

theorem fillFees_encFees (b : Bill) : fillFees (encFees b) = encFees b := rfl

theorem foldShares (itemNames personKeys : List Str) (ss : List (Str × List Str)) :
    (∀ e ∈ ss, GoodTok e.1 ∧ e.1 ∈ itemNames ∧ e.2 ≠ [] ∧
      ∀ a ∈ e.2, GoodTok a ∧ a ∈ personKeys) →
    (dkeys ss).Nodup →
    ∀ d0, (∀ e ∈ ss, e.1 ∉ dkeys d0) →
      (ss.map shareLine).foldl (shareStep itemNames personKeys) d0 = d0 ++ ss := by
  induction ss with
  | nil =>
    intro _ _ d0 _
    simp
  | cons e rest ih =>
    intro hg hnd d0 hf
    obtain ⟨hg1, hmem, hne2, habbr⟩ := hg e (by simp)
    simp only [List.map_cons, List.foldl_cons]
    have habbrs : (((' ' :: joinComma e.2).splitOn ',').map pyStrip).filter
        (fun a => a ≠ []) = e.2 := by
      rw [splitOn_joinComma e.2 hne2 (fun a ha => (habbr a ha).1.2.2.2.2.1),
          List.map_map,
          List.map_congr_left (fun a ha => by
            show pyStrip (' ' :: a) = id a
            rw [pyStrip_cons_ws ' ' (by decide)]
            exact (habbr a ha).1.2.1),
          List.map_id,
          List.filter_eq_self.mpr (fun a ha => decide_eq_true (habbr a ha).1.1)]
    have hvalid : e.2.filter (fun a => a ∈ personKeys) = e.2 :=
      List.filter_eq_self.mpr (fun a ha => decide_eq_true (habbr a ha).2)
    have hstep : shareStep itemNames personKeys d0 (shareLine e) = d0 ++ [e] := by
      rw [shareStep_some itemNames personKeys d0 _ e.1 (' ' :: joinComma e.2)
            (by rw [show shareLine e = e.1 ++ ':' :: ' ' :: joinComma e.2 from rfl]
                exact splitColon_append e.1 hg1.2.2.2.1 _),
          habbrs, hg1.2.1, hvalid, if_pos hmem, if_pos hne2,
          dput_of_not_mem d0 e.1 e.2 (hf e (by simp))]
    have hnd' : (dkeys rest).Nodup := by
      rw [dkeys_cons] at hnd
      exact hnd.of_cons
    have hfresh : ∀ x ∈ rest, x.1 ∉ dkeys (d0 ++ [e]) := by
      intro x hx
      rw [dkeys_append]
      simp only [List.mem_append, not_or]
      refine ⟨hf x (List.mem_cons_of_mem _ hx), ?_⟩
      rw [dkeys_cons] at hnd
      have hp1 : e.1 ∉ dkeys rest := (List.nodup_cons.mp hnd).1
      have hx1 : x.1 ∈ dkeys rest := List.mem_map.mpr ⟨x, hx, rfl⟩
      intro he
      simp only [dkeys_cons, dkeys_nil, List.mem_singleton] at he
      exact hp1 (he ▸ hx1)
    rw [hstep, ih (fun x hx => hg x (List.mem_cons_of_mem _ hx)) hnd' (d0 ++ [e]) hfresh,
        List.append_assoc]
    rfl

theorem linesOf_body_pad (ls : List Str) (h0 : ls ≠ []) (hnl : ∀ l ∈ ls, '\n' ∉ l)
    (hne : ∀ l ∈ ls, l ≠ [])
    (hhead : ∀ c, (joinNL ls).head? = some c → pyIsSpace c = false)
    (hlast : ∀ c, (joinNL ls).getLast? = some c → pyIsSpace c = false) :
    linesOf (joinNL ls ++ ['\n']) = ls := by
  unfold linesOf
  rw [pyStrip_sandwich _ (joinNL_ne_nil ls h0 hne) hhead hlast, splitOn_joinNL ls h0 hnl]

theorem linesOf_body (ls : List Str) (h0 : ls ≠ []) (hnl : ∀ l ∈ ls, '\n' ∉ l)
    (hhead : ∀ c, (joinNL ls).head? = some c → pyIsSpace c = false)
    (hlast : ∀ c, (joinNL ls).getLast? = some c → pyIsSpace c = false) :
    linesOf (joinNL ls) = ls := by
  unfold linesOf
  rw [pyStrip_self _ hhead hlast, splitOn_joinNL ls h0 hnl]

theorem parsePersons_enc (ps : List (Str × Str)) (h0 : ps ≠ [])
    (hg : ∀ p ∈ ps, GoodTok p.1 ∧ GoodTok p.2) (hnd : (dkeys ps).Nodup) :
    parsePersons (joinNL (ps.map personLine) ++ ['\n']) = ps := by
  unfold parsePersons
  have hlines : linesOf (joinNL (ps.map personLine) ++ ['\n']) = ps.map personLine := by
    apply linesOf_body_pad
    · simp [h0]
    · intro l hl
      rcases List.mem_map.mp hl with ⟨p, hp, rfl⟩
      exact token_line_no_nl _ _ (hg p hp).1.2.2.1 (hg p hp).2.2.2.1
    · intro l hl
      rcases List.mem_map.mp hl with ⟨p, hp, rfl⟩
      exact token_line_ne_nil _ _ (hg p hp).1.1
    · cases ps with
      | nil => exact absurd rfl h0
      | cons p rest =>
        intro c hc
        obtain ⟨hg1, hg2⟩ := hg p (by simp)
        rw [List.map_cons, show personLine p = p.1 ++ ':' :: ' ' :: p.2 from rfl,
            joinNL_head? _ _ (token_line_ne_nil _ _ hg1.1),
            token_line_head? p.1 p.2 hg1.1] at hc
        exact stripped_head_not_ws p.1 hg1.2.1 c hc
    · intro c hc
      have hmap0 : ps.map personLine ≠ [] := by simp [h0]
      obtain ⟨p, hp, hlp⟩ : ∃ p, p ∈ ps ∧ ps.getLast? = some p :=
        ⟨ps.getLast h0, List.getLast_mem h0, List.getLast?_eq_getLast ps h0⟩
      obtain ⟨hg1, hg2⟩ := hg p hp
      rw [joinNL_getLast? (ps.map personLine) (personLine p)
            (by rw [List.getLast?_map, hlp]; rfl)
            (by intro l hl
                rcases List.mem_map.mp hl with ⟨x, hx, rfl⟩
                exact token_line_ne_nil _ _ (hg x hx).1.1),
          show personLine p = p.1 ++ ':' :: ' ' :: p.2 from rfl,
          token_line_getLast? p.1 p.2 hg2.1] at hc
      exact stripped_last_not_ws p.2 hg2.2.1 c hc
  rw [hlines, foldPersons ps hg hnd [] (by intro p _; simp [dkeys_nil])]
  rfl

theorem parseItems_enc (its : List (Str × ℚ))
    (hg : ∀ it ∈ its, GoodTok it.1 ∧ IsDec it.2) :
    parseItems (joinNL (its.map itemLine) ++ ['\n']) = some its := by
  cases its with
  | nil => rfl
  | cons it0 rest =>
    set its := it0 :: rest with hits
    have h0 : its ≠ [] := by simp [hits]
    unfold parseItems
    have hlines : linesOf (joinNL (its.map itemLine) ++ ['\n']) = its.map itemLine := by
      apply linesOf_body_pad
      · simp [h0]
      · intro l hl
        rcases List.mem_map.mp hl with ⟨p, hp, rfl⟩
        exact token_line_no_nl _ _ (hg p hp).1.2.2.1
          (fun hm => digitish_ne_nl _ (printDec_chars _ _ hm) rfl)
      · intro l hl
        rcases List.mem_map.mp hl with ⟨p, hp, rfl⟩
        exact token_line_ne_nil _ _ (hg p hp).1.1
      · rw [hits]
        intro c hc
        obtain ⟨hg1, -⟩ := hg it0 (by simp [hits])
        rw [List.map_cons, show itemLine it0 = it0.1 ++ ':' :: ' ' :: printDec it0.2 from rfl,
            joinNL_head? _ _ (token_line_ne_nil _ _ hg1.1),
            token_line_head? _ _ hg1.1] at hc
        exact stripped_head_not_ws it0.1 hg1.2.1 c hc
      · intro c hc
        obtain ⟨p, hp, hlp⟩ : ∃ p, p ∈ its ∧ its.getLast? = some p :=
          ⟨its.getLast h0, List.getLast_mem h0, List.getLast?_eq_getLast its h0⟩
        obtain ⟨hg1, -⟩ := hg p hp
        rw [joinNL_getLast? (its.map itemLine) (itemLine p)
              (by rw [List.getLast?_map, hlp]; rfl)
              (by intro l hl
                  rcases List.mem_map.mp hl with ⟨x, hx, rfl⟩
                  exact token_line_ne_nil _ _ (hg x hx).1.1),
            show itemLine p = p.1 ++ ':' :: ' ' :: printDec p.2 from rfl,
            token_line_getLast? _ _ (printDec_ne_nil p.2)] at hc
        have hcm : c ∈ printDec p.2 := by
          rcases List.getLast?_eq_some_iff.mp hc with ⟨ys, hys⟩
          rw [hys]
          simp
        exact digitish_not_ws c (printDec_chars p.2 c hcm)
    rw [hlines, foldItems its hg []]
    rfl

theorem parseFees_enc (b : Bill) :
    parseFees (joinNL [taxLine b, delLine b, tipLine b] ++ ['\n'])
      = some (encFees b) := by
  unfold parseFees
  have hlines : linesOf (joinNL [taxLine b, delLine b, tipLine b] ++ ['\n'])
      = [taxLine b, delLine b, tipLine b] := by
    apply linesOf_body_pad
    · simp
    · intro l hl
      have hfees : ∀ (nm : Str) (x : ℚ), ':' ∉ nm → '\n' ∉ nm →
          '\n' ∉ nm ++ ':' :: ' ' :: format2 x := by
        intro nm x h1 h2
        exact token_line_no_nl _ _ h2
          (fun hm => digitish_ne_nl _ (format2_chars _ _ hm) rfl)
      simp only [List.mem_cons, List.not_mem_nil, or_false] at hl
      rcases hl with rfl | rfl | rfl
      · exact hfees ("Tax".toList) b.feeTax (by decide) (by decide)
      · exact hfees ("Delivery Fee".toList) b.feeDelivery (by decide) (by decide)
      · exact hfees ("Tip".toList) b.feeTip (by decide) (by decide)
    · intro l hl
      simp only [List.mem_cons, List.not_mem_nil, or_false] at hl
      rcases hl with rfl | rfl | rfl
      · exact token_line_ne_nil ("Tax".toList) _ (by decide)
      · exact token_line_ne_nil ("Delivery Fee".toList) _ (by decide)
      · exact token_line_ne_nil ("Tip".toList) _ (by decide)
    · intro c hc
      rw [show taxLine b = "Tax".toList ++ ':' :: ' ' :: format2 b.feeTax from rfl,
          joinNL_head? _ _ (token_line_ne_nil ("Tax".toList) _ (by decide)),
          token_line_head? _ _ (by decide)] at hc
      have : c = 'T' := by
        rw [show ("Tax".toList : Str).head? = some 'T' from rfl] at hc
        exact (Option.some.inj hc).symm
      rw [this]
      decide
    · intro c hc
      rw [joinNL_getLast? _ (tipLine b) (by simp)
            (by intro l hl
                simp only [List.mem_cons, List.not_mem_nil, or_false] at hl
                rcases hl with rfl | rfl | rfl
                · exact token_line_ne_nil ("Tax".toList) _ (by decide)
                · exact token_line_ne_nil ("Delivery Fee".toList) _ (by decide)
                · exact token_line_ne_nil ("Tip".toList) _ (by decide)),
          show tipLine b = "Tip".toList ++ ':' :: ' ' :: format2 b.feeTip from rfl,
          token_line_getLast? _ _ (format2_ne_nil b.feeTip)] at hc
      have hcm : c ∈ format2 b.feeTip := by
        rcases List.getLast?_eq_some_iff.mp hc with ⟨ys, hys⟩
        rw [hys]
        simp
      exact digitish_not_ws c (format2_chars b.feeTip c hcm)
  rw [hlines]
  exact foldFees b

theorem parseShares_enc (itemNames personKeys : List Str) (ss : List (Str × List Str))
    (hg : ∀ e ∈ ss, GoodTok e.1 ∧ e.1 ∈ itemNames ∧ e.2 ≠ [] ∧
      ∀ a ∈ e.2, GoodTok a ∧ a ∈ personKeys)
    (hnd : (dkeys ss).Nodup) :
    parseShares (joinNL (ss.map shareLine)) itemNames personKeys = ss := by
  cases ss with
  | nil => rfl
  | cons e0 rest =>
    set ss := e0 :: rest with hss
    have h0 : ss ≠ [] := by simp [hss]
    unfold parseShares
    have habbrne : ∀ e ∈ ss, joinComma e.2 ≠ [] := by
      intro e he
      obtain ⟨-, -, hne2, habbr⟩ := hg e he
      exact joinComma_ne_nil e.2 hne2 (fun a ha => (habbr a ha).1.1)
    have hlines : linesOf (joinNL (ss.map shareLine)) = ss.map shareLine := by
      apply linesOf_body
      · simp [h0]
      · intro l hl
        rcases List.mem_map.mp hl with ⟨e, he, rfl⟩
        obtain ⟨hg1, -, -, habbr⟩ := hg e he
        apply token_line_no_nl _ _ hg1.2.2.1
        intro hm
        rcases mem_joinComma hm with h1 | h1 | ⟨a, ha, hca⟩
        · exact absurd h1 (by decide)
        · exact absurd h1 (by decide)
        · exact (habbr a ha).1.2.2.1 hca
      · rw [hss]
        intro c hc
        obtain ⟨hg1, -, -, -⟩ := hg e0 (by simp [hss])
        rw [List.map_cons, show shareLine e0 = e0.1 ++ ':' :: ' ' :: joinComma e0.2 from rfl,
            joinNL_head? _ _ (token_line_ne_nil _ _ hg1.1),
            token_line_head? _ _ hg1.1] at hc
        exact stripped_head_not_ws e0.1 hg1.2.1 c hc
      · intro c hc
        obtain ⟨e, he, hle⟩ : ∃ e, e ∈ ss ∧ ss.getLast? = some e :=
          ⟨ss.getLast h0, List.getLast_mem h0, List.getLast?_eq_getLast ss h0⟩
        obtain ⟨hg1, -, hne2, habbr⟩ := hg e he
        obtain ⟨a, ha, hla⟩ : ∃ a, a ∈ e.2 ∧ e.2.getLast? = some a :=
          ⟨e.2.getLast hne2, List.getLast_mem hne2, List.getLast?_eq_getLast e.2 hne2⟩
        rw [joinNL_getLast? (ss.map shareLine) (shareLine e)
              (by rw [List.getLast?_map, hle]; rfl)
              (by intro l hl
                  rcases List.mem_map.mp hl with ⟨x, hx, rfl⟩
                  exact token_line_ne_nil _ _ (hg x hx).1.1),
            show shareLine e = e.1 ++ ':' :: ' ' :: joinComma e.2 from rfl,
            token_line_getLast? _ _ (habbrne e he),
            joinComma_getLast? e.2 a hla (fun x hx => (habbr x hx).1.1)] at hc
        exact stripped_last_not_ws a (habbr a ha).1.2.1 c hc
    rw [hlines, foldShares itemNames personKeys ss hg hnd [] (by intro e _; simp [dkeys_nil])]
    rfl

/-! ### Assembling the decode of an encoded bill -/

theorem not_pref_of_isPrefixOf_false {A B : Str} (h : A.isPrefixOf B = false) :
    ¬ A <+: B := fun hp => by
  rw [isPrefixOf_eq.mpr hp] at h
  exact Bool.true_eq_false.mp h

theorem not_suff_of_rev {A B : Str} (h : A.reverse.isPrefixOf B.reverse = false) :
    ¬ A <:+ B := fun hs => by
  rw [isPrefixOf_eq.mpr (rev_pref.mpr hs)] at h
  exact Bool.true_eq_false.mp h

theorem person_line_facts (H : Str) (hH3 : dash3 <+: H) (hHc : ':' ∉ H)
    (hHsp : ∀ t, H ≠ ' ' :: t) (p : Str × Str) (h1 : GoodTok p.1) (h2 : GoodTok p.2) :
    ¬ H <+: personLine p ∧ ¬ H <:+ personLine p := by
  rw [show personLine p = p.1 ++ ':' :: ' ' :: p.2 from rfl]
  exact ⟨hdr_not_pref_line H p.1 (' ' :: p.2) hH3 hHc h1.2.2.2.2.2,
         hdr_not_suff_line H p.1 p.2 hH3 hHc hHsp h2.2.2.2.2.2⟩

theorem item_line_facts (H : Str) (hH3 : dash3 <+: H) (hHc : ':' ∉ H)
    (hHsp : ∀ t, H ≠ ' ' :: t) (it : Str × ℚ) (h1 : GoodTok it.1) :
    ¬ H <+: itemLine it ∧ ¬ H <:+ itemLine it := by
  rw [show itemLine it = it.1 ++ ':' :: ' ' :: printDec it.2 from rfl]
  exact ⟨hdr_not_pref_line H it.1 _ hH3 hHc h1.2.2.2.2.2,
         hdr_not_suff_line H it.1 _ hH3 hHc hHsp (printDec_no_dash3 it.2)⟩

theorem fee_line_facts (H : Str) (hH3 : dash3 <+: H) (hHc : ':' ∉ H)
    (hHsp : ∀ t, H ≠ ' ' :: t) (nm : Str) (x : ℚ) (hnm : hasSub dash3 nm = false) :
    ¬ H <+: nm ++ ':' :: ' ' :: format2 x ∧ ¬ H <:+ nm ++ ':' :: ' ' :: format2 x :=
  ⟨hdr_not_pref_line H nm _ hH3 hHc hnm,
   hdr_not_suff_line H nm _ hH3 hHc hHsp (format2_no_dash3 x)⟩

theorem share_line_facts (H : Str) (hH3 : dash3 <+: H) (hHc : ':' ∉ H)
    (hHsp : ∀ t, H ≠ ' ' :: t) (e : Str × List Str) (h1 : GoodTok e.1)
    (habbr : ∀ a ∈ e.2, GoodTok a) :
    ¬ H <+: shareLine e ∧ ¬ H <:+ shareLine e := by
  rw [show shareLine e = e.1 ++ ':' :: ' ' :: joinComma e.2 from rfl]
  refine ⟨hdr_not_pref_line H e.1 _ hH3 hHc h1.2.2.2.2.2,
          hdr_not_suff_line H e.1 _ hH3 hHc hHsp ?_⟩
  apply (hasSub_false_iff _ _).mpr
  apply inf_joinComma dash3 (by decide) (by decide) (by decide) e.2
  intro a ha
  exact (hasSub_false_iff _ _).mp (habbr a ha).2.2.2.2.2

theorem empty_line_facts (H : Str) (hne : H ≠ []) :
    ¬ H <+: ([] : Str) ∧ ¬ H <:+ ([] : Str) :=
  ⟨fun h => hne (pref_nil.mp h), fun h => hne (suff_nil.mp h)⟩

theorem person_line_no_nl (p : Str × Str) (h1 : GoodTok p.1) (h2 : GoodTok p.2) :
    '\n' ∉ personLine p :=
  token_line_no_nl _ _ h1.2.2.1 h2.2.2.1

theorem item_line_no_nl (it : Str × ℚ) (h1 : GoodTok it.1) : '\n' ∉ itemLine it :=
  token_line_no_nl _ _ h1.2.2.1 (printDec_not_nl it.2)

theorem fee_line_no_nl (nm : Str) (x : ℚ) (hnm : '\n' ∉ nm) :
    '\n' ∉ nm ++ ':' :: ' ' :: format2 x :=
  token_line_no_nl _ _ hnm (format2_not_nl x)

theorem share_line_no_nl (e : Str × List Str) (h1 : GoodTok e.1)
    (habbr : ∀ a ∈ e.2, GoodTok a) : '\n' ∉ shareLine e := by
  apply token_line_no_nl _ _ h1.2.2.1
  intro hm
  rcases mem_joinComma hm with h | h | ⟨a, ha, hca⟩
  · exact absurd h (by decide)
  · exact absurd h (by decide)
  · exact (habbr a ha).2.2.1 hca

theorem joinNL_seg1 (A : Str) (M : List Str) (hM : M ≠ []) :
    joinNL ([A] ++ M) = A ++ '\n' :: joinNL M := by
  rw [joinNL_append _ _ (by simp) hM]
  rfl

theorem decode_encodeBill (b : Bill)
    (hp0 : b.persons ≠ [])
    (hpnd : (dkeys b.persons).Nodup)
    (hpg : ∀ p ∈ b.persons, GoodTok p.1 ∧ GoodTok p.2)
    (hig : ∀ it ∈ b.items, GoodTok it.1 ∧ IsDec it.2)
    (hsnd : (dkeys b.item_shares).Nodup)
    (hsg : ∀ e ∈ b.item_shares, e.1 ∈ dkeys b.items ∧ e.2 ≠ [] ∧
      ∀ a ∈ e.2, a ∈ dkeys b.persons) :
    parseBillInput (encodeBill b)
      = some ⟨b.persons, b.items, encFees b, b.item_shares⟩ := by
  have hsg' : ∀ e ∈ b.item_shares, GoodTok e.1 ∧ e.1 ∈ b.items.map (·.1) ∧ e.2 ≠ [] ∧
      ∀ a ∈ e.2, GoodTok a ∧ a ∈ b.persons.map (·.1) := by
    intro e he
    obtain ⟨hmem, hne, habbr⟩ := hsg e he
    refine ⟨?_, hmem, hne, ?_⟩
    · rcases mem_dkeys_exists b.items e.1 hmem with ⟨it, hit, hiteq⟩
      rw [← hiteq]
      exact (hig it hit).1
    · intro a ha
      rcases mem_dkeys_exists b.persons a (habbr a ha) with ⟨p, hp, hpeq⟩
      refine ⟨?_, habbr a ha⟩
      rw [← hpeq]
      exact (hpg p hp).1
  have hF3 : joinNL ([taxLine b, delLine b, tipLine b] ++ [[]])
      = taxLine b ++ '\n' :: (delLine b ++ '\n' :: (tipLine b ++ ['\n'])) := by
    rw [joinNL_append _ _ (by simp) (by simp),
        joinNL_cons_ne _ _ (by simp), joinNL_cons_ne _ _ (by simp), joinNL_single]
    simp [joinNL_single]
  have htext : encodeBill b
      = hdrP ++ '\n' :: (joinNL (bodyLines (b.persons.map personLine) ++ [[]]) ++ '\n' ::
        (hdrI ++ '\n' :: (joinNL (bodyLines (b.items.map itemLine) ++ [[]]) ++ '\n' ::
          (hdrF ++ '\n' :: (joinNL ([taxLine b, delLine b, tipLine b] ++ [[]]) ++ '\n' ::
            (hdrS ++ '\n' :: joinNL (bodyLines (b.item_shares.map shareLine)))))))) := by
    rw [joinNL_body_pad, joinNL_body_pad, hF3, joinNL_bodyLines]
    simp only [encodeBill, taxLine, delLine, tipLine, List.append_assoc, List.cons_append,
      List.singleton_append, List.nil_append]
  have hPL : ∀ l ∈ bodyLines (b.persons.map personLine) ++ [[]],
      '\n' ∉ l ∧ (∀ H, dash3 <+: H → ':' ∉ H → (∀ t, H ≠ ' ' :: t) → H ≠ [] →
        ¬ H <+: l ∧ ¬ H <:+ l) := by
    intro l hl
    rcases List.mem_append.mp hl with h | h
    · rcases mem_bodyLines h with rfl | h2
      · exact ⟨by simp, fun H _ _ _ hne => empty_line_facts H hne⟩
      · rcases List.mem_map.mp h2 with ⟨p, hp, rfl⟩
        exact ⟨person_line_no_nl p (hpg p hp).1 (hpg p hp).2,
               fun H h3 hc hsp _ => person_line_facts H h3 hc hsp p (hpg p hp).1 (hpg p hp).2⟩
    · simp only [List.mem_singleton] at h
      subst h
      exact ⟨by simp, fun H _ _ _ hne => empty_line_facts H hne⟩
  have hIL : ∀ l ∈ bodyLines (b.items.map itemLine) ++ [[]],
      '\n' ∉ l ∧ (∀ H, dash3 <+: H → ':' ∉ H → (∀ t, H ≠ ' ' :: t) → H ≠ [] →
        ¬ H <+: l ∧ ¬ H <:+ l) := by
    intro l hl
    rcases List.mem_append.mp hl with h | h
    · rcases mem_bodyLines h with rfl | h2
      · exact ⟨by simp, fun H _ _ _ hne => empty_line_facts H hne⟩
      · rcases List.mem_map.mp h2 with ⟨it, hit, rfl⟩
        exact ⟨item_line_no_nl it (hig it hit).1,
               fun H h3 hc hsp _ => item_line_facts H h3 hc hsp it (hig it hit).1⟩
    · simp only [List.mem_singleton] at h
      subst h
      exact ⟨by simp, fun H _ _ _ hne => empty_line_facts H hne⟩
  have hFL : ∀ l ∈ [taxLine b, delLine b, tipLine b] ++ [[]],
      '\n' ∉ l ∧ (∀ H, dash3 <+: H → ':' ∉ H → (∀ t, H ≠ ' ' :: t) → H ≠ [] →
        ¬ H <+: l ∧ ¬ H <:+ l) := by
    intro l hl
    simp only [List.mem_append, List.mem_cons, List.mem_singleton,
      List.not_mem_nil, or_false] at hl
    rcases hl with (rfl | rfl | rfl) | rfl
    · exact ⟨fee_line_no_nl ("Tax".toList) b.feeTax (by decide),
             fun H h3 hc hsp _ => fee_line_facts H h3 hc hsp ("Tax".toList) b.feeTax (by decide)⟩
    · exact ⟨fee_line_no_nl ("Delivery Fee".toList) b.feeDelivery (by decide),
             fun H h3 hc hsp _ =>
               fee_line_facts H h3 hc hsp ("Delivery Fee".toList) b.feeDelivery (by decide)⟩
    · exact ⟨fee_line_no_nl ("Tip".toList) b.feeTip (by decide),
             fun H h3 hc hsp _ => fee_line_facts H h3 hc hsp ("Tip".toList) b.feeTip (by decide)⟩
    · exact ⟨by simp, fun H _ _ _ hne => empty_line_facts H hne⟩
  have hSL : ∀ l ∈ bodyLines (b.item_shares.map shareLine),
      '\n' ∉ l ∧ (∀ H, dash3 <+: H → ':' ∉ H → (∀ t, H ≠ ' ' :: t) → H ≠ [] →
        ¬ H <+: l ∧ ¬ H <:+ l) := by
    intro l hl
    rcases mem_bodyLines hl with rfl | h2
    · exact ⟨by simp, fun H _ _ _ hne => empty_line_facts H hne⟩
    · rcases List.mem_map.mp h2 with ⟨e, he, rfl⟩
      exact ⟨share_line_no_nl e (hsg' e he).1 (fun a ha => ((hsg' e he).2.2.2 a ha).1),
             fun H h3 hc hsp _ => share_line_facts H h3 hc hsp e (hsg' e he).1
               (fun a ha => ((hsg' e he).2.2.2 a ha).1)⟩
  have hdrIb : (dash3 <+: hdrI) ∧ ':' ∉ hdrI ∧ (∀ t, hdrI ≠ ' ' :: t) ∧ hdrI ≠ [] ∧
      '\n' ∉ hdrI :=
    ⟨isPrefixOf_eq.mp (by decide), by decide, ne_space_cons hdrI (by decide), by decide,
     by decide⟩
  have hdrFb : (dash3 <+: hdrF) ∧ ':' ∉ hdrF ∧ (∀ t, hdrF ≠ ' ' :: t) ∧ hdrF ≠ [] ∧
      '\n' ∉ hdrF :=
    ⟨isPrefixOf_eq.mp (by decide), by decide, ne_space_cons hdrF (by decide), by decide,
     by decide⟩
  have hdrSb : (dash3 <+: hdrS) ∧ ':' ∉ hdrS ∧ (∀ t, hdrS ≠ ' ' :: t) ∧ hdrS ≠ [] ∧
      '\n' ∉ hdrS :=
    ⟨isPrefixOf_eq.mp (by decide), by decide, ne_space_cons hdrS (by decide), by decide,
     by decide⟩
  have hPc : extractSec (encodeBill b) hdrP hdrI
      = some (joinNL (b.persons.map personLine) ++ ['\n']) := by
    rw [htext, ← joinNL_body_pad]
    exact extractSec_at hdrP hdrI _ _ hdrIb.2.2.2.2
      (by simp [bodyLines_ne_nil])
      (fun l hl => (hPL l hl).1)
      (fun l hl =>
        ((hPL l hl).2 hdrI hdrIb.1 hdrIb.2.1 hdrIb.2.2.1 hdrIb.2.2.2.1).1)
      (pref_append hdrI _)
  have htextI : encodeBill b
      = joinNL ([hdrP] ++ (bodyLines (b.persons.map personLine) ++ [[]])) ++ '\n' ::
        (hdrI ++ '\n' :: (joinNL (bodyLines (b.items.map itemLine) ++ [[]]) ++ '\n' ::
          (hdrF ++ '\n' :: (joinNL ([taxLine b, delLine b, tipLine b] ++ [[]]) ++ '\n' ::
            (hdrS ++ '\n' :: joinNL (bodyLines (b.item_shares.map shareLine))))))) := by
    rw [joinNL_seg1 _ _ (by simp [bodyLines_ne_nil]), htext]
    simp [List.append_assoc]
  have hM0I : ∀ l ∈ [hdrP] ++ (bodyLines (b.persons.map personLine) ++ [[]]),
      '\n' ∉ l ∧ ¬ hdrI <:+ l := by
    intro l hl
    rcases List.mem_append.mp hl with h | h
    · simp only [List.mem_singleton] at h
      subst h
      exact ⟨by decide, not_suff_of_rev (by decide)⟩
    · exact ⟨(hPL l h).1,
        ((hPL l h).2 hdrI hdrIb.1 hdrIb.2.1 hdrIb.2.2.1 hdrIb.2.2.2.1).2⟩
  have hIc : extractSec (encodeBill b) hdrI hdrF
      = some (joinNL (b.items.map itemLine) ++ ['\n']) := by
    rw [htextI, ← joinNL_body_pad]
    exact extractSec_skip hdrI hdrF _ _ _ hdrIb.2.2.2.1 hdrIb.2.2.2.2 hdrFb.2.2.2.2
      (by simp)
      (fun l hl => (hM0I l hl).1)
      (fun l hl => (hM0I l hl).2)
      (by simp [bodyLines_ne_nil])
      (fun l hl => (hIL l hl).1)
      (fun l hl =>
        ((hIL l hl).2 hdrF hdrFb.1 hdrFb.2.1 hdrFb.2.2.1 hdrFb.2.2.2.1).1)
      (pref_append hdrF _)
  have htextF : encodeBill b
      = joinNL (([hdrP] ++ (bodyLines (b.persons.map personLine) ++ [[]])) ++
          ([hdrI] ++ (bodyLines (b.items.map itemLine) ++ [[]]))) ++ '\n' ::
        (hdrF ++ '\n' :: (joinNL ([taxLine b, delLine b, tipLine b] ++ [[]]) ++ '\n' ::
          (hdrS ++ '\n' :: joinNL (bodyLines (b.item_shares.map shareLine))))) := by
    rw [joinNL_append _ _ (by simp) (by simp), joinNL_seg1 _ _ (by simp [bodyLines_ne_nil]),
        joinNL_seg1 _ _ (by simp [bodyLines_ne_nil]), htext]
    simp [List.append_assoc]
  have hM0F : ∀ l ∈ ([hdrP] ++ (bodyLines (b.persons.map personLine) ++ [[]])) ++
      ([hdrI] ++ (bodyLines (b.items.map itemLine) ++ [[]])),
      '\n' ∉ l ∧ ¬ hdrF <:+ l := by
    intro l hl
    rcases List.mem_append.mp hl with h | h
    · rcases List.mem_append.mp h with h1 | h1
      · simp only [List.mem_singleton] at h1
        subst h1
        exact ⟨by decide, not_suff_of_rev (by decide)⟩
      · exact ⟨(hPL l h1).1,
          ((hPL l h1).2 hdrF hdrFb.1 hdrFb.2.1 hdrFb.2.2.1 hdrFb.2.2.2.1).2⟩
    · rcases List.mem_append.mp h with h1 | h1
      · simp only [List.mem_singleton] at h1
        subst h1
        exact ⟨by decide, not_suff_of_rev (by decide)⟩
      · exact ⟨(hIL l h1).1,
          ((hIL l h1).2 hdrF hdrFb.1 hdrFb.2.1 hdrFb.2.2.1 hdrFb.2.2.2.1).2⟩
  have hFc : extractSec (encodeBill b) hdrF hdrS
      = some (joinNL [taxLine b, delLine b, tipLine b] ++ ['\n']) := by
    have hpad : joinNL ([taxLine b, delLine b, tipLine b] ++ [[]])
        = joinNL [taxLine b, delLine b, tipLine b] ++ ['\n'] := by
      rw [joinNL_append _ _ (by simp) (by simp)]
      rfl
    rw [htextF, ← hpad]
    exact extractSec_skip hdrF hdrS _ _ _ hdrFb.2.2.2.1 hdrFb.2.2.2.2 hdrSb.2.2.2.2
      (by simp)
      (fun l hl => (hM0F l hl).1)
      (fun l hl => (hM0F l hl).2)
      (by simp)
      (fun l hl => (hFL l hl).1)
      (fun l hl =>
        ((hFL l hl).2 hdrS hdrSb.1 hdrSb.2.1 hdrSb.2.2.1 hdrSb.2.2.2.1).1)
      (pref_append hdrS _)
  have htextS : encodeBill b
      = joinNL ((([hdrP] ++ (bodyLines (b.persons.map personLine) ++ [[]])) ++
          ([hdrI] ++ (bodyLines (b.items.map itemLine) ++ [[]]))) ++
          ([hdrF] ++ ([taxLine b, delLine b, tipLine b] ++ [[]]))) ++ '\n' ::
        (hdrS ++ '\n' :: joinNL (bodyLines (b.item_shares.map shareLine))) := by
    rw [joinNL_append _ _ (by simp) (by simp), joinNL_append _ _ (by simp) (by simp),
        joinNL_seg1 _ _ (by simp [bodyLines_ne_nil]),
        joinNL_seg1 _ _ (by simp [bodyLines_ne_nil]),
        joinNL_seg1 _ _ (by simp), htext]
    simp [List.append_assoc]
  have hM0S : ∀ l ∈ (([hdrP] ++ (bodyLines (b.persons.map personLine) ++ [[]])) ++
      ([hdrI] ++ (bodyLines (b.items.map itemLine) ++ [[]]))) ++
      ([hdrF] ++ ([taxLine b, delLine b, tipLine b] ++ [[]])),
      '\n' ∉ l ∧ ¬ hdrS <:+ l := by
    intro l hl
    rcases List.mem_append.mp hl with h | h
    · rcases List.mem_append.mp h with h1 | h1
      · rcases List.mem_append.mp h1 with h2 | h2
        · simp only [List.mem_singleton] at h2
          subst h2
          exact ⟨by decide, not_suff_of_rev (by decide)⟩
        · exact ⟨(hPL l h2).1,
            ((hPL l h2).2 hdrS hdrSb.1 hdrSb.2.1 hdrSb.2.2.1 hdrSb.2.2.2.1).2⟩
      · rcases List.mem_append.mp h1 with h2 | h2
        · simp only [List.mem_singleton] at h2
          subst h2
          exact ⟨by decide, not_suff_of_rev (by decide)⟩
        · exact ⟨(hIL l h2).1,
            ((hIL l h2).2 hdrS hdrSb.1 hdrSb.2.1 hdrSb.2.2.1 hdrSb.2.2.2.1).2⟩
    · rcases List.mem_append.mp h with h1 | h1
      · simp only [List.mem_singleton] at h1
        subst h1
        exact ⟨by decide, not_suff_of_rev (by decide)⟩
      · exact ⟨(hFL l h1).1,
          ((hFL l h1).2 hdrS hdrSb.1 hdrSb.2.1 hdrSb.2.2.1 hdrSb.2.2.2.1).2⟩
  have hSc : extractTail (encodeBill b) hdrS
      = some (joinNL (bodyLines (b.item_shares.map shareLine))) := by
    rw [htextS]
    exact extractTail_skip hdrS _ _ hdrSb.2.2.2.1 hdrSb.2.2.2.2
      (by simp)
      (fun l hl => (hM0S l hl).1)
      (fun l hl => (hM0S l hl).2)
  simp only [parseBillInput, hPc, hIc, hFc, hSc,
    parsePersons_enc b.persons hp0 hpg hpnd, if_neg hp0,
    parseItems_enc b.items hig, parseFees_enc b, fillFees_encFees b,
    joinNL_bodyLines, parseShares_enc _ _ b.item_shares hsg' hsnd]

set_option maxRecDepth 40000

/-- C2: counterexample to the round-trip claim as stated.  The bill
`c2bad` has a single person whose full name ` Bob` is free of `:`, `,` and
newline characters (the only exclusions the claim makes), yet decoding the
encoded text strips the leading space, so the decoded persons map differs
from the original. -/
theorem c2_round_trip_counterexample :
    (∀ p ∈ c2bad.persons, ∀ c ∈ p.1 ++ p.2, c ≠ ':' ∧ c ≠ ',' ∧ c ≠ '\n') ∧
    (parseBillInput (encodeBill c2bad)).map ParsedData.persons ≠ some c2bad.persons := by
  decide

/-- C2 (amended): for every bill whose person abbreviations, full names,
item names and sharer lists are well-behaved tokens (nonempty,
strip-invariant, and free of newline, `:`, `,` and the `---` header marker),
with a nonempty persons map with distinct abbreviations, exactly-decimal
item prices, duplicate-free item-share keys each naming a listed item with a
nonempty sharer list of known abbreviations, decoding the encoded
four-section text reproduces the bill: the same persons map, the same items
with equal prices, the three canonical fees at the encoder's 2-decimal
rendering, and the same item_shares map. -/
theorem c2_round_trip_amended (b : Bill)
    (hp0 : b.persons ≠ [])
    (hpnd : (dkeys b.persons).Nodup)
    (hpg : ∀ p ∈ b.persons, GoodTok p.1 ∧ GoodTok p.2)
    (hig : ∀ it ∈ b.items, GoodTok it.1 ∧ IsDec it.2)
    (hsnd : (dkeys b.item_shares).Nodup)
    (hsg : ∀ e ∈ b.item_shares, e.1 ∈ dkeys b.items ∧ e.2 ≠ [] ∧
      ∀ a ∈ e.2, a ∈ dkeys b.persons) :
    parseBillInput (encodeBill b)
      = some ⟨b.persons, b.items, encFees b, b.item_shares⟩ :=
  decode_encodeBill b hp0 hpnd hpg hig hsnd hsg

/-- C2 witness: the amended round-trip applied to the concrete bill `c2ex`
(two persons, one item priced 1.5, fees 0.1/2/0, one shared item). -/
theorem c2_round_trip_amended_witness :
    c2ex.persons ≠ [] ∧
    parseBillInput (encodeBill c2ex)
      = some ⟨c2ex.persons, c2ex.items, encFees c2ex, c2ex.item_shares⟩ :=
  ⟨by decide, c2_round_trip_amended c2ex (by decide) (by decide) (by decide) (by decide)
    (by decide) (by decide)⟩
